import Mathlib

/-!
Verification of the `MinMaxTree` (binary min-max excess tree) from
`src/trees/mmt.rs`.  The Rust code is shallowly embedded: the bit vector
becomes a `List Bool` (`true` = opening parenthesis, contributing +1 to the
running excess), `i64` becomes `Int` (the Rust sentinels `i64::MAX` /
`i64::MIN` are kept as explicit constants), `usize` becomes `Nat`, and the
recursive search procedures carry an explicit fuel argument so that every
definition is executable by the kernel; the fuel given at each call site is a
bound on the recursion depth that the Rust recursion also respects, so the
fuel-exhaustion branch is never taken under the stated hypotheses.
A Rust panic (`unreachable!()`, `Option::unwrap` on `None`) is modelled by the
explicit result `RustResult.panicked`.
-/

namespace Vers

/-- Contribution of one parenthesis bit to the running excess (+1 open, -1 close). -/
def bitVal (b : Bool) : Int := if b then 1 else -1

/-- Net excess of a whole bit list. -/
def excess (l : List Bool) : Int := (l.map bitVal).sum

/-- Excess of the sequence at cut point `p` (after the first `p` bits). -/
def cutExcess (l : List Bool) (p : Nat) : Int := excess (l.take p)

/-- Running-excess values at every nonempty prefix, starting from accumulator `a`. -/
def walkVals : List Bool → Int → List Int
  | [], _ => []
  | b :: r, a => (a + bitVal b) :: walkVals r (a + bitVal b)

/-- Minimum of an integer list folded onto a starting value. -/
def intMin (l : List Int) (a : Int) : Int := l.foldl Min.min a

/-- Maximum of an integer list folded onto a starting value. -/
def intMax (l : List Int) (a : Int) : Int := l.foldl Max.max a

/-- The Rust constant `i64::MAX`, used by `excess_tree` as the initial
minimum-excess accumulator. -/
def i64MAX : Int := 9223372036854775807

/-- The Rust constant `i64::MIN`, used by `excess_tree` as the initial
maximum-excess accumulator. -/
def i64MIN : Int := -9223372036854775808

/-- A singular node in the binary min-max tree (`ExcessNode` in `mmt.rs`). -/
@[ext]
structure ExcessNode where
  total : Int
  min : Int
  max : Int
  deriving Repr, DecidableEq, Inhabited

/-- Rust `ExcessNode::default()` (all `i64` fields zero). -/
def ExcessNode.dflt : ExcessNode := ⟨0, 0, 0⟩

/-- One step of the per-block accumulator of `excess_tree`'s scan loop:
state is `(total_excess, min_excess, max_excess)`. -/
def stepBit (s : Int × Int × Int) (b : Bool) : Int × Int × Int :=
  (s.1 + bitVal b, Min.min s.2.1 (s.1 + bitVal b), Max.max s.2.2 (s.1 + bitVal b))

/-- Aggregate of a block exactly as the scan loop of `excess_tree` computes it
(accumulators start at `0`, `i64::MAX`, `i64::MIN`). -/
def walkAgg (l : List Bool) : ExcessNode :=
  let s := l.foldl stepBit (0, i64MAX, i64MIN)
  ⟨s.1, s.2.1, s.2.2⟩

/-- Block `j` of the bit sequence: `block_size` bits starting at `j * block_size`
(the last block may be shorter). -/
def blk (l : List Bool) (block_size j : Nat) : List Bool :=
  (l.drop (j * block_size)).take block_size

/-- Rust `usize::div_ceil` (for a positive divisor). -/
def divCeil (a b : Nat) : Nat := (a + b - 1) / b

/-- Fueled ceiling log2: `clog2Aux fuel n` equals `⌈log2 n⌉` whenever `fuel ≥ n`
(structural in the fuel so the kernel can evaluate it). -/
def clog2Aux : Nat → Nat → Nat
  | 0, _ => 0
  | fuel + 1, n => if n ≤ 1 then 0 else clog2Aux fuel ((n + 1) / 2) + 1

/-- Ceiling of log2 (`(n as f64).log2().ceil()` in the Rust source, which is
exact for every `n` a real machine can hold). -/
def clog2 (n : Nat) : Nat := clog2Aux n n

/-- Rust `usize::next_power_of_two`: the least power of two that is `≥ n`. -/
def nextPow2 (n : Nat) : Nat := 2 ^ clog2 n

/-- The binary min-max tree (`MinMaxTree` in `mmt.rs`): a boxed slice of nodes. -/
structure MinMaxTree where
  nodes : List ExcessNode
  deriving Repr, DecidableEq, Inhabited

/-- State of `excess_tree`'s scan loop: the node array plus the three
per-block accumulators. -/
structure ScanState where
  nodes : List ExcessNode
  total_excess : Int
  min_excess : Int
  max_excess : Int
  deriving Repr, DecidableEq

/-- Body of `excess_tree`'s scan loop for index `i` (lines 58-76 of `mmt.rs`):
flush the previous block's aggregate at block boundaries, then fold bit `i`
into the accumulators. -/
def scanStep (bit_vec : List Bool) (block_size num_internal_nodes : Nat)
    (s : ScanState) (i : Nat) : ScanState :=
  let s :=
    if 0 < i ∧ i % block_size = 0 then
      { nodes := s.nodes.set (num_internal_nodes + i / block_size - 1)
          ⟨s.total_excess, s.min_excess, s.max_excess⟩
        total_excess := 0
        min_excess := i64MAX
        max_excess := i64MIN }
    else s
  let t := s.total_excess + bitVal (bit_vec.getD i false)
  { s with
    total_excess := t
    min_excess := Min.min s.min_excess t
    max_excess := Max.max s.max_excess t }

/-- The scan phase of `excess_tree`: run the loop over all bit indices, then
flush the final (possibly partial) block (lines 53-81 of `mmt.rs`). -/
def scanPhase (bit_vec : List Bool) (block_size num_internal_nodes : Nat)
    (init : List ExcessNode) : List ExcessNode :=
  let s := (List.range bit_vec.length).foldl
    (scanStep bit_vec block_size num_internal_nodes)
    ⟨init, 0, i64MAX, i64MIN⟩
  s.nodes.set
    (num_internal_nodes + divCeil bit_vec.length block_size - 1)
    ⟨s.total_excess, s.min_excess, s.max_excess⟩

/-- One internal-node computation of `excess_tree`'s bottom-up loop
(lines 86-103 of `mmt.rs`): combine both children, copy a sole left child,
or leave the slot untouched. -/
def buildLevelNode (nodes : List ExcessNode) (idx : Nat) : List ExcessNode :=
  let left_child_index := idx * 2 + 1
  let right_child_index := idx * 2 + 2
  if left_child_index < nodes.length then
    if right_child_index < nodes.length then
      let lc := nodes.getD left_child_index ExcessNode.dflt
      let rc := nodes.getD right_child_index ExcessNode.dflt
      nodes.set idx
        ⟨lc.total + rc.total,
         Min.min lc.min (lc.total + rc.min),
         Max.max lc.max (lc.total + rc.max)⟩
    else
      nodes.set idx (nodes.getD left_child_index ExcessNode.dflt)
  else nodes

/-- The bottom-up level loop of `excess_tree` (lines 83-112 of `mmt.rs`),
with fuel bounding the number of levels (`fuel ≥ size` suffices, since the
level size halves every iteration). -/
def buildLevelsAux : Nat → List ExcessNode → Nat → Nat → List ExcessNode
  | 0, nodes, _, _ => nodes
  | fuel + 1, nodes, current_level_size, current_level_start =>
    let nodes := (List.range current_level_size).foldl
      (fun ns i => buildLevelNode ns (current_level_start + i)) nodes
    if current_level_size ≤ 1 then nodes
    else
      buildLevelsAux fuel nodes (current_level_size / 2)
        (current_level_start - current_level_size / 2)

/-- `MinMaxTree::excess_tree` (lines 44-117 of `mmt.rs`). -/
def excess_tree (bit_vec : List Bool) (block_size : Nat) : MinMaxTree :=
  if bit_vec.isEmpty then ⟨[]⟩
  else
    let num_leaves := divCeil bit_vec.length block_size
    let num_internal_nodes := max 1 (nextPow2 num_leaves - 1)
    let init : List ExcessNode :=
      List.replicate (num_leaves + num_internal_nodes) ExcessNode.dflt
    let scanned := scanPhase bit_vec block_size num_internal_nodes init
    let size0 := max 1 (nextPow2 num_leaves / 2)
    let start0 := num_internal_nodes - size0
    ⟨buildLevelsAux size0 scanned size0 start0⟩

namespace MinMaxTree

/-- `MinMaxTree::total_excess`. -/
def total_excess (t : MinMaxTree) (index : Nat) : Int :=
  (t.nodes.getD index ExcessNode.dflt).total

/-- `MinMaxTree::min_excess`. -/
def min_excess (t : MinMaxTree) (index : Nat) : Int :=
  (t.nodes.getD index ExcessNode.dflt).min

/-- `MinMaxTree::max_excess`. -/
def max_excess (t : MinMaxTree) (index : Nat) : Int :=
  (t.nodes.getD index ExcessNode.dflt).max

/-- `MinMaxTree::parent` (the Rust argument is a `NonZeroUsize`; callers only
pass positive indices). -/
def parent (t : MinMaxTree) (index : Nat) : Option Nat :=
  if index < t.nodes.length then some ((index - 1) / 2) else none

/-- `MinMaxTree::left_child`: the returned index `2*index+1` is always
positive, so the Rust `NonZeroUsize::new` always succeeds. -/
def left_child (t : MinMaxTree) (index : Nat) : Option Nat :=
  if index * 2 + 1 < t.nodes.length then some (index * 2 + 1) else none

/-- `MinMaxTree::right_child`. -/
def right_child (t : MinMaxTree) (index : Nat) : Option Nat :=
  if index * 2 + 2 < t.nodes.length then some (index * 2 + 2) else none

/-- `MinMaxTree::right_sibling` (bounds-checked). -/
def right_sibling (t : MinMaxTree) (index : Nat) : Option Nat :=
  if index % 2 = 1 then
    if index + 1 ≥ t.nodes.length then none else some (index + 1)
  else none

/-- `MinMaxTree::left_sibling` (NOT bounds-checked: for an even `NonZeroUsize`
the index is at least 2, so `NonZeroUsize::new (index - 1)` succeeds; the
`index - 1 = 0` test mirrors `NonZeroUsize::new` returning `None`, which for
the Rust input type can only be vacuous). -/
def left_sibling (t : MinMaxTree) (index : Nat) : Option Nat :=
  if index % 2 = 0 then
    if index - 1 = 0 then none else some (index - 1)
  else none

/-- `MinMaxTree::is_left_child`. -/
def is_left_child (t : MinMaxTree) (index : Nat) : Bool := index % 2 = 1

/-- `MinMaxTree::first_leaf` (the `debug_assert` of the source is a debug-only
assertion and has no release semantics; on the empty tree the formula yields 0). -/
def first_leaf (t : MinMaxTree) : Nat :=
  match t.nodes.length with
  | 2 => 1
  | _ => nextPow2 (divCeil t.nodes.length 2) - 1

/-- `MinMaxTree::is_leaf`. -/
def is_leaf (t : MinMaxTree) (index : Nat) : Bool := t.first_leaf ≤ index

end MinMaxTree

/-- Result of a Rust function that can panic: `ok r` is a normal return of
`r`, `panicked` models `unreachable!()` or a failed `unwrap` (and, in the
fueled embedding, fuel exhaustion, which never occurs at the call sites'
fuel). -/
inductive RustResult (α : Type) where
  | ok : α → RustResult α
  | panicked : RustResult α
  deriving Repr, DecidableEq

namespace MinMaxTree

/-- `MinMaxTree::do_fwd_downwards_search` (lines 297-334 of `mmt.rs`), with
fuel bounding the descent depth. At a leaf the Rust code returns
`NonZeroUsize::new(node).map(...)`, which is `None` exactly when `node = 0`. -/
def do_fwd_downwards_search (t : MinMaxTree) :
    Nat → Nat → Int → RustResult (Option (Nat × Int))
  | 0, _, _ => .panicked
  | fuel + 1, node, relative_excess =>
    if t.is_leaf node then
      .ok (if node = 0 then none else some (node, relative_excess))
    else
      match t.left_child node with
      | some lc =>
        if t.min_excess lc ≤ relative_excess ∧ relative_excess ≤ t.max_excess lc then
          do_fwd_downwards_search t fuel lc relative_excess
        else
          match t.right_child node with
          | some rc =>
            if t.min_excess rc ≤ relative_excess - t.total_excess lc ∧
                relative_excess - t.total_excess lc ≤ t.max_excess rc then
              do_fwd_downwards_search t fuel rc (relative_excess - t.total_excess lc)
            else .panicked
          | none => .panicked
      | none => .panicked

/-- `MinMaxTree::do_fwd_upwards_search` (lines 249-292 of `mmt.rs`), with fuel
bounding the ascent length; the switch to the downward phase passes
`t.nodes.length` as (sufficient) fuel for the descent. -/
def do_fwd_upwards_search (t : MinMaxTree) :
    Nat → Nat → Int → RustResult (Option (Nat × Int))
  | 0, _, _ => .panicked
  | fuel + 1, node, relative_excess =>
    if ¬ t.is_left_child node then
      match t.parent node with
      | none => .panicked
      | some p =>
        if p = 0 then .ok none
        else do_fwd_upwards_search t fuel p relative_excess
    else
      match t.right_sibling node with
      | some rs =>
        if t.min_excess rs ≤ relative_excess ∧ relative_excess ≤ t.max_excess rs then
          do_fwd_downwards_search t t.nodes.length rs relative_excess
        else
          match t.parent node with
          | none => .panicked
          | some p =>
            if p = 0 then .ok none
            else do_fwd_upwards_search t fuel p (relative_excess - t.total_excess rs)
      | none => .ok none

/-- `MinMaxTree::do_bwd_downwards_search` (lines 389-432 of `mmt.rs`). -/
def do_bwd_downwards_search (t : MinMaxTree) :
    Nat → Nat → Int → RustResult (Option (Nat × Int))
  | 0, _, _ => .panicked
  | fuel + 1, node, relative_excess =>
    if t.is_leaf node then
      .ok (if node = 0 then none else some (node, relative_excess))
    else
      match t.right_child node with
      | some rc =>
        if relative_excess + t.total_excess rc = 0 ∨
            (t.min_excess rc ≤ relative_excess + t.total_excess rc ∧
             relative_excess + t.total_excess rc ≤ t.max_excess rc) then
          do_bwd_downwards_search t fuel rc relative_excess
        else
          match t.left_child node with
          | some lc =>
            if relative_excess + t.total_excess rc + t.total_excess lc = 0 ∨
                (t.min_excess lc ≤ relative_excess + t.total_excess rc + t.total_excess lc ∧
                 relative_excess + t.total_excess rc + t.total_excess lc ≤ t.max_excess lc) then
              do_bwd_downwards_search t fuel lc (relative_excess + t.total_excess rc)
            else .panicked
          | none => .panicked
      | none => .panicked

/-- `MinMaxTree::do_bwd_upwards_search` (lines 339-384 of `mmt.rs`). -/
def do_bwd_upwards_search (t : MinMaxTree) :
    Nat → Nat → Int → RustResult (Option (Nat × Int))
  | 0, _, _ => .panicked
  | fuel + 1, node, relative_excess =>
    if t.is_left_child node then
      match t.parent node with
      | none => .panicked
      | some p =>
        if p = 0 then .ok none
        else do_bwd_upwards_search t fuel p relative_excess
    else
      match t.left_sibling node with
      | some ls =>
        if relative_excess + t.total_excess ls = 0 ∨
            (t.min_excess ls ≤ relative_excess + t.total_excess ls ∧
             relative_excess + t.total_excess ls ≤ t.max_excess ls) then
          do_bwd_downwards_search t t.nodes.length ls relative_excess
        else
          match t.parent node with
          | none => .panicked
          | some p =>
            if p = 0 then .ok none
            else do_bwd_upwards_search t fuel p (relative_excess + t.total_excess ls)
      | none => .ok none

/-- `MinMaxTree::fwd_search` (lines 213-223 of `mmt.rs`), with the `usize`
sum `begin + first_leaf` rendered as unbounded `Nat` addition: this agrees
with the release-mode Rust pointwise whenever that sum does not overflow
(`fwd_search_usize` below makes the wrap-around explicit).  The
`NonZeroUsize::new(begin + first_leaf).unwrap()` panics when that sum is 0;
the result node index is translated back to a block index by subtracting
`first_leaf`. -/
def fwd_search (t : MinMaxTree) (begin : Nat) (relative_excess : Int) :
    RustResult (Option (Nat × Int)) :=
  if t.nodes.length ≤ begin + t.first_leaf then .ok none
  else if begin + t.first_leaf = 0 then .panicked
  else
    match do_fwd_upwards_search t t.nodes.length (begin + t.first_leaf) relative_excess with
    | .ok r => .ok (r.map fun n => (n.1 - t.first_leaf, n.2))
    | .panicked => .panicked

/-- `MinMaxTree::bwd_search` (lines 235-244 of `mmt.rs`), with the same
unbounded rendering of the `usize` sum as `fwd_search` (`bwd_search_usize`
below makes the wrap-around explicit). -/
def bwd_search (t : MinMaxTree) (begin : Nat) (relative_excess : Int) :
    RustResult (Option (Nat × Int)) :=
  if t.nodes.length ≤ begin + t.first_leaf then .ok none
  else if begin + t.first_leaf = 0 then .panicked
  else
    match do_bwd_upwards_search t t.nodes.length (begin + t.first_leaf) relative_excess with
    | .ok r => .ok (r.map fun n => (n.1 - t.first_leaf, n.2))
    | .panicked => .panicked

/-- `MinMaxTree::fwd_search` (lines 213-223 of `mmt.rs`) with release-mode
`usize` arithmetic made explicit: the sum `begin + self.first_leaf()` and the
subtraction `idx - self.first_leaf()` wrap modulo `2 ^ 64`.  When the sum
overflows, the wrapped value is smaller than the array length, so the
out-of-range guard is bypassed and the search starts from the wrapped node
(panicking at the `unwrap` when it wraps to 0). -/
def fwd_search_usize (t : MinMaxTree) (begin : Nat) (relative_excess : Int) :
    RustResult (Option (Nat × Int)) :=
  if t.nodes.length ≤ (begin + t.first_leaf) % 2 ^ 64 then .ok none
  else if (begin + t.first_leaf) % 2 ^ 64 = 0 then .panicked
  else
    match do_fwd_upwards_search t t.nodes.length ((begin + t.first_leaf) % 2 ^ 64)
        relative_excess with
    | .ok r => .ok (r.map fun n => ((n.1 + 2 ^ 64 - t.first_leaf) % 2 ^ 64, n.2))
    | .panicked => .panicked

/-- `MinMaxTree::bwd_search` (lines 235-244 of `mmt.rs`) with release-mode
`usize` arithmetic made explicit, exactly as in `fwd_search_usize`. -/
def bwd_search_usize (t : MinMaxTree) (begin : Nat) (relative_excess : Int) :
    RustResult (Option (Nat × Int)) :=
  if t.nodes.length ≤ (begin + t.first_leaf) % 2 ^ 64 then .ok none
  else if (begin + t.first_leaf) % 2 ^ 64 = 0 then .panicked
  else
    match do_bwd_upwards_search t t.nodes.length ((begin + t.first_leaf) % 2 ^ 64)
        relative_excess with
    | .ok r => .ok (r.map fun n => ((n.1 + 2 ^ 64 - t.first_leaf) % 2 ^ 64, n.2))
    | .panicked => .panicked

end MinMaxTree

/-! ### Brute-force reference searches, following the specification's words

The spec's contract for `fwd_search`: find the first leaf block with index
strictly greater than `begin` containing a position whose excess, relative to
the excess at the end of block `begin`, equals `x`; report `x` re-expressed
relative to the start of the found block.  A "position" of a block is a cut
point of the bit sequence lying in the block; for the forward direction a
block owns the cut points `(j*B, (j+1)*B]` (each position belongs to the
block whose scan reaches it), and for the backward direction it additionally
owns its left edge `j*B` (the spec's exact-zero boundary rule). -/

/-- Does block `j` contain a forward position (cut point in `(j*B, (j+1)*B]`,
within the sequence) of absolute excess `T`? -/
def blockMatchFwd (l : List Bool) (block_size j : Nat) (T : Int) : Bool :=
  (List.range block_size).any fun c =>
    decide (j * block_size + c + 1 ≤ l.length) &&
    decide (cutExcess l (j * block_size + c + 1) = T)

/-- Does block `j` contain a backward position (cut point in `[j*B, (j+1)*B]`,
within the sequence) of absolute excess `T`? -/
def blockMatchBwd (l : List Bool) (block_size j : Nat) (T : Int) : Bool :=
  (List.range (block_size + 1)).any fun c =>
    decide (j * block_size + c ≤ l.length) &&
    decide (cutExcess l (j * block_size + c) = T)

/-- Brute-force forward search: scan the blocks right of `begin` left-to-right
for the first one containing a position whose excess relative to the end of
block `begin` is `x`. -/
def fwdBruteSearch (l : List Bool) (block_size begin : Nat) (x : Int) :
    Option (Nat × Int) :=
  let numBlocks := divCeil l.length block_size
  let T := cutExcess l (min ((begin + 1) * block_size) l.length) + x
  match (List.range numBlocks).find? (fun j =>
      decide (begin < j) && blockMatchFwd l block_size j T) with
  | some j => some (j, T - cutExcess l (j * block_size))
  | none => none

/-- Brute-force backward search: scan the blocks left of `begin` right-to-left
for the first one containing a position whose excess relative to the start of
block `begin` is `x`. -/
def bwdBruteSearch (l : List Bool) (block_size begin : Nat) (x : Int) :
    Option (Nat × Int) :=
  let T := cutExcess l (min (begin * block_size) l.length) + x
  match ((List.range begin).reverse).find? (fun j =>
      blockMatchBwd l block_size j T) with
  | some j => some (j, T - cutExcess l ((j + 1) * block_size))
  | none => none

/-! ### Auxiliary definitions used by the verification -/

/-- Number of leaf blocks for a bit sequence and block size. -/
def numLeaves (l : List Bool) (block_size : Nat) : Nat := divCeil l.length block_size

/-- Height of the leaf level: `⌈log2 (numLeaves)⌉`. -/
def treeH (l : List Bool) (block_size : Nat) : Nat := clog2 (numLeaves l block_size)

/-- Number of internal nodes allocated by `excess_tree`. -/
def numInternal (l : List Bool) (block_size : Nat) : Nat :=
  max 1 (nextPow2 (numLeaves l block_size) - 1)

/-- Total number of nodes of the tree built by `excess_tree` (nonempty input). -/
def numNodes (l : List Bool) (block_size : Nat) : Nat :=
  numLeaves l block_size + numInternal l block_size

/-- Depth of heap slot `i` in the infinite binary heap rooted at 0. -/
def dpt (i : Nat) : Nat := Nat.log 2 (i + 1)

/-- Leftmost bottom-level (depth `h`) heap slot of the subtree rooted at `i`. -/
def slotLo (h i : Nat) : Nat := (i + 1) * 2 ^ (h - dpt i) - 1

/-- One past the rightmost bottom-level heap slot of the subtree rooted at `i`. -/
def slotHi (h i : Nat) : Nat := (i + 2) * 2 ^ (h - dpt i) - 1

/-- First block index covered by node `i` (`h` = leaf depth, `I` = index of the
first leaf slot). -/
def blkLo (h I i : Nat) : Nat := slotLo h i - I

/-- One past the last realized block index covered by node `i` (`L` = number of
realized blocks). -/
def blkHi (h I L i : Nat) : Nat := min L (slotHi h i - I)

/-- The bits of blocks `[a, b)` of the sequence. -/
def segOf (l : List Bool) (block_size a b : Nat) : List Bool :=
  (l.drop (a * block_size)).take ((b - a) * block_size)

/-- First block index covered by node `i` of the tree for `(l, block_size)`. -/
def nodeLo (l : List Bool) (block_size i : Nat) : Nat :=
  blkLo (treeH l block_size) (numInternal l block_size) i

/-- One past the last realized block index covered by node `i`. -/
def nodeHi (l : List Bool) (block_size i : Nat) : Nat :=
  blkHi (treeH l block_size) (numInternal l block_size) (numLeaves l block_size) i

/-- State of the scan loop of `excess_tree` after processing the first `i`
bit indices. -/
def scanGo (l : List Bool) (block_size num_internal_nodes : Nat)
    (init : List ExcessNode) (i : Nat) : ScanState :=
  (List.range i).foldl (scanStep l block_size num_internal_nodes)
    ⟨init, 0, i64MAX, i64MIN⟩

/-- The combine formula applied by `excess_tree` to two sibling aggregates. -/
def combNode (lc rc : ExcessNode) : ExcessNode :=
  ⟨lc.total + rc.total,
   Min.min lc.min (lc.total + rc.min),
   Max.max lc.max (lc.total + rc.max)⟩

/-! ### Generic list helpers -/

theorem getD_set_self {α : Type} (l : List α) (i : Nat) (x d : α) (h : i < l.length) :
    (l.set i x).getD i d = x := by
  simp [List.getD_eq_getElem?_getD, List.getElem?_set_self h]

theorem getD_set_ne {α : Type} (l : List α) {i j : Nat} (h : i ≠ j) (x d : α) :
    (l.set i x).getD j d = l.getD j d := by
  simp [List.getD_eq_getElem?_getD, List.getElem?_set_ne h]

theorem getD_replicate {α : Type} (n j : Nat) (d : α) :
    (List.replicate n d).getD j d = d := by
  simp only [List.getD_eq_getElem?_getD, List.getElem?_replicate]
  split <;> rfl

theorem take_add' {α : Type} (m n : Nat) (x : List α) :
    x.take (m + n) = x.take m ++ (x.drop m).take n := by
  induction m generalizing x with
  | zero => simp
  | succ m ih =>
    cases x with
    | nil => simp
    | cons a r => simp [Nat.succ_add, List.take_succ_cons, ih]

/-! ### Excess and walk lemmas -/

theorem excess_nil : excess [] = 0 := rfl

theorem excess_cons (b : Bool) (r : List Bool) :
    excess (b :: r) = bitVal b + excess r := by
  simp [excess]

theorem excess_append (s t : List Bool) : excess (s ++ t) = excess s + excess t := by
  simp [excess]

theorem excess_le_length (l : List Bool) :
    -(l.length : Int) ≤ excess l ∧ excess l ≤ (l.length : Int) := by
  induction l with
  | nil => simp [excess_nil]
  | cons b r ih =>
    rw [excess_cons]
    have : bitVal b = 1 ∨ bitVal b = -1 := by
      unfold bitVal; split <;> simp
    simp only [List.length_cons]
    push_cast
    omega

theorem walkVals_nil (a : Int) : walkVals [] a = [] := rfl

theorem walkVals_cons (b : Bool) (r : List Bool) (a : Int) :
    walkVals (b :: r) a = (a + bitVal b) :: walkVals r (a + bitVal b) := rfl

theorem walkVals_length (l : List Bool) (a : Int) : (walkVals l a).length = l.length := by
  induction l generalizing a with
  | nil => rfl
  | cons b r ih => simp [walkVals_cons, ih]

theorem walkVals_ne_nil {l : List Bool} (h : l ≠ []) (a : Int) : walkVals l a ≠ [] := by
  cases l with
  | nil => exact absurd rfl h
  | cons b r => simp [walkVals_cons]

theorem mem_walkVals_iff {l : List Bool} {a v : Int} :
    v ∈ walkVals l a ↔ ∃ p, 1 ≤ p ∧ p ≤ l.length ∧ v = a + cutExcess l p := by
  induction l generalizing a with
  | nil =>
    simp [walkVals_nil]
    omega
  | cons b r ih =>
    rw [walkVals_cons]
    constructor
    · intro hv
      rcases List.mem_cons.1 hv with h | h
      · exact ⟨1, le_rfl, by simp, by simpa [cutExcess, excess_cons, excess_nil] using h⟩
      · rcases ih.1 h with ⟨p, hp1, hp2, hpe⟩
        refine ⟨p + 1, by omega, by simp; omega, ?_⟩
        rw [hpe]
        simp [cutExcess, excess_cons]
        ring
    · rintro ⟨p, hp1, hp2, hpe⟩
      rcases Nat.exists_eq_add_of_le hp1 with ⟨q, hq⟩
      subst hq
      cases q with
      | zero =>
        apply List.mem_cons.2
        left
        simp [cutExcess, excess_cons, excess_nil] at hpe
        omega
      | succ q =>
        apply List.mem_cons.2
        right
        apply ih.2
        refine ⟨q + 1, by omega, by simp at hp2 ⊢; omega, ?_⟩
        rw [hpe]
        simp [cutExcess, excess_cons, Nat.add_comm 1 (q + 1)]
        ring

theorem excess_mem_walkVals {l : List Bool} (h : l ≠ []) (a : Int) :
    a + excess l ∈ walkVals l a := by
  rw [mem_walkVals_iff]
  exact ⟨l.length, by
    have : 0 < l.length := List.length_pos.2 h
    omega, le_rfl, by simp [cutExcess]⟩

theorem mem_walkVals_bounds {l : List Bool} {a v : Int} (h : v ∈ walkVals l a) :
    a - (l.length : Int) ≤ v ∧ v ≤ a + (l.length : Int) := by
  rcases mem_walkVals_iff.1 h with ⟨p, hp1, hp2, hpe⟩
  have hb := excess_le_length (l.take p)
  have hl : ((l.take p).length : Int) ≤ (l.length : Int) := by
    simp [List.length_take]
  subst hpe
  unfold cutExcess
  constructor <;> omega

theorem walkVals_append (s t : List Bool) (a : Int) :
    walkVals (s ++ t) a = walkVals s a ++ walkVals t (a + excess s) := by
  induction s generalizing a with
  | nil => simp [walkVals_nil, excess_nil]
  | cons b r ih =>
    simp only [List.cons_append, walkVals_cons, ih, excess_cons]
    rw [List.cons_inj_right]
    congr 2
    ring

/-! ### Fold min/max helpers -/

theorem intMin_nil (a : Int) : intMin [] a = a := rfl

theorem intMin_cons (v : Int) (l : List Int) (a : Int) :
    intMin (v :: l) a = intMin l (Min.min a v) := rfl

theorem intMin_le_start (l : List Int) (a : Int) : intMin l a ≤ a := by
  induction l generalizing a with
  | nil => exact le_rfl
  | cons v r ih =>
    rw [intMin_cons]
    exact le_trans (ih _) (min_le_left _ _)

theorem intMin_le_mem {l : List Int} {v : Int} (h : v ∈ l) (a : Int) : intMin l a ≤ v := by
  induction l generalizing a with
  | nil => cases h
  | cons w r ih =>
    rw [intMin_cons]
    rcases List.mem_cons.1 h with rfl | h
    · exact le_trans (intMin_le_start _ _) (min_le_right _ _)
    · exact ih h _

theorem intMin_mem_or (l : List Int) (a : Int) : intMin l a = a ∨ intMin l a ∈ l := by
  induction l generalizing a with
  | nil => exact Or.inl rfl
  | cons v r ih =>
    rw [intMin_cons]
    rcases ih (Min.min a v) with h | h
    · rcases min_cases a v with ⟨h', _⟩ | ⟨h', _⟩
      · exact Or.inl (h.trans h')
      · exact Or.inr (by rw [h, h']; exact List.mem_cons_self _ _)
    · exact Or.inr (List.mem_cons_of_mem _ h)

theorem intMax_nil (a : Int) : intMax [] a = a := rfl

theorem intMax_cons (v : Int) (l : List Int) (a : Int) :
    intMax (v :: l) a = intMax l (Max.max a v) := rfl

theorem start_le_intMax (l : List Int) (a : Int) : a ≤ intMax l a := by
  induction l generalizing a with
  | nil => exact le_rfl
  | cons v r ih =>
    rw [intMax_cons]
    exact le_trans (le_max_left _ _) (ih _)

theorem mem_le_intMax {l : List Int} {v : Int} (h : v ∈ l) (a : Int) : v ≤ intMax l a := by
  induction l generalizing a with
  | nil => cases h
  | cons w r ih =>
    rw [intMax_cons]
    rcases List.mem_cons.1 h with rfl | h
    · exact le_trans (le_max_right _ _) (start_le_intMax _ _)
    · exact ih h _

theorem intMax_mem_or (l : List Int) (a : Int) : intMax l a = a ∨ intMax l a ∈ l := by
  induction l generalizing a with
  | nil => exact Or.inl rfl
  | cons v r ih =>
    rw [intMax_cons]
    rcases ih (Max.max a v) with h | h
    · rcases max_cases a v with ⟨h', _⟩ | ⟨h', _⟩
      · exact Or.inl (h.trans h')
      · exact Or.inr (by rw [h, h']; exact List.mem_cons_self _ _)
    · exact Or.inr (List.mem_cons_of_mem _ h)

/-! ### The block aggregate -/

theorem foldl_stepBit (l : List Bool) (t m M : Int) :
    l.foldl stepBit (t, m, M) =
      (t + excess l, intMin (walkVals l t) m, intMax (walkVals l t) M) := by
  induction l generalizing t m M with
  | nil => simp [excess_nil, walkVals_nil, intMin_nil, intMax_nil]
  | cons b r ih =>
    rw [List.foldl_cons]
    show r.foldl stepBit (t + bitVal b, Min.min m (t + bitVal b), Max.max M (t + bitVal b)) = _
    rw [ih, walkVals_cons, intMin_cons, intMax_cons, excess_cons]
    refine congrArg₂ _ (by ring) (congrArg₂ _ rfl rfl)

theorem walkAgg_total (l : List Bool) : (walkAgg l).total = excess l := by
  unfold walkAgg
  rw [foldl_stepBit]
  simp

theorem walkAgg_min_def (l : List Bool) :
    (walkAgg l).min = intMin (walkVals l 0) i64MAX := by
  unfold walkAgg
  rw [foldl_stepBit]

theorem walkAgg_max_def (l : List Bool) :
    (walkAgg l).max = intMax (walkVals l 0) i64MIN := by
  unfold walkAgg
  rw [foldl_stepBit]

theorem walkAgg_min_spec {l : List Bool} (hne : l ≠ [])
    (hb : (l.length : Int) < i64MAX) :
    (walkAgg l).min ∈ walkVals l 0 ∧ ∀ v ∈ walkVals l 0, (walkAgg l).min ≤ v := by
  rw [walkAgg_min_def]
  refine ⟨?_, fun v hv => intMin_le_mem hv _⟩
  rcases intMin_mem_or (walkVals l 0) i64MAX with h | h
  · exfalso
    have hm := excess_mem_walkVals hne 0
    have := intMin_le_mem hm i64MAX
    rw [h] at this
    have hbd := mem_walkVals_bounds hm
    omega
  · exact h

theorem walkAgg_max_spec {l : List Bool} (hne : l ≠ [])
    (hb : (l.length : Int) < i64MAX) :
    (walkAgg l).max ∈ walkVals l 0 ∧ ∀ v ∈ walkVals l 0, v ≤ (walkAgg l).max := by
  rw [walkAgg_max_def]
  refine ⟨?_, fun v hv => mem_le_intMax hv _⟩
  rcases intMax_mem_or (walkVals l 0) i64MIN with h | h
  · exfalso
    have hm := excess_mem_walkVals hne 0
    have := mem_le_intMax hm i64MIN
    rw [h] at this
    have hbd := mem_walkVals_bounds hm
    unfold i64MAX at hb
    unfold i64MIN at this
    omega
  · exact h

theorem walkAgg_min_le_total {l : List Bool} (hne : l ≠ []) :
    (walkAgg l).min ≤ (walkAgg l).total ∧ (walkAgg l).total ≤ (walkAgg l).max := by
  rw [walkAgg_min_def, walkAgg_max_def, walkAgg_total]
  have hm := excess_mem_walkVals hne 0
  rw [zero_add] at hm
  exact ⟨intMin_le_mem hm _, mem_le_intMax hm _⟩

/-- Discrete intermediate-value property of a ±1 walk: any value between two
attained values is attained. -/
theorem walkVals_interval {l : List Bool} {a c : Int}
    (hlo : ∃ v ∈ walkVals l a, v ≤ c) (hhi : ∃ v ∈ walkVals l a, c ≤ v) :
    c ∈ walkVals l a := by
  induction l generalizing a with
  | nil => rcases hlo with ⟨v, hv, _⟩; cases hv
  | cons b r ih =>
    rw [walkVals_cons] at hlo hhi ⊢
    by_cases hc : c = a + bitVal b
    · exact hc ▸ List.mem_cons_self _ _
    · apply List.mem_cons_of_mem
      have hval : bitVal b = 1 ∨ bitVal b = -1 := by unfold bitVal; split <;> simp
      cases r with
      | nil =>
        exfalso
        rcases hlo with ⟨v, hv, hvc⟩
        rcases hhi with ⟨w, hw, hwc⟩
        simp [walkVals_nil] at hv hw
        omega
      | cons b2 r2 =>
        have hval2 : bitVal b2 = 1 ∨ bitVal b2 = -1 := by unfold bitVal; split <;> simp
        have hhead : a + bitVal b + bitVal b2 ∈ walkVals (b2 :: r2) (a + bitVal b) := by
          rw [walkVals_cons]; exact List.mem_cons_self _ _
        apply ih
        · rcases hlo with ⟨v, hv, hvc⟩
          rcases List.mem_cons.1 hv with rfl | hv
          · exact ⟨a + bitVal b + bitVal b2, hhead, by omega⟩
          · exact ⟨v, hv, hvc⟩
        · rcases hhi with ⟨w, hw, hwc⟩
          rcases List.mem_cons.1 hw with rfl | hw
          · exact ⟨a + bitVal b + bitVal b2, hhead, by omega⟩
          · exact ⟨w, hw, hwc⟩

/-- The bracket test of the search code is exactly membership of the target in
the walk-value set of the block. -/
theorem agg_bracket_iff {l : List Bool} (hne : l ≠ [])
    (hb : (l.length : Int) < i64MAX) (x : Int) :
    ((walkAgg l).min ≤ x ∧ x ≤ (walkAgg l).max) ↔ x ∈ walkVals l 0 := by
  constructor
  · rintro ⟨h1, h2⟩
    exact walkVals_interval
      ⟨(walkAgg l).min, (walkAgg_min_spec hne hb).1, h1⟩
      ⟨(walkAgg l).max, (walkAgg_max_spec hne hb).1, h2⟩
  · intro hx
    exact ⟨(walkAgg_min_spec hne hb).2 x hx, (walkAgg_max_spec hne hb).2 x hx⟩

theorem walkVals_mem_shift {t : List Bool} {c v : Int} :
    v ∈ walkVals t c ↔ v - c ∈ walkVals t 0 := by
  rw [mem_walkVals_iff, mem_walkVals_iff]
  constructor
  · rintro ⟨p, h1, h2, h3⟩; exact ⟨p, h1, h2, by omega⟩
  · rintro ⟨p, h1, h2, h3⟩; exact ⟨p, h1, h2, by omega⟩

/-- The internal-node combine formula of `excess_tree` computes exactly the
aggregate of the concatenated range. -/
theorem walkAgg_append {s t : List Bool} (hs : s ≠ []) (ht : t ≠ [])
    (hb : ((s ++ t).length : Int) < i64MAX) :
    walkAgg (s ++ t) =
      ⟨(walkAgg s).total + (walkAgg t).total,
       Min.min (walkAgg s).min ((walkAgg s).total + (walkAgg t).min),
       Max.max (walkAgg s).max ((walkAgg s).total + (walkAgg t).max)⟩ := by
  have hbs : (s.length : Int) < i64MAX := by simp at hb; omega
  have hbt : (t.length : Int) < i64MAX := by simp at hb; omega
  have hst : s ++ t ≠ [] := by simp [hs]
  have hvals : walkVals (s ++ t) 0 = walkVals s 0 ++ walkVals t (excess s) := by
    rw [walkVals_append]; ring_nf
  have smin := walkAgg_min_spec hs hbs
  have smax := walkAgg_max_spec hs hbs
  have tmin := walkAgg_min_spec ht hbt
  have tmax := walkAgg_max_spec ht hbt
  have stmin := walkAgg_min_spec hst hb
  have stmax := walkAgg_max_spec hst hb
  have htot : (walkAgg s).total = excess s := walkAgg_total s
  refine ExcessNode.ext ?_ ?_ ?_
  · rw [walkAgg_total, walkAgg_total, walkAgg_total, excess_append]
  · -- min component
    apply le_antisymm
    · -- min (s++t) ≤ both candidates
      apply le_min
      · exact stmin.2 _ (by rw [hvals]; exact List.mem_append_left _ smin.1)
      · apply stmin.2
        rw [hvals]
        apply List.mem_append_right
        rw [htot, walkVals_mem_shift]
        simpa using tmin.1
    · -- some member attains min (s++t)
      rcases List.mem_append.1 (by rw [← hvals]; exact stmin.1) with h | h
      · exact le_trans (min_le_left _ _) (smin.2 _ h)
      · refine le_trans (min_le_right _ _) ?_
        rw [walkVals_mem_shift] at h
        have := tmin.2 _ h
        rw [htot]
        omega
  · -- max component
    apply le_antisymm
    · rcases List.mem_append.1 (by rw [← hvals]; exact stmax.1) with h | h
      · exact le_trans (smax.2 _ h) (le_max_left _ _)
      · refine le_trans ?_ (le_max_right _ _)
        rw [walkVals_mem_shift] at h
        have := tmax.2 _ h
        rw [htot]
        omega
    · apply max_le
      · exact stmax.2 _ (by rw [hvals]; exact List.mem_append_left _ smax.1)
      · apply stmax.2
        rw [hvals]
        apply List.mem_append_right
        rw [htot, walkVals_mem_shift]
        simpa using tmax.1

/-- Combining with the all-zero aggregate of an empty right range is the
identity. -/
theorem combine_dflt {n : ExcessNode} (h1 : n.min ≤ n.total) (h2 : n.total ≤ n.max) :
    (⟨n.total + ExcessNode.dflt.total,
      Min.min n.min (n.total + ExcessNode.dflt.min),
      Max.max n.max (n.total + ExcessNode.dflt.max)⟩ : ExcessNode) = n := by
  unfold ExcessNode.dflt
  refine ExcessNode.ext ?_ ?_ ?_ <;> simp <;> omega

/-! ### Ceiling log2 and next power of two -/

theorem clog2Aux_eq_clog {fuel n : Nat} (h : n ≤ fuel) : clog2Aux fuel n = Nat.clog 2 n := by
  induction fuel generalizing n with
  | zero =>
    have : n = 0 := by omega
    subst this
    simp [clog2Aux]
  | succ fuel ih =>
    show (if n ≤ 1 then 0 else clog2Aux fuel ((n + 1) / 2) + 1) = _
    by_cases h1 : n ≤ 1
    · rw [if_pos h1, Nat.clog_of_right_le_one h1]
    · rw [if_neg h1, Nat.clog_of_two_le (by norm_num) (by omega)]
      show clog2Aux fuel ((n + 1) / 2) + 1 = Nat.clog 2 ((n + 2 - 1) / 2) + 1
      have he : (n + 2 - 1) / 2 = (n + 1) / 2 := by omega
      rw [he, ih (by omega)]

theorem clog2_eq_clog (n : Nat) : clog2 n = Nat.clog 2 n := clog2Aux_eq_clog le_rfl

theorem le_nextPow2 (n : Nat) : n ≤ nextPow2 n := by
  unfold nextPow2
  rw [clog2_eq_clog]
  exact Nat.le_pow_clog (by norm_num) n

theorem nextPow2_pow (k : Nat) : nextPow2 (2 ^ k) = 2 ^ k := by
  unfold nextPow2
  rw [clog2_eq_clog, Nat.clog_pow 2 k (by norm_num)]

theorem clog2_le_of_le_pow {n k : Nat} (h : n ≤ 2 ^ k) : clog2 n ≤ k := by
  rw [clog2_eq_clog]
  exact (Nat.le_pow_iff_clog_le (by norm_num)).1 h

theorem lt_clog2_of_pow_lt {n k : Nat} (h : 2 ^ k < n) : k < clog2 n := by
  rw [clog2_eq_clog]
  exact (Nat.pow_lt_iff_lt_clog (by norm_num)).1 h

theorem clog2_one : clog2 1 = 0 := by
  rw [clog2_eq_clog]
  exact Nat.clog_one_right 2

/-! ### Size arithmetic of the constructed tree -/

theorem divCeil_le_iff {m b k : Nat} (hb : 1 ≤ b) : divCeil m b ≤ k ↔ m ≤ k * b := by
  unfold divCeil
  rw [Nat.div_le_iff_le_mul_add_pred hb, Nat.mul_comm b k]
  omega

theorem numLeaves_pos {l : List Bool} {b : Nat} (hl : l ≠ []) (hb : 1 ≤ b) :
    1 ≤ numLeaves l b := by
  have hlen : 0 < l.length := List.length_pos.2 hl
  by_contra h
  have h0 : numLeaves l b ≤ 0 := by omega
  rw [numLeaves, divCeil_le_iff hb, Nat.zero_mul] at h0
  omega

theorem le_numLeaves_mul {l : List Bool} {b : Nat} (hb : 1 ≤ b) :
    l.length ≤ numLeaves l b * b := (divCeil_le_iff hb).1 le_rfl

theorem numLeaves_mul_lt {l : List Bool} {b : Nat} (hl : l ≠ []) (hb : 1 ≤ b) :
    (numLeaves l b - 1) * b < l.length := by
  have h1 := numLeaves_pos hl hb
  by_contra h
  push_neg at h
  have h2 : numLeaves l b ≤ numLeaves l b - 1 := by
    rw [numLeaves, divCeil_le_iff hb]
    simpa [numLeaves] using h
  omega

theorem mul_lt_length {l : List Bool} {b j : Nat} (hl : l ≠ []) (hb : 1 ≤ b)
    (hj : j < numLeaves l b) : j * b < l.length := by
  have h := numLeaves_mul_lt hl hb
  have hle : j ≤ numLeaves l b - 1 := by omega
  calc j * b ≤ (numLeaves l b - 1) * b := Nat.mul_le_mul_right b hle
  _ < l.length := h

theorem blk_length_eq (l : List Bool) (b j : Nat) :
    (blk l b j).length = min b (l.length - j * b) := by
  simp [blk]

theorem blk_ne_nil {l : List Bool} {b j : Nat} (hl : l ≠ []) (hb : 1 ≤ b)
    (hj : j < numLeaves l b) : blk l b j ≠ [] := by
  have h1 := mul_lt_length hl hb hj
  intro hc
  have := blk_length_eq l b j
  rw [hc] at this
  simp at this
  omega

theorem blk_full_length {l : List Bool} {b j : Nat} (hb : 1 ≤ b)
    (hj : j + 1 < numLeaves l b) :
    (blk l b j).length = b := by
  have h1 : (j + 1) * b < l.length := by
    by_contra h
    have h2 : numLeaves l b ≤ j + 1 := by
      rw [numLeaves, divCeil_le_iff hb]
      omega
    omega
  rw [blk_length_eq]
  rw [Nat.add_mul, Nat.one_mul] at h1
  omega

theorem numInternal_eq {l : List Bool} {b : Nat} (hl : l ≠ []) (hb : 1 ≤ b)
    (h2 : 2 ≤ numLeaves l b) :
    numInternal l b = 2 ^ treeH l b - 1 := by
  unfold numInternal treeH nextPow2
  have h1 : 2 ≤ 2 ^ clog2 (numLeaves l b) :=
    le_trans h2 (le_nextPow2 _)
  omega

theorem treeH_pos {l : List Bool} {b : Nat} (h2 : 2 ≤ numLeaves l b) :
    1 ≤ treeH l b := by
  unfold treeH
  exact lt_clog2_of_pow_lt (by simpa using h2)

theorem numLeaves_le_pow {l : List Bool} {b : Nat} :
    numLeaves l b ≤ 2 ^ treeH l b := le_nextPow2 _

theorem pow_lt_numLeaves {l : List Bool} {b : Nat} (h2 : 2 ≤ numLeaves l b) :
    2 ^ (treeH l b - 1) < numLeaves l b := by
  by_contra h
  have := clog2_le_of_le_pow (show numLeaves l b ≤ 2 ^ (treeH l b - 1) by omega)
  have := treeH_pos (l := l) (b := b) h2
  unfold treeH at *
  omega

theorem numLeaves_one_sizes {l : List Bool} {b : Nat} (h1 : numLeaves l b = 1) :
    numInternal l b = 1 ∧ numNodes l b = 2 := by
  have h2 : nextPow2 1 = 1 := by simpa using nextPow2_pow 0
  unfold numNodes numInternal
  rw [h1, h2]
  omega

/-! ### Scan-phase characterization -/

theorem pred_div_eq {i b : Nat} (hb : 1 ≤ b) (hi : 1 ≤ i) (hmod : i % b = 0) :
    (i - 1) / b = i / b - 1 := by
  have hq := Nat.div_add_mod i b
  rw [hmod] at hq
  have hq1 : 1 ≤ i / b := by
    rcases Nat.eq_zero_or_pos (i / b) with h0 | h0
    · rw [h0, Nat.mul_zero] at hq; omega
    · exact h0
  have hqq : i / b * b = i := by rw [Nat.mul_comm]; omega
  apply Nat.div_eq_of_lt_le
  · rw [Nat.sub_mul, Nat.one_mul, hqq]; omega
  · rw [Nat.sub_add_cancel hq1, hqq]; omega

theorem succ_div_eq {i b : Nat} (hb : 1 ≤ b) (hmod : i % b ≠ 0) :
    (i - 1) / b = i / b := by
  have hq := Nat.div_add_mod i b
  have hm : i % b < b := Nat.mod_lt i (by omega)
  have hqq : i / b * b = b * (i / b) := Nat.mul_comm _ _
  apply Nat.div_eq_of_lt_le
  · rw [hqq]; omega
  · rw [Nat.add_mul, Nat.one_mul, hqq]; omega

theorem scanGo_spec {l : List Bool} {b : Nat} (hl : l ≠ []) (hb : 1 ≤ b)
    (I' : Nat) (init : List ExcessNode)
    (hinit : I' + numLeaves l b ≤ init.length) :
    ∀ i, 1 ≤ i → i ≤ l.length →
      (scanGo l b I' init i).nodes.length = init.length ∧
      (∀ k', k' < (i - 1) / b →
        (scanGo l b I' init i).nodes.getD (I' + k') ExcessNode.dflt =
          walkAgg (blk l b k')) ∧
      (∀ idx, idx < I' ∨ I' + (i - 1) / b ≤ idx →
        (scanGo l b I' init i).nodes.getD idx ExcessNode.dflt =
          init.getD idx ExcessNode.dflt) ∧
      ((scanGo l b I' init i).total_excess,
       (scanGo l b I' init i).min_excess,
       (scanGo l b I' init i).max_excess) =
        ((l.drop ((i - 1) / b * b)).take (i - (i - 1) / b * b)).foldl stepBit
          (0, i64MAX, i64MIN) := by
  intro i
  induction i with
  | zero => omega
  | succ i ih =>
    intro _ hile
    by_cases hi0 : i = 0
    · -- base case: first bit processed, no write
      subst hi0
      simp only [Nat.zero_add]
      have hstep : scanGo l b I' init 1 =
          scanStep l b I' ⟨init, 0, i64MAX, i64MIN⟩ 0 := by
        show (List.range 1).foldl _ _ = _
        rw [List.range_succ]
        simp
      rw [hstep]
      unfold scanStep
      rw [if_neg (by omega)]
      have he0 : (1 - 1) / b = 0 := by simp
      refine ⟨rfl, ?_, fun idx _ => rfl, ?_⟩
      · intro k' hk'
        rw [he0] at hk'
        omega
      · rw [he0, Nat.zero_mul]
        simp only [List.drop_zero, Nat.sub_zero]
        rw [List.take_one]
        have hh : l.head? = some (l.getD 0 false) := by
          cases l with
          | nil => exact absurd rfl hl
          | cons x r => rfl
        rw [hh]
        show (_, _, _) = _
        simp [stepBit, List.foldl_cons, List.foldl_nil]
    · -- inductive step
      have hi1 : 1 ≤ i := by omega
      have hiM : i ≤ l.length := by omega
      obtain ⟨hlen, ha, hbb, hc⟩ := ih hi1 hiM
      have hstep : scanGo l b I' init (i + 1) =
          scanStep l b I' (scanGo l b I' init i) i := by
        show (List.range (i + 1)).foldl _ _ = _
        rw [List.range_succ, List.foldl_append]
        rfl
      have hilt : i < l.length := by omega
      have hgetl : l[i]? = some (l.getD i false) := by
        rw [List.getElem?_eq_getElem hilt]
        simp [List.getD_eq_getElem?_getD, List.getElem?_eq_getElem hilt]
      by_cases hmod : i % b = 0
      · -- block boundary: flush block k = i/b - 1, reset, process bit i
        have hdiv := pred_div_eq hb hi1 hmod
        have hq := Nat.div_add_mod i b
        rw [hmod] at hq
        have hq1 : 1 ≤ i / b := by
          rcases Nat.eq_zero_or_pos (i / b) with h0 | h0
          · rw [h0, Nat.mul_zero] at hq; omega
          · exact h0
        set k := i / b - 1 with hk
        have hik : i = (k + 1) * b := by
          rw [hk, Nat.sub_add_cancel hq1, Nat.mul_comm]
          omega
        have hkb : k * b + b = i := by rw [hik]; ring
        -- the current block index of step i+1
        have hdiv2 : (i + 1 - 1) / b = k + 1 := by
          simp only [Nat.add_sub_cancel]
          rw [hk, Nat.sub_add_cancel hq1]
        -- the flushed slice is exactly block k
        have hslice : (l.drop ((i - 1) / b * b)).take (i - (i - 1) / b * b) = blk l b k := by
          rw [hdiv, blk]
          congr 1
          omega
        have hkL : k + 1 ≤ numLeaves l b := by
          have := le_numLeaves_mul (l := l) hb
          by_contra h
          push_neg at h
          have h2 : numLeaves l b ≤ k := by omega
          have : numLeaves l b * b ≤ k * b := Nat.mul_le_mul_right b h2
          omega
        have hwrite_lt : I' + k < init.length := by omega
        rw [hstep]
        unfold scanStep
        rw [if_pos ⟨by omega, hmod⟩]
        have hwa : (⟨(scanGo l b I' init i).total_excess,
            (scanGo l b I' init i).min_excess,
            (scanGo l b I' init i).max_excess⟩ : ExcessNode) = walkAgg (blk l b k) := by
          unfold walkAgg
          rw [← hslice, ← hc]
        have hidx : I' + i / b - 1 = I' + k := by omega
        constructor
        · simp [hlen]
        refine ⟨?_, ?_, ?_⟩
        · -- blocks below k+1 all written
          intro k' hk'
          rw [hdiv2] at hk'
          show (((scanGo l b I' init i).nodes.set (I' + i / b - 1) _)).getD _ _ = _
          rw [hidx]
          by_cases hkk : k' = k
          · subst hkk
            rw [getD_set_self _ _ _ _ (by rw [hlen]; exact hwrite_lt)]
            rw [← hwa]
          · rw [getD_set_ne _ (by omega) _ _]
            exact ha k' (by omega)
        · -- untouched region
          intro idx hidx2
          rw [hdiv2] at hidx2
          show (((scanGo l b I' init i).nodes.set (I' + i / b - 1) _)).getD _ _ = _
          rw [hidx]
          rw [getD_set_ne _ (by omega) _ _]
          exact hbb idx (by omega)
        · -- fresh accumulators hold the first bit of block k+1
          rw [hdiv2]
          have hsl2 : (l.drop ((k + 1) * b)).take (i + 1 - (k + 1) * b) =
              [l.getD i false] := by
            rw [← hik, Nat.add_sub_cancel_left, List.take_one]
            rw [List.head?_drop]
            rw [hgetl]
            rfl
          rw [hsl2]
          show (_, _, _) = _
          simp [stepBit, List.foldl_cons, List.foldl_nil]
      · -- interior of a block: extend the accumulators
        have hdiv := succ_div_eq hb hmod
        have hdiv2 : (i + 1 - 1) / b = (i - 1) / b := by
          simp only [Nat.add_sub_cancel]
          omega
        set k := (i - 1) / b with hk
        have hkb : k * b ≤ i - 1 := by
          rw [hk]; exact Nat.div_mul_le_self _ _
        rw [hstep]
        unfold scanStep
        rw [if_neg (by omega)]
        refine ⟨by simpa using hlen, ?_, ?_, ?_⟩
        · intro k' hk'
          rw [hdiv2] at hk'
          exact ha k' hk'
        · intro idx hidx2
          rw [hdiv2] at hidx2
          exact hbb idx hidx2
        · rw [hdiv2]
          have hsl : (l.drop (k * b)).take (i + 1 - k * b) =
              (l.drop (k * b)).take (i - k * b) ++ [l.getD i false] := by
            have h1 : i + 1 - k * b = (i - k * b) + 1 := by omega
            rw [h1, List.take_succ]
            congr 1
            rw [List.getElem?_drop]
            have h2 : k * b + (i - k * b) = i := by omega
            rw [h2, hgetl]
            rfl
          rw [hsl, List.foldl_append, ← hc]
          show _ = (_, _, _)
          simp [List.foldl_cons, List.foldl_nil]

theorem numLeaves_pred_div {l : List Bool} {b : Nat} (hl : l ≠ []) (hb : 1 ≤ b) :
    (l.length - 1) / b = numLeaves l b - 1 := by
  have hM : 1 ≤ l.length := List.length_pos.2 hl
  by_cases hmod : l.length % b = 0
  · rw [pred_div_eq hb hM hmod]
    have hq := Nat.div_add_mod l.length b
    rw [hmod] at hq
    have : numLeaves l b = l.length / b := by
      apply le_antisymm
      · rw [numLeaves, divCeil_le_iff hb, Nat.mul_comm]; omega
      · by_contra h
        push_neg at h
        have h2 : numLeaves l b ≤ l.length / b - 1 := by omega
        rw [numLeaves, divCeil_le_iff hb] at h2
        have hq1 : 1 ≤ l.length / b := by
          rcases Nat.eq_zero_or_pos (l.length / b) with h0 | h0
          · rw [h0, Nat.mul_zero] at hq; omega
          · exact h0
        rw [Nat.sub_mul, Nat.one_mul, Nat.mul_comm] at h2
        omega
    rw [this]
  · rw [succ_div_eq hb hmod]
    have hq := Nat.div_add_mod l.length b
    have hm : l.length % b < b := Nat.mod_lt _ (by omega)
    have : numLeaves l b = l.length / b + 1 := by
      apply le_antisymm
      · rw [numLeaves, divCeil_le_iff hb, Nat.add_mul, Nat.one_mul, Nat.mul_comm]
        omega
      · by_contra h
        push_neg at h
        have h2 : numLeaves l b ≤ l.length / b := by omega
        rw [numLeaves, divCeil_le_iff hb, Nat.mul_comm] at h2
        omega
    rw [this, Nat.add_sub_cancel]

theorem scanPhase_spec {l : List Bool} {b : Nat} (hl : l ≠ []) (hb : 1 ≤ b)
    (I' : Nat) (init : List ExcessNode)
    (hinit : I' + numLeaves l b ≤ init.length) :
    (scanPhase l b I' init).length = init.length ∧
    (∀ k, k < numLeaves l b →
      (scanPhase l b I' init).getD (I' + k) ExcessNode.dflt = walkAgg (blk l b k)) ∧
    (∀ idx, idx < I' ∨ I' + numLeaves l b ≤ idx →
      (scanPhase l b I' init).getD idx ExcessNode.dflt = init.getD idx ExcessNode.dflt) := by
  have hM : 1 ≤ l.length := List.length_pos.2 hl
  have hL1 := numLeaves_pos hl hb
  obtain ⟨hlen, ha, hbb, hc⟩ := scanGo_spec hl hb I' init hinit l.length hM le_rfl
  have hkf := numLeaves_pred_div hl hb
  set L := numLeaves l b with hLdef
  have hphase : scanPhase l b I' init =
      (scanGo l b I' init l.length).nodes.set (I' + L - 1)
        ⟨(scanGo l b I' init l.length).total_excess,
         (scanGo l b I' init l.length).min_excess,
         (scanGo l b I' init l.length).max_excess⟩ := rfl
  -- the final flushed slice is the last block
  have hlastlen : (blk l b (L - 1)).length = l.length - (L - 1) * b := by
    rw [blk_length_eq]
    have h1 := numLeaves_mul_lt hl hb
    have h2 := le_numLeaves_mul (l := l) hb
    rw [← hLdef] at h1 h2
    have h3 : L * b = (L - 1) * b + b := by
      rw [Nat.sub_mul, Nat.one_mul]
      have : b ≤ L * b := Nat.le_mul_of_pos_left b (by omega)
      omega
    omega
  have hslice : (l.drop ((l.length - 1) / b * b)).take
      (l.length - (l.length - 1) / b * b) = blk l b (L - 1) := by
    rw [hkf, blk]
    have hdl : (l.drop ((L - 1) * b)).length = l.length - (L - 1) * b :=
      List.length_drop _ _
    have h1 := numLeaves_mul_lt hl hb
    have h2 := le_numLeaves_mul (l := l) hb
    rw [← hLdef] at h1 h2
    have h3 : L * b = (L - 1) * b + b := by
      rw [Nat.sub_mul, Nat.one_mul]
      have : b ≤ L * b := Nat.le_mul_of_pos_left b (by omega)
      omega
    rw [List.take_of_length_le (by omega), List.take_of_length_le (by omega)]
  have hwa : (⟨(scanGo l b I' init l.length).total_excess,
      (scanGo l b I' init l.length).min_excess,
      (scanGo l b I' init l.length).max_excess⟩ : ExcessNode) =
      walkAgg (blk l b (L - 1)) := by
    rw [walkAgg, ← hslice, ← hc]
  have hwlt : I' + L - 1 < init.length := by omega
  refine ⟨?_, ?_, ?_⟩
  · rw [hphase]
    simp [hlen]
  · intro k hk
    rw [hphase]
    by_cases hkl : k = L - 1
    · subst hkl
      have he : I' + L - 1 = I' + (L - 1) := by omega
      rw [← he, getD_set_self _ _ _ _ (by rw [hlen]; exact hwlt)]
      rw [← hwa]
    · rw [getD_set_ne _ (by omega) _ _]
      exact ha k (by omega)
  · intro idx hidx
    rw [hphase]
    rw [getD_set_ne _ (by omega) _ _]
    exact hbb idx (by omega)

/-! ### Build-phase characterization -/

theorem levelLoop_spec (arr : List ExcessNode) (size start : Nat)
    (hchild : start + size ≤ 2 * start + 1) :
    ∀ n, n ≤ size →
      (((List.range n).foldl (fun ns i => buildLevelNode ns (start + i)) arr).length
        = arr.length) ∧
      (∀ j, j < start ∨ start + n ≤ j →
        ((List.range n).foldl (fun ns i => buildLevelNode ns (start + i)) arr).getD j
          ExcessNode.dflt = arr.getD j ExcessNode.dflt) ∧
      (∀ i, i < n →
        ((List.range n).foldl (fun ns i => buildLevelNode ns (start + i)) arr).getD
          (start + i) ExcessNode.dflt =
          if (start + i) * 2 + 2 < arr.length then
            combNode (arr.getD ((start + i) * 2 + 1) ExcessNode.dflt)
              (arr.getD ((start + i) * 2 + 2) ExcessNode.dflt)
          else if (start + i) * 2 + 1 < arr.length then
            arr.getD ((start + i) * 2 + 1) ExcessNode.dflt
          else arr.getD (start + i) ExcessNode.dflt) := by
  intro n
  induction n with
  | zero =>
    intro _
    exact ⟨rfl, fun j _ => rfl, fun i hi => absurd hi (by omega)⟩
  | succ n ih =>
    intro hn
    obtain ⟨hlen, huntouched, hwritten⟩ := ih (by omega)
    have hstep : (List.range (n + 1)).foldl (fun ns i => buildLevelNode ns (start + i)) arr
        = buildLevelNode
            ((List.range n).foldl (fun ns i => buildLevelNode ns (start + i)) arr)
            (start + n) := by
      rw [List.range_succ, List.foldl_append]
      rfl
    set prev := (List.range n).foldl (fun ns i => buildLevelNode ns (start + i)) arr
      with hprev
    -- children of the node written now lie in the untouched region
    have hchild1 : start + n ≤ (start + n) * 2 + 1 := by omega
    have hc1 : prev.getD ((start + n) * 2 + 1) ExcessNode.dflt =
        arr.getD ((start + n) * 2 + 1) ExcessNode.dflt :=
      huntouched _ (Or.inr (by omega))
    have hc2 : prev.getD ((start + n) * 2 + 2) ExcessNode.dflt =
        arr.getD ((start + n) * 2 + 2) ExcessNode.dflt :=
      huntouched _ (Or.inr (by omega))
    rw [hstep]
    unfold buildLevelNode
    by_cases h1 : (start + n) * 2 + 1 < prev.length
    · rw [if_pos h1]
      have h1' : (start + n) * 2 + 1 < arr.length := by rwa [hlen] at h1
      by_cases h2 : (start + n) * 2 + 2 < prev.length
      · rw [if_pos h2]
        have h2' : (start + n) * 2 + 2 < arr.length := by rwa [hlen] at h2
        have hnode_lt : start + n < prev.length := by omega
        refine ⟨by simpa using hlen, ?_, ?_⟩
        · intro j hj
          rw [getD_set_ne _ (by omega) _ _]
          exact huntouched j (by omega)
        · intro i hi
          by_cases hin : i = n
          · subst hin
            rw [getD_set_self _ _ _ _ hnode_lt, if_pos h2', hc1, hc2]
            rfl
          · rw [getD_set_ne _ (by omega) _ _]
            exact hwritten i (by omega)
      · rw [if_neg h2]
        have h2' : ¬ (start + n) * 2 + 2 < arr.length := by rwa [hlen] at h2
        have hnode_lt : start + n < prev.length := by omega
        refine ⟨by simpa using hlen, ?_, ?_⟩
        · intro j hj
          rw [getD_set_ne _ (by omega) _ _]
          exact huntouched j (by omega)
        · intro i hi
          by_cases hin : i = n
          · subst hin
            rw [getD_set_self _ _ _ _ hnode_lt, if_neg h2', if_pos h1', hc1]
          · rw [getD_set_ne _ (by omega) _ _]
            exact hwritten i (by omega)
    · rw [if_neg h1]
      have h1' : ¬ (start + n) * 2 + 1 < arr.length := by rwa [hlen] at h1
      refine ⟨hlen, ?_, ?_⟩
      · intro j hj
        exact huntouched j (by omega)
      · intro i hi
        by_cases hin : i = n
        · subst hin
          rw [if_neg (by omega), if_neg h1']
          exact huntouched _ (Or.inr (by omega))
        · exact hwritten i (by omega)

theorem buildLevels_spec (m : Nat) :
    ∀ (fuel : Nat), 2 ^ m ≤ fuel → ∀ (arr : List ExcessNode),
      ((buildLevelsAux fuel arr (2 ^ m) (2 ^ m - 1)).length = arr.length) ∧
      (∀ i, 2 ^ (m + 1) - 1 ≤ i →
        (buildLevelsAux fuel arr (2 ^ m) (2 ^ m - 1)).getD i ExcessNode.dflt =
          arr.getD i ExcessNode.dflt) ∧
      (∀ i, i < 2 ^ (m + 1) - 1 →
        (buildLevelsAux fuel arr (2 ^ m) (2 ^ m - 1)).getD i ExcessNode.dflt =
          if i * 2 + 2 < arr.length then
            combNode
              ((buildLevelsAux fuel arr (2 ^ m) (2 ^ m - 1)).getD (i * 2 + 1)
                ExcessNode.dflt)
              ((buildLevelsAux fuel arr (2 ^ m) (2 ^ m - 1)).getD (i * 2 + 2)
                ExcessNode.dflt)
          else if i * 2 + 1 < arr.length then
            (buildLevelsAux fuel arr (2 ^ m) (2 ^ m - 1)).getD (i * 2 + 1)
              ExcessNode.dflt
          else arr.getD i ExcessNode.dflt) := by
  induction m with
  | zero =>
    intro fuel hfuel arr
    obtain ⟨fuel, rfl⟩ : ∃ f, fuel = f + 1 := ⟨fuel - 1, by omega⟩
    obtain ⟨hlen, huntouched, hwritten⟩ := levelLoop_spec arr 1 0 (by omega) 1 le_rfl
    have hstep : buildLevelsAux (fuel + 1) arr (2 ^ 0) (2 ^ 0 - 1) =
        (List.range 1).foldl (fun ns i => buildLevelNode ns (0 + i)) arr := rfl
    rw [hstep]
    refine ⟨hlen, ?_, ?_⟩
    · intro i hi
      apply huntouched i
      right
      norm_num at hi
      omega
    · intro i hi
      have hi0 : i = 0 := by norm_num at hi; omega
      subst hi0
      have h0 := hwritten 0 (by omega)
      simp only [Nat.add_zero, Nat.zero_mul, Nat.zero_add] at h0 huntouched ⊢
      rw [h0]
      by_cases h2 : 2 < arr.length
      · rw [if_pos h2, if_pos h2, huntouched 1 (by omega), huntouched 2 (by omega)]
      · rw [if_neg h2, if_neg h2]
        by_cases h1 : 1 < arr.length
        · rw [if_pos h1, if_pos h1, huntouched 1 (by omega)]
        · rw [if_neg h1, if_neg h1]
  | succ m ih =>
    intro fuel hfuel arr
    have h2m : 2 ≤ 2 ^ (m + 1) := by
      have : 2 ^ 1 ≤ 2 ^ (m + 1) := Nat.pow_le_pow_right (by omega) (by omega)
      simpa using this
    obtain ⟨fuel, rfl⟩ : ∃ f, fuel = f + 1 := ⟨fuel - 1, by omega⟩
    have hloop := levelLoop_spec arr (2 ^ (m + 1)) (2 ^ (m + 1) - 1) (by omega)
    obtain ⟨hlen, huntouched, hwritten⟩ := hloop (2 ^ (m + 1)) le_rfl
    set arr' := (List.range (2 ^ (m + 1))).foldl
      (fun ns i => buildLevelNode ns (2 ^ (m + 1) - 1 + i)) arr with harr'
    have hstep : buildLevelsAux (fuel + 1) arr (2 ^ (m + 1)) (2 ^ (m + 1) - 1) =
        buildLevelsAux fuel arr' (2 ^ m) (2 ^ m - 1) := by
      have hdiv : 2 ^ (m + 1) / 2 = 2 ^ m := by
        rw [Nat.pow_succ, Nat.mul_div_cancel _ (by omega)]
      have h1m : 0 < 2 ^ m := Nat.two_pow_pos m
      have hsub : 2 ^ (m + 1) - 1 - 2 ^ m = 2 ^ m - 1 := by
        rw [Nat.pow_succ]
        omega
      simp only [buildLevelsAux]
      rw [if_neg (by omega), hdiv, hsub, ← harr']
    have hfuel' : 2 ^ m ≤ fuel := by
      have : 2 ^ m < 2 ^ (m + 1) := Nat.pow_lt_pow_right (by omega) (by omega)
      omega
    obtain ⟨ihlen, ihuntouched, ihwritten⟩ := ih fuel hfuel' arr'
    rw [hstep]
    have harr'_lo : ∀ j, j < 2 ^ (m + 1) - 1 →
        arr'.getD j ExcessNode.dflt = arr.getD j ExcessNode.dflt := by
      intro j hj
      exact huntouched j (Or.inl hj)
    have harr'_hi : ∀ j, 2 ^ (m + 2) - 1 ≤ j →
        arr'.getD j ExcessNode.dflt = arr.getD j ExcessNode.dflt := by
      intro j hj
      apply huntouched j
      right
      have : 2 ^ (m + 1) - 1 + 2 ^ (m + 1) = 2 ^ (m + 2) - 1 := by
        have e : 2 ^ (m + 2) = 2 ^ (m + 1) + 2 ^ (m + 1) := by
          rw [Nat.pow_succ]
          omega
        omega
      omega
    refine ⟨by rw [ihlen, hlen], ?_, ?_⟩
    · -- untouched above level m+1
      intro i hi
      rw [ihuntouched i (by
        have : 2 ^ (m + 1) ≤ 2 ^ (m + 2) := Nat.pow_le_pow_right (by omega) (by omega)
        omega)]
      exact harr'_hi i hi
    · -- combine property for all i < 2^(m+2) - 1
      intro i hi
      by_cases hlow : i < 2 ^ (m + 1) - 1
      · -- handled by the recursive call
        rw [ihwritten i hlow]
        rw [hlen]
        by_cases h2 : i * 2 + 2 < arr.length
        · rw [if_pos h2, if_pos h2]
        · rw [if_neg h2, if_neg h2]
          by_cases h1 : i * 2 + 1 < arr.length
          · rw [if_pos h1, if_pos h1]
          · rw [if_neg h1, if_neg h1]
            exact harr'_lo i hlow
      · -- in level m+1: written by this level's loop, untouched afterwards
        have hlev : 2 ^ (m + 1) - 1 ≤ i := by omega
        obtain ⟨k, hk⟩ : ∃ k, i = 2 ^ (m + 1) - 1 + k := ⟨i - (2 ^ (m + 1) - 1), by omega⟩
        have hklt : k < 2 ^ (m + 1) := by
          have e : 2 ^ (m + 2) = 2 ^ (m + 1) + 2 ^ (m + 1) := by
            rw [Nat.pow_succ]
            omega
          omega
        have hresi : (buildLevelsAux fuel arr' (2 ^ m) (2 ^ m - 1)).getD i ExcessNode.dflt
            = arr'.getD i ExcessNode.dflt := ihuntouched i hlev
        have hchildren_hi : 2 ^ (m + 2) - 1 ≤ i * 2 + 1 := by
          have e : 2 ^ (m + 2) = 2 ^ (m + 1) + 2 ^ (m + 1) := by
            rw [Nat.pow_succ]
            omega
          omega
        have hc1 : (buildLevelsAux fuel arr' (2 ^ m) (2 ^ m - 1)).getD (i * 2 + 1)
            ExcessNode.dflt = arr.getD (i * 2 + 1) ExcessNode.dflt := by
          rw [ihuntouched _ (by
            have : 2 ^ (m + 1) ≤ 2 ^ (m + 2) := Nat.pow_le_pow_right (by omega) (by omega)
            omega)]
          exact harr'_hi _ hchildren_hi
        have hc2 : (buildLevelsAux fuel arr' (2 ^ m) (2 ^ m - 1)).getD (i * 2 + 2)
            ExcessNode.dflt = arr.getD (i * 2 + 2) ExcessNode.dflt := by
          rw [ihuntouched _ (by
            have : 2 ^ (m + 1) ≤ 2 ^ (m + 2) := Nat.pow_le_pow_right (by omega) (by omega)
            omega)]
          exact harr'_hi _ (by omega)
        rw [hresi, hk]
        have hw := hwritten k hklt
        rw [← hk] at hw ⊢
        have hw' : arr'.getD i ExcessNode.dflt =
            if i * 2 + 2 < arr.length then
              combNode (arr.getD (i * 2 + 1) ExcessNode.dflt)
                (arr.getD (i * 2 + 2) ExcessNode.dflt)
            else if i * 2 + 1 < arr.length then
              arr.getD (i * 2 + 1) ExcessNode.dflt
            else arr.getD i ExcessNode.dflt := by
          rw [harr']
          have e1 : (2 ^ (m + 1) - 1 + k) * 2 + 1 = i * 2 + 1 := by omega
          have e2 : (2 ^ (m + 1) - 1 + k) * 2 + 2 = i * 2 + 2 := by omega
          rw [hk] at hw ⊢
          rw [hw, e1, e2]
        rw [hw', hc1, hc2]

/-! ### Aggregate characterization of `excess_tree` -/

theorem excess_tree_eq {l : List Bool} {b : Nat} (hl : l ≠ []) :
    excess_tree l b =
      ⟨buildLevelsAux (max 1 (nextPow2 (numLeaves l b) / 2))
        (scanPhase l b (numInternal l b)
          (List.replicate (numLeaves l b + numInternal l b) ExcessNode.dflt))
        (max 1 (nextPow2 (numLeaves l b) / 2))
        (numInternal l b - max 1 (nextPow2 (numLeaves l b) / 2))⟩ := by
  unfold excess_tree
  rw [if_neg (by simpa [List.isEmpty_iff] using hl)]
  rfl

theorem excess_tree_build_params {l : List Bool} {b : Nat} (hl : l ≠ []) (hb : 1 ≤ b) :
    ∃ m, max 1 (nextPow2 (numLeaves l b) / 2) = 2 ^ m ∧
      numInternal l b = 2 ^ (m + 1) - 1 ∧
      numInternal l b - 2 ^ m = 2 ^ m - 1 ∧
      numLeaves l b ≤ 2 ^ (m + 1) := by
  have hL1 := numLeaves_pos hl hb
  by_cases hone : numLeaves l b = 1
  · refine ⟨0, ?_, ?_, ?_, ?_⟩
    · rw [hone]
      have h1 : nextPow2 1 = 1 := by simpa using nextPow2_pow 0
      rw [h1]
      decide
    · rw [(numLeaves_one_sizes hone).1]
      decide
    · rw [(numLeaves_one_sizes hone).1]
      decide
    · rw [hone]; omega
  · have h2 : 2 ≤ numLeaves l b := by omega
    have hh := treeH_pos (l := l) (b := b) h2
    have hP : nextPow2 (numLeaves l b) = 2 ^ treeH l b := rfl
    have hI := numInternal_eq hl hb h2
    have hhm : treeH l b - 1 + 1 = treeH l b := by omega
    have hdiv : 2 ^ treeH l b / 2 = 2 ^ (treeH l b - 1) := by
      conv_lhs => rw [← hhm]
      rw [Nat.pow_succ, Nat.mul_div_cancel _ (by omega)]
    have he : 2 ^ treeH l b = 2 ^ (treeH l b - 1) * 2 := by
      conv_lhs => rw [← hhm]
      rw [Nat.pow_succ]
    have hpos := Nat.two_pow_pos (treeH l b - 1)
    refine ⟨treeH l b - 1, ?_, ?_, ?_, ?_⟩
    · rw [hP, hdiv]
      omega
    · rw [hI, hhm]
    · rw [hI]
      omega
    · rw [hhm]
      exact numLeaves_le_pow

theorem excess_tree_spec {l : List Bool} {b : Nat} (hl : l ≠ []) (hb : 1 ≤ b) :
    (excess_tree l b).nodes.length = numNodes l b ∧
    (∀ k, k < numLeaves l b →
      (excess_tree l b).nodes.getD (numInternal l b + k) ExcessNode.dflt =
        walkAgg (blk l b k)) ∧
    (∀ i, i < numInternal l b →
      (excess_tree l b).nodes.getD i ExcessNode.dflt =
        if i * 2 + 2 < numNodes l b then
          combNode ((excess_tree l b).nodes.getD (i * 2 + 1) ExcessNode.dflt)
            ((excess_tree l b).nodes.getD (i * 2 + 2) ExcessNode.dflt)
        else if i * 2 + 1 < numNodes l b then
          (excess_tree l b).nodes.getD (i * 2 + 1) ExcessNode.dflt
        else ExcessNode.dflt) := by
  obtain ⟨m, hsize, hI, hstart, hLle⟩ := excess_tree_build_params hl hb
  have hL1 := numLeaves_pos hl hb
  set L := numLeaves l b with hLdef
  set I' := numInternal l b with hIdef
  have hinitlen : (List.replicate (L + I') ExcessNode.dflt).length = L + I' :=
    List.length_replicate _ _
  obtain ⟨hslen, hsleaf, hsother⟩ :=
    scanPhase_spec hl hb I' (List.replicate (L + I') ExcessNode.dflt)
      (by rw [hinitlen]; omega)
  set scanned := scanPhase l b I' (List.replicate (L + I') ExcessNode.dflt)
    with hscanned
  have hslen' : scanned.length = L + I' := by rw [hslen, hinitlen]
  obtain ⟨hblen, hbuntouched, hbwritten⟩ :=
    buildLevels_spec m (2 ^ m) le_rfl scanned
  have htree : excess_tree l b =
      ⟨buildLevelsAux (2 ^ m) scanned (2 ^ m) (2 ^ m - 1)⟩ := by
    rw [excess_tree_eq hl, ← hscanned, hsize, hstart]
  have hN : numNodes l b = L + I' := by
    rw [numNodes, ← hLdef, ← hIdef]
  have hlen : (excess_tree l b).nodes.length = numNodes l b := by
    rw [htree]
    show (buildLevelsAux (2 ^ m) scanned (2 ^ m) (2 ^ m - 1)).length = _
    rw [hblen, hslen', hN]
  refine ⟨hlen, ?_, ?_⟩
  · intro k hk
    rw [htree]
    show (buildLevelsAux (2 ^ m) scanned (2 ^ m) (2 ^ m - 1)).getD (I' + k)
      ExcessNode.dflt = _
    rw [hbuntouched (I' + k) (by omega)]
    exact hsleaf k hk
  · intro i hi
    rw [htree]
    show (buildLevelsAux (2 ^ m) scanned (2 ^ m) (2 ^ m - 1)).getD i
      ExcessNode.dflt = _
    rw [hbwritten i (by omega), hslen', ← hN]
    by_cases h2 : i * 2 + 2 < numNodes l b
    · rw [if_pos h2, if_pos h2]
    · rw [if_neg h2, if_neg h2]
      by_cases h1 : i * 2 + 1 < numNodes l b
      · rw [if_pos h1, if_pos h1]
      · rw [if_neg h1, if_neg h1]
        rw [hsother i (Or.inl hi)]
        exact getD_replicate _ _ _

theorem getD_of_length_le {α : Type} {l : List α} {i : Nat} (h : l.length ≤ i) (d : α) :
    l.getD i d = d := by
  rw [List.getD_eq_getElem?_getD, List.getElem?_eq_none h]
  rfl

theorem combNode_wf (x y : ExcessNode) (hx1 : x.min ≤ x.total) (hx2 : x.total ≤ x.max)
    (hy1 : y.min ≤ y.total) (hy2 : y.total ≤ y.max) :
    (combNode x y).min ≤ (combNode x y).total ∧
      (combNode x y).total ≤ (combNode x y).max := by
  obtain ⟨xt, xm, xM⟩ := x
  obtain ⟨yt, ym, yM⟩ := y
  unfold combNode
  dsimp only at hx1 hx2 hy1 hy2 ⊢
  omega

/-- Every node of the built tree (leaf, internal, or untouched slot) satisfies
`min ≤ total ≤ max`. -/
theorem excess_tree_node_wf {l : List Bool} {b : Nat} (hl : l ≠ []) (hb : 1 ≤ b) :
    ∀ i, ((excess_tree l b).nodes.getD i ExcessNode.dflt).min ≤
        ((excess_tree l b).nodes.getD i ExcessNode.dflt).total ∧
      ((excess_tree l b).nodes.getD i ExcessNode.dflt).total ≤
        ((excess_tree l b).nodes.getD i ExcessNode.dflt).max := by
  obtain ⟨hlen, hleaf, hint⟩ := excess_tree_spec hl hb
  have hIN : numInternal l b ≤ numNodes l b := by rw [numNodes]; omega
  have main : ∀ d i, numNodes l b - i ≤ d →
      ((excess_tree l b).nodes.getD i ExcessNode.dflt).min ≤
        ((excess_tree l b).nodes.getD i ExcessNode.dflt).total ∧
      ((excess_tree l b).nodes.getD i ExcessNode.dflt).total ≤
        ((excess_tree l b).nodes.getD i ExcessNode.dflt).max := by
    intro d
    induction d with
    | zero =>
      intro i hle
      have hge : numNodes l b ≤ i := by omega
      rw [getD_of_length_le (by rw [hlen]; exact hge)]
      exact ⟨le_rfl, le_rfl⟩
    | succ d ih =>
      intro i hle
      by_cases hgeN : numNodes l b ≤ i
      · rw [getD_of_length_le (by rw [hlen]; exact hgeN)]
        exact ⟨le_rfl, le_rfl⟩
      · by_cases hleaf' : numInternal l b ≤ i
        · -- leaf slot
          have hk : i - numInternal l b < numLeaves l b := by
            rw [numNodes] at hgeN
            omega
          have he : numInternal l b + (i - numInternal l b) = i := by omega
          have := hleaf (i - numInternal l b) hk
          rw [he] at this
          rw [this]
          exact walkAgg_min_le_total (blk_ne_nil hl hb hk)
        · -- internal node
          push_neg at hleaf'
          rw [hint i hleaf']
          by_cases h2 : i * 2 + 2 < numNodes l b
          · rw [if_pos h2]
            have ih1 := ih (i * 2 + 1) (by omega)
            have ih2 := ih (i * 2 + 2) (by omega)
            exact combNode_wf _ _ ih1.1 ih1.2 ih2.1 ih2.2
          · rw [if_neg h2]
            by_cases h1 : i * 2 + 1 < numNodes l b
            · rw [if_pos h1]
              exact ih (i * 2 + 1) (by omega)
            · rw [if_neg h1]
              exact ⟨le_rfl, le_rfl⟩
  intro i
  exact main (numNodes l b) i (by omega)

/-- `first_leaf` recovers the number of internal nodes from the array length. -/
theorem first_leaf_eq {l : List Bool} {b : Nat} (hl : l ≠ []) (hb : 1 ≤ b) :
    (excess_tree l b).first_leaf = numInternal l b := by
  have hlen := (excess_tree_spec hl hb).1
  have hL1 := numLeaves_pos hl hb
  unfold MinMaxTree.first_leaf
  rw [hlen]
  by_cases h1 : numLeaves l b = 1
  · obtain ⟨hI, hN⟩ := numLeaves_one_sizes h1
    rw [hN, hI]
  · have h2 : 2 ≤ numLeaves l b := by omega
    have hh := treeH_pos (l := l) (b := b) h2
    have hI := numInternal_eq hl hb h2
    have hup := numLeaves_le_pow (l := l) (b := b)
    have hlo := pow_lt_numLeaves (l := l) (b := b) h2
    have hpos := Nat.two_pow_pos (treeH l b - 1)
    have hpow : 2 ^ treeH l b = 2 ^ (treeH l b - 1) * 2 := by
      conv_lhs => rw [show treeH l b = treeH l b - 1 + 1 by omega]
      rw [Nat.pow_succ]
    have hN : numNodes l b = 2 ^ treeH l b - 1 + numLeaves l b := by
      rw [numNodes, hI]
      omega
    have hN3 : 3 ≤ numNodes l b := by
      rw [hN]
      omega
    obtain ⟨n, hn⟩ : ∃ n, numNodes l b = n + 3 := ⟨numNodes l b - 3, by omega⟩
    rw [hn]
    show nextPow2 (divCeil (n + 3) 2) - 1 = numInternal l b
    rw [← hn, hI]
    -- divCeil N 2 = 2^(h-1) + L/2 and its clog2 is exactly h
    have hdc : divCeil (numNodes l b) 2 = (numNodes l b + 1) / 2 := by
      unfold divCeil
      congr 1
    have hval : (numNodes l b + 1) / 2 = 2 ^ (treeH l b - 1) + numLeaves l b / 2 := by
      rw [hN]
      have e : 2 ^ treeH l b - 1 + numLeaves l b + 1 =
          numLeaves l b + 2 ^ (treeH l b - 1) * 2 := by omega
      rw [e, Nat.add_mul_div_right _ _ (by omega)]
      omega
    have hx_hi : (numNodes l b + 1) / 2 ≤ 2 ^ treeH l b := by
      rw [hval, hpow]
      have : numLeaves l b / 2 ≤ 2 ^ (treeH l b - 1) := by
        have := Nat.div_le_div_right (c := 2) hup
        rw [hpow, Nat.mul_div_cancel _ (by omega)] at this
        exact this
      omega
    have hx_lo : 2 ^ (treeH l b - 1) < (numNodes l b + 1) / 2 := by
      rw [hval]
      have : 1 ≤ numLeaves l b / 2 := by
        rw [Nat.le_div_iff_mul_le (by omega)]
        omega
      omega
    have hclog : clog2 ((numNodes l b + 1) / 2) = treeH l b := by
      have hle := clog2_le_of_le_pow hx_hi
      have hlt := lt_clog2_of_pow_lt hx_lo
      omega
    rw [hdc]
    unfold nextPow2
    rw [hclog]

/-- A leaf slot has no children inside the array. -/
theorem leaf_no_children {l : List Bool} {b : Nat} (hl : l ≠ []) (hb : 1 ≤ b) :
    ∀ i, numInternal l b ≤ i → numNodes l b ≤ i * 2 + 1 := by
  obtain ⟨m, _, hI, _, hLle⟩ := excess_tree_build_params hl hb
  intro i hi
  rw [numNodes]
  rw [hI] at hi
  have hpos := Nat.two_pow_pos (m + 1)
  omega

theorem right_sibling_eq_some_iff (t : MinMaxTree) (idx s : Nat) :
    t.right_sibling idx = some s ↔
      (idx % 2 = 1 ∧ idx + 1 < t.nodes.length ∧ s = idx + 1) := by
  unfold MinMaxTree.right_sibling
  by_cases hodd : idx % 2 = 1
  · rw [if_pos hodd]
    by_cases hlt : idx + 1 ≥ t.nodes.length
    · rw [if_pos hlt]
      constructor
      · intro h; cases h
      · rintro ⟨_, h, _⟩; omega
    · rw [if_neg hlt]
      constructor
      · intro h
        injection h with h
        exact ⟨hodd, by omega, h.symm⟩
      · rintro ⟨_, _, rfl⟩
        rfl
  · rw [if_neg hodd]
    constructor
    · intro h; cases h
    · rintro ⟨h, _, _⟩; omega

theorem left_sibling_eq_some_iff (t : MinMaxTree) (idx : Nat) (hpos : 1 ≤ idx)
    (s : Nat) :
    t.left_sibling idx = some s ↔ (idx % 2 = 0 ∧ s = idx - 1) := by
  unfold MinMaxTree.left_sibling
  by_cases heven : idx % 2 = 0
  · rw [if_pos heven, if_neg (by omega)]
    constructor
    · intro h
      injection h with h
      exact ⟨heven, h.symm⟩
    · rintro ⟨_, rfl⟩
      rfl
  · rw [if_neg heven]
    constructor
    · intro h; cases h
    · rintro ⟨h, _⟩; omega

/-! ## Claim theorems -/

/-- C3: for every bit sequence and every block size `B ≥ 1`, every node
aggregate of the tree built by `excess_tree` (leaf or internal) satisfies
`min ≤ total ≤ max`. -/
theorem C3_every_aggregate_min_le_total_le_max (l : List Bool) (b : Nat)
    (hb : 1 ≤ b) :
    ∀ i, i < (excess_tree l b).nodes.length →
      ((excess_tree l b).nodes.getD i ExcessNode.dflt).min ≤
        ((excess_tree l b).nodes.getD i ExcessNode.dflt).total ∧
      ((excess_tree l b).nodes.getD i ExcessNode.dflt).total ≤
        ((excess_tree l b).nodes.getD i ExcessNode.dflt).max := by
  by_cases hl : l = []
  · subst hl
    intro i hi
    simp [excess_tree] at hi
  · intro i _
    exact excess_tree_node_wf hl hb i

/-- C3 witness. -/
theorem C3_witness :
    ((excess_tree [true, false] 1).nodes.getD 0 ExcessNode.dflt).min ≤
      ((excess_tree [true, false] 1).nodes.getD 0 ExcessNode.dflt).total ∧
    ((excess_tree [true, false] 1).nodes.getD 0 ExcessNode.dflt).total ≤
      ((excess_tree [true, false] 1).nodes.getD 0 ExcessNode.dflt).max :=
  C3_every_aggregate_min_le_total_le_max [true, false] 1 (by decide) 0 (by decide)

/-- C4: in every tree built by `excess_tree`, an internal node with two
children satisfies exactly the combine formulas, and an internal node with
only a left child copies that child's aggregate verbatim. -/
theorem C4_internal_combine_formulas (l : List Bool) (b : Nat) (hb : 1 ≤ b) :
    ∀ i,
      (i * 2 + 2 < (excess_tree l b).nodes.length →
        (excess_tree l b).nodes.getD i ExcessNode.dflt =
          ⟨((excess_tree l b).nodes.getD (i * 2 + 1) ExcessNode.dflt).total +
              ((excess_tree l b).nodes.getD (i * 2 + 2) ExcessNode.dflt).total,
            Min.min ((excess_tree l b).nodes.getD (i * 2 + 1) ExcessNode.dflt).min
              (((excess_tree l b).nodes.getD (i * 2 + 1) ExcessNode.dflt).total +
                ((excess_tree l b).nodes.getD (i * 2 + 2) ExcessNode.dflt).min),
            Max.max ((excess_tree l b).nodes.getD (i * 2 + 1) ExcessNode.dflt).max
              (((excess_tree l b).nodes.getD (i * 2 + 1) ExcessNode.dflt).total +
                ((excess_tree l b).nodes.getD (i * 2 + 2) ExcessNode.dflt).max)⟩) ∧
      (i * 2 + 1 < (excess_tree l b).nodes.length →
        (excess_tree l b).nodes.length ≤ i * 2 + 2 →
        (excess_tree l b).nodes.getD i ExcessNode.dflt =
          (excess_tree l b).nodes.getD (i * 2 + 1) ExcessNode.dflt) := by
  by_cases hl : l = []
  · subst hl
    intro i
    constructor
    · intro h
      simp [excess_tree] at h
    · intro h1 h2
      simp [excess_tree] at h1
  · obtain ⟨hlen, _, hint⟩ := excess_tree_spec hl hb
    have hnoc := leaf_no_children hl hb
    intro i
    have hi_internal : i * 2 + 1 < (excess_tree l b).nodes.length →
        i < numInternal l b := by
      intro h
      by_contra hcon
      push_neg at hcon
      have := hnoc i hcon
      rw [hlen] at h
      omega
    constructor
    · intro h2
      have hi := hi_internal (by omega)
      rw [hint i hi, if_pos (by rw [← hlen]; exact h2)]
      rfl
    · intro h1 h2
      have hi := hi_internal h1
      rw [hint i hi, if_neg (by rw [← hlen]; omega), if_pos (by rw [← hlen]; exact h1)]

/-- C4 witness. -/
theorem C4_witness :
    (2 < (excess_tree [true, false] 1).nodes.length →
      (excess_tree [true, false] 1).nodes.getD 0 ExcessNode.dflt =
        ⟨((excess_tree [true, false] 1).nodes.getD 1 ExcessNode.dflt).total +
            ((excess_tree [true, false] 1).nodes.getD 2 ExcessNode.dflt).total,
          Min.min ((excess_tree [true, false] 1).nodes.getD 1 ExcessNode.dflt).min
            (((excess_tree [true, false] 1).nodes.getD 1 ExcessNode.dflt).total +
              ((excess_tree [true, false] 1).nodes.getD 2 ExcessNode.dflt).min),
          Max.max ((excess_tree [true, false] 1).nodes.getD 1 ExcessNode.dflt).max
            (((excess_tree [true, false] 1).nodes.getD 1 ExcessNode.dflt).total +
              ((excess_tree [true, false] 1).nodes.getD 2 ExcessNode.dflt).max)⟩) ∧
    (1 < (excess_tree [true, false] 1).nodes.length →
      (excess_tree [true, false] 1).nodes.length ≤ 2 →
      (excess_tree [true, false] 1).nodes.getD 0 ExcessNode.dflt =
        (excess_tree [true, false] 1).nodes.getD 1 ExcessNode.dflt) := by
  have h := C4_internal_combine_formulas [true, false] 1 (by decide) 0
  exact ⟨fun h2 => h.1 (by simpa using h2), fun h1 h2 => h.2 (by simpa using h1) (by simpa using h2)⟩

/-- C5: for a nonempty bit sequence and block size `B ≥ 1` the node array has
exactly `L = ⌈M/B⌉` leaf aggregates in left-to-right block order preceded by
`I = max 1 (nextPowerOfTwo L - 1)` internal nodes (total length `I + L`), and
the empty sequence yields an empty array. -/
theorem C5_tree_shape (l : List Bool) (b : Nat) (hb : 1 ≤ b) :
    (l ≠ [] →
      (excess_tree l b).nodes.length =
        max 1 (nextPow2 (divCeil l.length b) - 1) + divCeil l.length b ∧
      ∀ j, j < divCeil l.length b →
        (excess_tree l b).nodes.getD
          (max 1 (nextPow2 (divCeil l.length b) - 1) + j) ExcessNode.dflt =
          walkAgg (blk l b j)) ∧
    (l = [] → (excess_tree l b).nodes.length = 0) := by
  constructor
  · intro hl
    obtain ⟨hlen, hleaf, _⟩ := excess_tree_spec hl hb
    have hI : numInternal l b = max 1 (nextPow2 (divCeil l.length b) - 1) := rfl
    have hL : numLeaves l b = divCeil l.length b := rfl
    constructor
    · rw [hlen, numNodes, hI, hL]
      omega
    · intro j hj
      have := hleaf j (by rw [hL]; exact hj)
      rwa [hI] at this
  · intro hl
    subst hl
    rfl

/-- C5 witness. -/
theorem C5_witness :
    ((([true, false] : List Bool) ≠ [] →
      (excess_tree [true, false] 1).nodes.length =
        max 1 (nextPow2 (divCeil ([true, false] : List Bool).length 1) - 1) +
          divCeil ([true, false] : List Bool).length 1 ∧
      ∀ j, j < divCeil ([true, false] : List Bool).length 1 →
        (excess_tree [true, false] 1).nodes.getD
          (max 1 (nextPow2 (divCeil ([true, false] : List Bool).length 1) - 1) + j)
          ExcessNode.dflt = walkAgg (blk [true, false] 1 j)) ∧
    (([true, false] : List Bool) = [] →
      (excess_tree [true, false] 1).nodes.length = 0)) :=
  C5_tree_shape [true, false] 1 (by decide)

/-- C9 counterexample: the Rust guard computes `begin + self.first_leaf()`
in `usize`, which wraps in release mode.  On the 2-node tree (`first_leaf =
1`) with `begin = usize::MAX`, the mathematical sum `begin + first_leaf ≥ N`
satisfies the claim's out-of-range condition, yet the wrapped sum is 0: the
guard is bypassed and `NonZeroUsize::new(0).unwrap()` panics instead of
returning an absent result. -/
theorem C9_counterexample :
    (excess_tree [true] 1).nodes.length ≤
      2 ^ 64 - 1 + (excess_tree [true] 1).first_leaf ∧
    (excess_tree [true] 1).fwd_search_usize (2 ^ 64 - 1) 0 =
      RustResult.panicked := by decide

/-- C9 (amended): under release-mode `usize` arithmetic, both searches return
an absent result, without panicking and without reading any aggregate (the
tree is arbitrary), on the empty tree for every `begin`, and whenever
`begin + first_leaf ≥ N` provided that sum does not overflow `usize`; for an
overflowing sum the guard is bypassed (see the counterexample). -/
theorem C9_guard_and_empty_tree (t : MinMaxTree) (begin : Nat) (x : Int) :
    (t.nodes = [] →
      t.fwd_search_usize begin x = RustResult.ok none ∧
      t.bwd_search_usize begin x = RustResult.ok none) ∧
    (t.nodes.length ≤ begin + t.first_leaf → begin + t.first_leaf < 2 ^ 64 →
      t.fwd_search_usize begin x = RustResult.ok none ∧
      t.bwd_search_usize begin x = RustResult.ok none) := by
  constructor
  · intro hnil
    have hfl : t.first_leaf = 0 := by
      unfold MinMaxTree.first_leaf
      rw [hnil]
      rfl
    constructor
    · unfold MinMaxTree.fwd_search_usize
      rw [hnil, hfl, if_pos (by simp)]
    · unfold MinMaxTree.bwd_search_usize
      rw [hnil, hfl, if_pos (by simp)]
  · intro hge hlt
    have hmod : (begin + t.first_leaf) % 2 ^ 64 = begin + t.first_leaf :=
      Nat.mod_eq_of_lt hlt
    constructor
    · unfold MinMaxTree.fwd_search_usize
      rw [hmod, if_pos hge]
    · unfold MinMaxTree.bwd_search_usize
      rw [hmod, if_pos hge]

/-- C9 witness (for the amended statement): the empty tree yields an absent
result for both searches. -/
theorem C9_witness :
    (excess_tree [] 1).fwd_search_usize 5 0 = RustResult.ok none ∧
    (excess_tree [] 1).bwd_search_usize 5 0 = RustResult.ok none :=
  (C9_guard_and_empty_tree (excess_tree [] 1) 5 0).1 (by decide)

/-- C10 counterexample: `left_sibling` performs no bounds check, so on the
2-node tree it returns index 3 for input 4 although `4 - 1 < N` fails. -/
theorem C10_counterexample :
    (excess_tree [true] 1).left_sibling 4 = some 3 ∧
    ¬ (4 - 1 < (excess_tree [true] 1).nodes.length) := by decide

/-- C10 (amended): `right_sibling idx` returns a sibling exactly when `idx` is
odd and `idx + 1 < N`; `left_sibling idx` returns a sibling exactly when `idx`
is even (with no bounds check); siblings have opposite parity, each node has at
most one sibling, `left_sibling (right_sibling idx) = idx` wherever defined,
and `right_sibling (left_sibling idx) = idx` whenever additionally `idx < N`. -/
theorem C10_sibling_navigation (t : MinMaxTree) (idx : Nat) (hpos : 1 ≤ idx) :
    (∀ s, t.right_sibling idx = some s ↔
      (idx % 2 = 1 ∧ idx + 1 < t.nodes.length ∧ s = idx + 1)) ∧
    (∀ s, t.left_sibling idx = some s ↔ (idx % 2 = 0 ∧ s = idx - 1)) ∧
    (∀ s, t.right_sibling idx = some s → s % 2 = 0) ∧
    (∀ s, t.left_sibling idx = some s → s % 2 = 1) ∧
    ¬ (t.right_sibling idx ≠ none ∧ t.left_sibling idx ≠ none) ∧
    (∀ s, t.right_sibling idx = some s → t.left_sibling s = some idx) ∧
    (∀ s, t.left_sibling idx = some s → idx < t.nodes.length →
      t.right_sibling s = some idx) := by
  have hrs := fun s => right_sibling_eq_some_iff t idx s
  have hls := fun s => left_sibling_eq_some_iff t idx hpos s
  refine ⟨hrs, hls, ?_, ?_, ?_, ?_, ?_⟩
  · intro s h
    obtain ⟨h1, _, h3⟩ := (hrs s).1 h
    omega
  · intro s h
    obtain ⟨h1, h2⟩ := (hls s).1 h
    omega
  · rintro ⟨h1, h2⟩
    rcases ho : t.right_sibling idx with _ | s
    · exact h1 ho
    · rcases ho2 : t.left_sibling idx with _ | s2
      · exact h2 ho2
      · obtain ⟨p1, _, _⟩ := (hrs s).1 ho
        obtain ⟨p2, _⟩ := (hls s2).1 ho2
        omega
  · intro s h
    obtain ⟨h1, h2, rfl⟩ := (hrs s).1 h
    rw [left_sibling_eq_some_iff t (idx + 1) (by omega) idx]
    exact ⟨by omega, by omega⟩
  · intro s h hlt
    obtain ⟨h1, rfl⟩ := (hls s).1 h
    rw [right_sibling_eq_some_iff t (idx - 1) idx]
    exact ⟨by omega, by omega, by omega⟩

/-- C10 witness (for the amended statement). -/
theorem C10_witness :
    (∀ s, (excess_tree [true] 1).right_sibling 1 = some s ↔
      (1 % 2 = 1 ∧ 1 + 1 < (excess_tree [true] 1).nodes.length ∧ s = 1 + 1)) ∧
    (∀ s, (excess_tree [true] 1).left_sibling 1 = some s ↔ (1 % 2 = 0 ∧ s = 1 - 1)) ∧
    (∀ s, (excess_tree [true] 1).right_sibling 1 = some s → s % 2 = 0) ∧
    (∀ s, (excess_tree [true] 1).left_sibling 1 = some s → s % 2 = 1) ∧
    ¬ ((excess_tree [true] 1).right_sibling 1 ≠ none ∧
       (excess_tree [true] 1).left_sibling 1 ≠ none) ∧
    (∀ s, (excess_tree [true] 1).right_sibling 1 = some s →
      (excess_tree [true] 1).left_sibling s = some 1) ∧
    (∀ s, (excess_tree [true] 1).left_sibling 1 = some s →
      1 < (excess_tree [true] 1).nodes.length →
      (excess_tree [true] 1).right_sibling s = some 1) :=
  C10_sibling_navigation (excess_tree [true] 1) 1 (by decide)

/-- C8 counterexample: the leaf aggregate of the block `[1]` has `min = 1`,
so the empty prefix (excess 0) is NOT included in the extremes and
`min ≤ 0 ≤ max` fails. -/
theorem C8_counterexample :
    ((excess_tree [true] 1).nodes.getD 1 ExcessNode.dflt).min = 1 ∧
    ¬ (((excess_tree [true] 1).nodes.getD 1 ExcessNode.dflt).min ≤ 0 ∧
       (0 : Int) ≤ ((excess_tree [true] 1).nodes.getD 1 ExcessNode.dflt).max) := by
  decide

/-- C8 (amended): for every block, `min` and `max` of its leaf aggregate are
the minimum and maximum of the running excess over the NONEMPTY prefixes of
the block (the empty prefix, excess 0, is excluded), `total` is the excess of
the whole block, and `min ≤ total ≤ max`. -/
theorem C8_leaf_min_max_are_prefix_extremes (l : List Bool) (b : Nat)
    (hl : l ≠ []) (hb : 1 ≤ b) (hbound : (l.length : Int) < i64MAX) :
    ∀ j, j < numLeaves l b →
      ∀ nd, nd = (excess_tree l b).nodes.getD (numInternal l b + j) ExcessNode.dflt →
        nd.total = excess (blk l b j) ∧
        nd.min ∈ walkVals (blk l b j) 0 ∧
        (∀ v ∈ walkVals (blk l b j) 0, nd.min ≤ v) ∧
        nd.max ∈ walkVals (blk l b j) 0 ∧
        (∀ v ∈ walkVals (blk l b j) 0, v ≤ nd.max) ∧
        nd.min ≤ nd.total ∧ nd.total ≤ nd.max := by
  intro j hj nd hnd
  have hleaf := (excess_tree_spec hl hb).2.1 j hj
  rw [hleaf] at hnd
  subst hnd
  have hne := blk_ne_nil hl hb hj
  have hblen : ((blk l b j).length : Int) < i64MAX := by
    have h1 : (blk l b j).length ≤ l.length := by
      rw [blk_length_eq]
      omega
    have : ((blk l b j).length : Int) ≤ (l.length : Int) := by exact_mod_cast h1
    omega
  obtain ⟨hmem, hlb⟩ := walkAgg_min_spec hne hblen
  obtain ⟨hmem2, hub⟩ := walkAgg_max_spec hne hblen
  obtain ⟨h1, h2⟩ := walkAgg_min_le_total hne
  exact ⟨walkAgg_total _, hmem, hlb, hmem2, hub, h1, h2⟩

/-- C8 witness. -/
theorem C8_witness :
    ((excess_tree [true, false] 1).nodes.getD (numInternal [true, false] 1 + 0)
        ExcessNode.dflt).total = excess (blk [true, false] 1 0) ∧
    ((excess_tree [true, false] 1).nodes.getD (numInternal [true, false] 1 + 0)
        ExcessNode.dflt).min ∈ walkVals (blk [true, false] 1 0) 0 ∧
    (∀ v ∈ walkVals (blk [true, false] 1 0) 0,
      ((excess_tree [true, false] 1).nodes.getD (numInternal [true, false] 1 + 0)
        ExcessNode.dflt).min ≤ v) ∧
    ((excess_tree [true, false] 1).nodes.getD (numInternal [true, false] 1 + 0)
        ExcessNode.dflt).max ∈ walkVals (blk [true, false] 1 0) 0 ∧
    (∀ v ∈ walkVals (blk [true, false] 1 0) 0,
      v ≤ ((excess_tree [true, false] 1).nodes.getD (numInternal [true, false] 1 + 0)
        ExcessNode.dflt).max) ∧
    ((excess_tree [true, false] 1).nodes.getD (numInternal [true, false] 1 + 0)
        ExcessNode.dflt).min ≤
      ((excess_tree [true, false] 1).nodes.getD (numInternal [true, false] 1 + 0)
        ExcessNode.dflt).total ∧
    ((excess_tree [true, false] 1).nodes.getD (numInternal [true, false] 1 + 0)
        ExcessNode.dflt).total ≤
      ((excess_tree [true, false] 1).nodes.getD (numInternal [true, false] 1 + 0)
        ExcessNode.dflt).max :=
  C8_leaf_min_max_are_prefix_extremes [true, false] 1 (by decide) (by decide)
    (by decide) 0 (by decide)
    ((excess_tree [true, false] 1).nodes.getD (numInternal [true, false] 1 + 0)
      ExcessNode.dflt) rfl

/-- C1 counterexample: on six one-bit blocks, `fwd_search 5 0` reaches an
unrealized internal node (aggregate `(0,0,0)` accepts the adjusted excess 0)
and executes `unreachable!()` — it panics instead of returning an absent
result. -/
theorem C1_counterexample :
    (excess_tree [true, true, true, true, true, true] 1).fwd_search 5 0 =
      RustResult.panicked := by
  decide

/-! ### Heap-slot span machinery -/

theorem dpt_zero : dpt 0 = 0 := Nat.log_one_right 2

theorem dpt_bounds (i : Nat) : 2 ^ dpt i ≤ i + 1 ∧ i + 1 < 2 ^ (dpt i + 1) := by
  constructor
  · exact Nat.pow_log_le_self 2 (by omega)
  · exact Nat.lt_pow_succ_log_self (by norm_num) (i + 1)

theorem dpt_left_child (i : Nat) : dpt (i * 2 + 1) = dpt i + 1 := by
  obtain ⟨h1, h2⟩ := dpt_bounds i
  unfold dpt at h1 h2 ⊢
  apply Nat.log_eq_of_pow_le_of_lt_pow
  · rw [Nat.pow_succ]
    omega
  · rw [Nat.pow_succ, Nat.pow_succ]
    omega

theorem dpt_right_child (i : Nat) : dpt (i * 2 + 2) = dpt i + 1 := by
  obtain ⟨h1, h2⟩ := dpt_bounds i
  unfold dpt at h1 h2 ⊢
  apply Nat.log_eq_of_pow_le_of_lt_pow
  · rw [Nat.pow_succ]
    omega
  · rw [Nat.pow_succ, Nat.pow_succ]
    omega

theorem dpt_lt_of_lt_pow {i h : Nat} (hlt : i + 1 < 2 ^ h) : dpt i < h := by
  unfold dpt
  exact Nat.log_lt_of_lt_pow (by omega) hlt

theorem dpt_eq_of_ge {i h : Nat} (hge : 2 ^ h ≤ i + 1) (hlt : i + 1 < 2 ^ (h + 1)) :
    dpt i = h :=
  Nat.log_eq_of_pow_le_of_lt_pow hge hlt

theorem slotLo_ge (h i : Nat) : 2 ^ h - 1 ≤ slotLo h i := by
  obtain ⟨h1, _⟩ := dpt_bounds i
  unfold slotLo
  have hd : dpt i ≤ h ∨ h < dpt i := by omega
  rcases hd with hd | hd
  · have e : 2 ^ h = 2 ^ dpt i * 2 ^ (h - dpt i) := by
      rw [← Nat.pow_add]
      congr 1
      omega
    have := Nat.mul_le_mul_right (2 ^ (h - dpt i)) h1
    omega
  · have e : h - dpt i = 0 := by omega
    rw [e]
    have h2 : 2 ^ h ≤ 2 ^ dpt i := Nat.pow_le_pow_right (by omega) (by omega)
    simp
    omega

theorem self_le_slotLo (h i : Nat) : i ≤ slotLo h i := by
  unfold slotLo
  have hp := Nat.two_pow_pos (h - dpt i)
  have := Nat.le_mul_of_pos_right (i + 1) hp
  omega

theorem slotLo_lt_slotHi (h i : Nat) : slotLo h i < slotHi h i := by
  unfold slotLo slotHi
  have hp := Nat.two_pow_pos (h - dpt i)
  have h1 : (i + 1) * 2 ^ (h - dpt i) + 1 * 2 ^ (h - dpt i) = (i + 2) * 2 ^ (h - dpt i) := by
    rw [← Nat.add_mul]
  have h2 := Nat.le_mul_of_pos_right (i + 1) hp
  omega

theorem slot_children {h i : Nat} (hd : dpt i < h) :
    slotLo h (i * 2 + 1) = slotLo h i ∧
    slotHi h (i * 2 + 1) = slotLo h (i * 2 + 2) ∧
    slotHi h (i * 2 + 2) = slotHi h i := by
  have hl := dpt_left_child i
  have hr := dpt_right_child i
  have hk : h - (dpt i + 1) + 1 = h - dpt i := by omega
  have e2 : ∀ c : Nat, c * 2 ^ (h - (dpt i + 1)) * 2 = c * 2 ^ (h - dpt i) := by
    intro c
    rw [Nat.mul_assoc, ← pow_succ, hk]
  refine ⟨?_, ?_, ?_⟩
  · unfold slotLo
    rw [hl]
    have : (i * 2 + 1 + 1) * 2 ^ (h - (dpt i + 1)) = (i + 1) * 2 ^ (h - dpt i) := by
      have e3 : (i * 2 + 1 + 1) * 2 ^ (h - (dpt i + 1)) =
          (i + 1) * 2 ^ (h - (dpt i + 1)) * 2 := by ring
      rw [e3, e2]
    rw [this]
  · unfold slotHi slotLo
    rw [hl, hr]
  · unfold slotHi
    rw [hr]
    have : (i * 2 + 2 + 2) * 2 ^ (h - (dpt i + 1)) = (i + 2) * 2 ^ (h - dpt i) := by
      have e3 : (i * 2 + 2 + 2) * 2 ^ (h - (dpt i + 1)) =
          (i + 2) * 2 ^ (h - (dpt i + 1)) * 2 := by ring
      rw [e3, e2]
    rw [this]

theorem slot_at_bottom {h i : Nat} (hge : 2 ^ h - 1 ≤ i) (hlt : i + 1 < 2 ^ (h + 1)) :
    slotLo h i = i ∧ slotHi h i = i + 1 := by
  have hp := Nat.two_pow_pos h
  have hd : dpt i = h := dpt_eq_of_ge (by omega) hlt
  unfold slotLo slotHi
  rw [hd, Nat.sub_self, Nat.pow_zero, Nat.mul_one, Nat.mul_one]
  omega

/-! ### Segment lemmas -/

theorem segOf_self (l : List Bool) (b a : Nat) : segOf l b a a = [] := by
  unfold segOf
  rw [Nat.sub_self, Nat.zero_mul]
  rfl

theorem segOf_single (l : List Bool) (b j : Nat) : segOf l b j (j + 1) = blk l b j := by
  unfold segOf blk
  rw [Nat.add_sub_cancel_left, Nat.one_mul]

theorem segOf_append {l : List Bool} {b a m c : Nat} (h1 : a ≤ m) (h2 : m ≤ c) :
    segOf l b a m ++ segOf l b m c = segOf l b a c := by
  unfold segOf
  have e1 : (c - a) * b = (m - a) * b + (c - m) * b := by
    rw [← Nat.add_mul]
    congr 1
    omega
  rw [e1, take_add']
  congr 2
  rw [List.drop_drop]
  congr 1
  rw [← Nat.add_mul]
  congr 1
  omega

theorem segOf_length_le (l : List Bool) (b a c : Nat) :
    (segOf l b a c).length ≤ l.length := by
  unfold segOf
  simp

theorem segOf_ne_nil {l : List Bool} {b a c : Nat} (hl : l ≠ []) (hb : 1 ≤ b)
    (ha : a < numLeaves l b) (hac : a < c) : segOf l b a c ≠ [] := by
  have hab := mul_lt_length hl hb ha
  intro hcon
  have : (segOf l b a c).length = 0 := by rw [hcon]; rfl
  unfold segOf at this
  simp at this
  rcases this with h | h
  · have : 1 * b ≤ (c - a) * b := Nat.mul_le_mul_right b (by omega)
    omega
  · omega

theorem cutExcess_block_additive {l : List Bool} {b a c : Nat} (h : a ≤ c) :
    cutExcess l (c * b) = cutExcess l (a * b) + excess (segOf l b a c) := by
  unfold cutExcess segOf
  have e : c * b = a * b + (c - a) * b := by
    rw [← Nat.add_mul]
    congr 1
    omega
  rw [e, take_add', excess_append]

theorem cutExcess_saturate {l : List Bool} {p : Nat} (h : l.length ≤ p) :
    cutExcess l p = excess l := by
  unfold cutExcess
  rw [List.take_of_length_le h]

/-- Membership of a shifted target in a segment's walk values, as existence of
a cut point with the target absolute excess. -/
theorem seg_mem_iff_cut {l : List Bool} {b a c : Nat} {T : Int} (hac : a ≤ c) :
    (T - cutExcess l (a * b)) ∈ walkVals (segOf l b a c) 0 ↔
      ∃ q, a * b < q ∧ q ≤ c * b ∧ q ≤ l.length ∧ cutExcess l q = T := by
  rw [mem_walkVals_iff]
  have hlen : (segOf l b a c).length = min ((c - a) * b) (l.length - a * b) := by
    unfold segOf
    simp
  constructor
  · rintro ⟨p, hp1, hp2, hp3⟩
    refine ⟨a * b + p, by omega, ?_, ?_, ?_⟩
    · rw [hlen] at hp2
      have : (c - a) * b + a * b = c * b := by
        rw [← Nat.add_mul]
        congr 1
        omega
      omega
    · rw [hlen] at hp2
      omega
    · have e : cutExcess l (a * b + p) = cutExcess l (a * b) + cutExcess (segOf l b a c) p := by
        unfold cutExcess segOf
        rw [take_add']
        rw [excess_append]
        congr 2
        rw [List.take_take]
        congr 1
        rw [hlen] at hp2
        omega
      rw [e]
      unfold cutExcess at hp3 ⊢
      omega
  · rintro ⟨q, hq1, hq2, hq3, hq4⟩
    refine ⟨q - a * b, by omega, ?_, ?_⟩
    · rw [hlen]
      have : (c - a) * b + a * b = c * b := by
        rw [← Nat.add_mul]
        congr 1
        omega
      omega
    · have e : cutExcess l q = cutExcess l (a * b) + cutExcess (segOf l b a c) (q - a * b) := by
        have e2 : q = a * b + (q - a * b) := by omega
        conv_lhs => rw [e2]
        unfold cutExcess segOf
        rw [take_add', excess_append]
        congr 2
        rw [List.take_take]
        congr 1
        rw [hlen] at *
        have : (c - a) * b + a * b = c * b := by
          rw [← Nat.add_mul]
          congr 1
          omega
        omega
      rw [← hq4, e]
      ring

/-- `blockMatchFwd` holds exactly when some cut point in `(jB, (j+1)B]` inside
the sequence has absolute excess `T`. -/
theorem blockMatchFwd_iff_cut {l : List Bool} {b j : Nat} {T : Int} :
    blockMatchFwd l b j T = true ↔
      ∃ q, j * b < q ∧ q ≤ (j + 1) * b ∧ q ≤ l.length ∧ cutExcess l q = T := by
  unfold blockMatchFwd
  rw [List.any_eq_true]
  constructor
  · rintro ⟨c, hc, hq⟩
    rw [Bool.and_eq_true, decide_eq_true_iff, decide_eq_true_iff] at hq
    rw [List.mem_range] at hc
    refine ⟨j * b + c + 1, by omega, ?_, by omega, hq.2⟩
    rw [Nat.add_mul, Nat.one_mul]
    omega
  · rintro ⟨q, hq1, hq2, hq3, hq4⟩
    refine ⟨q - j * b - 1, ?_, ?_⟩
    · rw [List.mem_range]
      rw [Nat.add_mul, Nat.one_mul] at hq2
      omega
    · rw [Bool.and_eq_true, decide_eq_true_iff, decide_eq_true_iff]
      have e : j * b + (q - j * b - 1) + 1 = q := by omega
      rw [e]
      exact ⟨hq3, hq4⟩

/-- `blockMatchBwd` holds exactly when some cut point in `[jB, (j+1)B]` inside
the sequence has absolute excess `T`. -/
theorem blockMatchBwd_iff_cut {l : List Bool} {b j : Nat} {T : Int} :
    blockMatchBwd l b j T = true ↔
      ∃ q, j * b ≤ q ∧ q ≤ (j + 1) * b ∧ q ≤ l.length ∧ cutExcess l q = T := by
  unfold blockMatchBwd
  rw [List.any_eq_true]
  constructor
  · rintro ⟨c, hc, hq⟩
    rw [Bool.and_eq_true, decide_eq_true_iff, decide_eq_true_iff] at hq
    rw [List.mem_range] at hc
    refine ⟨j * b + c, by omega, ?_, hq.1, hq.2⟩
    rw [Nat.add_mul, Nat.one_mul]
    omega
  · rintro ⟨q, hq1, hq2, hq3, hq4⟩
    refine ⟨q - j * b, ?_, ?_⟩
    · rw [List.mem_range]
      rw [Nat.add_mul, Nat.one_mul] at hq2
      omega
    · rw [Bool.and_eq_true, decide_eq_true_iff, decide_eq_true_iff]
      have e : j * b + (q - j * b) = q := by omega
      rw [e]
      exact ⟨hq3, hq4⟩

/-! ### Node span characterization (trees with at least two blocks) -/

theorem ctx_facts {l : List Bool} {b : Nat} (hl : l ≠ []) (hb : 1 ≤ b)
    (hL2 : 2 ≤ numLeaves l b) :
    numInternal l b = 2 ^ treeH l b - 1 ∧ 1 ≤ treeH l b ∧
    numLeaves l b ≤ 2 ^ treeH l b ∧ 2 ^ (treeH l b - 1) < numLeaves l b ∧
    numNodes l b = 2 ^ treeH l b - 1 + numLeaves l b ∧
    numNodes l b + 1 ≤ 2 ^ (treeH l b + 1) := by
  have h1 := numInternal_eq hl hb hL2
  have h2 := treeH_pos (l := l) (b := b) hL2
  have h3 := numLeaves_le_pow (l := l) (b := b)
  have h4 := pow_lt_numLeaves (l := l) (b := b) hL2
  have h5 : numNodes l b = 2 ^ treeH l b - 1 + numLeaves l b := by
    rw [numNodes, h1]
    omega
  have hpow : 2 ^ (treeH l b + 1) = 2 ^ treeH l b * 2 := Nat.pow_succ ..
  have hp := Nat.two_pow_pos (treeH l b)
  exact ⟨h1, h2, h3, h4, h5, by omega⟩

theorem leaf_slots {l : List Bool} {b : Nat} (hl : l ≠ []) (hb : 1 ≤ b)
    (hL2 : 2 ≤ numLeaves l b) {i : Nat} (hi1 : numInternal l b ≤ i)
    (hi2 : i < numNodes l b) :
    slotLo (treeH l b) i = i ∧ slotHi (treeH l b) i = i + 1 ∧
    nodeLo l b i = i - numInternal l b ∧
    nodeHi l b i = i - numInternal l b + 1 := by
  obtain ⟨hI, hh, hup, hlo, hN, hN2⟩ := ctx_facts hl hb hL2
  obtain ⟨e1, e2⟩ := slot_at_bottom (h := treeH l b) (i := i) (by omega) (by omega)
  refine ⟨e1, e2, ?_, ?_⟩
  · unfold nodeLo blkLo
    rw [e1]
  · unfold nodeHi blkHi
    rw [e2]
    omega

theorem internal_dpt_lt {l : List Bool} {b : Nat} (hl : l ≠ []) (hb : 1 ≤ b)
    (hL2 : 2 ≤ numLeaves l b) {i : Nat} (hi : i < numInternal l b) :
    dpt i < treeH l b := by
  obtain ⟨hI, hh, hup, hlo, hN, hN2⟩ := ctx_facts hl hb hL2
  exact dpt_lt_of_lt_pow (by omega)

theorem node_agg {l : List Bool} {b : Nat} (hl : l ≠ []) (hb : 1 ≤ b)
    (hL2 : 2 ≤ numLeaves l b) (hbound : (l.length : Int) < i64MAX) :
    ∀ i, i < numNodes l b →
      (nodeLo l b i < numLeaves l b →
        (excess_tree l b).nodes.getD i ExcessNode.dflt =
          walkAgg (segOf l b (nodeLo l b i) (nodeHi l b i))) ∧
      (numLeaves l b ≤ nodeLo l b i →
        (excess_tree l b).nodes.getD i ExcessNode.dflt = ExcessNode.dflt) := by
  obtain ⟨hI, hh, hup, hlo, hN, hN2⟩ := ctx_facts hl hb hL2
  obtain ⟨hlen, hleaf, hint⟩ := excess_tree_spec hl hb
  have main : ∀ d i, numNodes l b - i ≤ d → i < numNodes l b →
      (nodeLo l b i < numLeaves l b →
        (excess_tree l b).nodes.getD i ExcessNode.dflt =
          walkAgg (segOf l b (nodeLo l b i) (nodeHi l b i))) ∧
      (numLeaves l b ≤ nodeLo l b i →
        (excess_tree l b).nodes.getD i ExcessNode.dflt = ExcessNode.dflt) := by
    intro d
    induction d with
    | zero => intro i h1 h2; omega
    | succ d ih =>
      intro i hle hi
      by_cases hleaf' : numInternal l b ≤ i
      · -- leaf slot
        obtain ⟨e1, e2, e3, e4⟩ := leaf_slots hl hb hL2 hleaf' hi
        have hk : i - numInternal l b < numLeaves l b := by omega
        have hkk : numInternal l b + (i - numInternal l b) = i := by omega
        constructor
        · intro _
          rw [e3, e4, segOf_single]
          have := hleaf (i - numInternal l b) hk
          rw [hkk] at this
          exact this
        · intro hcon
          rw [e3] at hcon
          omega
      · -- internal node
        push_neg at hleaf'
        have hd := internal_dpt_lt hl hb hL2 hleaf'
        obtain ⟨hcl, hcm, hcr⟩ := slot_children (h := treeH l b) hd
        have hslI := slotLo_ge (treeH l b) i
        have hslI' : numInternal l b ≤ slotLo (treeH l b) i := by omega
        have hmidI : numInternal l b ≤ slotLo (treeH l b) (i * 2 + 2) := by
          have := slotLo_ge (treeH l b) (i * 2 + 2)
          omega
        have hlm : slotLo (treeH l b) i < slotLo (treeH l b) (i * 2 + 2) := by
          have := slotLo_lt_slotHi (treeH l b) (i * 2 + 1)
          rw [hcl, hcm] at this
          exact this
        have hmh : slotLo (treeH l b) (i * 2 + 2) < slotHi (treeH l b) i := by
          have := slotLo_lt_slotHi (treeH l b) (i * 2 + 2)
          rw [hcr] at this
          exact this
        have hlc_le : i * 2 + 1 ≤ slotLo (treeH l b) i := by
          have := self_le_slotLo (treeH l b) (i * 2 + 1)
          omega
        have hrc_le : i * 2 + 2 ≤ slotLo (treeH l b) (i * 2 + 2) :=
          self_le_slotLo (treeH l b) (i * 2 + 2)
        -- abbreviations as equations
        have hLoLc : nodeLo l b (i * 2 + 1) = nodeLo l b i := by
          unfold nodeLo blkLo
          rw [hcl]
        have hHiRc : nodeHi l b (i * 2 + 2) = nodeHi l b i := by
          unfold nodeHi blkHi
          rw [hcr]
        have hHiLc : nodeHi l b (i * 2 + 1) =
            min (numLeaves l b) (slotLo (treeH l b) (i * 2 + 2) - numInternal l b) := by
          unfold nodeHi blkHi
          rw [hcm]
        have hLoRc : nodeLo l b (i * 2 + 2) =
            slotLo (treeH l b) (i * 2 + 2) - numInternal l b := rfl
        rw [hint i hleaf']
        by_cases h2 : i * 2 + 2 < numNodes l b
        · -- two children
          rw [if_pos h2]
          obtain ⟨ihlc1, ihlc2⟩ := ih (i * 2 + 1) (by omega) (by omega)
          obtain ⟨ihrc1, ihrc2⟩ := ih (i * 2 + 2) (by omega) h2
          by_cases hempty : numLeaves l b ≤ nodeLo l b i
          · -- whole span unrealized
            have he1 : numLeaves l b ≤ nodeLo l b (i * 2 + 1) := by rw [hLoLc]; omega
            have he2 : numLeaves l b ≤ nodeLo l b (i * 2 + 2) := by
              rw [hLoRc]
              unfold nodeLo blkLo at hempty
              omega
            rw [ihlc2 he1, ihrc2 he2]
            refine ⟨fun hcon => absurd hcon (by omega), fun _ => by decide⟩
          · push_neg at hempty
            refine ⟨fun _ => ?_, fun hcon => absurd hcon (by omega)⟩
            by_cases hrcempty :
                numLeaves l b ≤ slotLo (treeH l b) (i * 2 + 2) - numInternal l b
            · -- right span unrealized: combine with the zero aggregate
              have hgl := ihlc1 (by rw [hLoLc]; exact hempty)
              have hgr := ihrc2 (by rw [hLoRc]; exact hrcempty)
              rw [hgl, hgr]
              have hHiLcL : nodeHi l b (i * 2 + 1) = numLeaves l b := by
                rw [hHiLc]
                omega
              have hHiIL : nodeHi l b i = numLeaves l b := by
                unfold nodeHi blkHi
                omega
              rw [hHiLcL, hLoLc, hHiIL]
              have hne : segOf l b (nodeLo l b i) (numLeaves l b) ≠ [] :=
                segOf_ne_nil hl hb hempty hempty
              obtain ⟨hw1, hw2⟩ := walkAgg_min_le_total hne
              unfold combNode
              exact combine_dflt hw1 hw2
            · -- both spans realized: combine is concatenation
              push_neg at hrcempty
              have hgl := ihlc1 (by rw [hLoLc]; exact hempty)
              have hgr := ihrc1 (by rw [hLoRc]; exact hrcempty)
              rw [hgl, hgr, hLoLc, hHiLc, hLoRc, hHiRc]
              set a := nodeLo l b i with hadef
              set m := slotLo (treeH l b) (i * 2 + 2) - numInternal l b with hmdef
              set c := nodeHi l b i with hcdef
              have ham : a < m := by
                rw [hadef, hmdef]
                unfold nodeLo blkLo
                omega
              have hmc : m < c := by
                rw [hcdef]
                unfold nodeHi blkHi
                omega
              have hminm : min (numLeaves l b) m = m := by omega
              rw [hminm]
              have hs_ne : segOf l b a m ≠ [] := segOf_ne_nil hl hb hempty ham
              have ht_ne : segOf l b m c ≠ [] := segOf_ne_nil hl hb hrcempty hmc
              have happ : segOf l b a m ++ segOf l b m c = segOf l b a c :=
                segOf_append (by omega) (by omega)
              have hblen : (((segOf l b a m ++ segOf l b m c)).length : Int) < i64MAX := by
                rw [happ]
                have := segOf_length_le l b a c
                have : ((segOf l b a c).length : Int) ≤ (l.length : Int) := by
                  exact_mod_cast this
                omega
              have := walkAgg_append hs_ne ht_ne hblen
              rw [happ] at this
              rw [show combNode (walkAgg (segOf l b a m)) (walkAgg (segOf l b m c)) =
                  walkAgg (segOf l b a c) from by rw [this]; rfl]
        · -- at most one child
          rw [if_neg h2]
          by_cases h1 : i * 2 + 1 < numNodes l b
          · -- copy node
            rw [if_pos h1]
            obtain ⟨ihlc1, ihlc2⟩ := ih (i * 2 + 1) (by omega) (by omega)
            have hmidN : numNodes l b ≤ slotLo (treeH l b) (i * 2 + 2) := by omega
            have hHiLcL : nodeHi l b (i * 2 + 1) = numLeaves l b := by
              rw [hHiLc]
              omega
            have hHiIL : nodeHi l b i = numLeaves l b := by
              unfold nodeHi blkHi
              omega
            constructor
            · intro hsp
              rw [ihlc1 (by rw [hLoLc]; exact hsp), hLoLc, hHiLcL, hHiIL]
            · intro hsp
              exact ihlc2 (by rw [hLoLc]; exact hsp)
          · -- no children at all
            rw [if_neg h1]
            constructor
            · intro hsp
              exfalso
              unfold nodeLo blkLo at hsp
              omega
            · intro _
              rfl
  intro i hi
  exact main (numNodes l b) i (by omega) hi

/-! ### find? over (reversed) ranges -/

theorem find?_range_some : ∀ (n : Nat) (p : Nat → Bool) (j : Nat),
    (List.range n).find? p = some j ↔
      (j < n ∧ p j = true ∧ ∀ i, i < j → p i = false) := by
  intro n
  induction n with
  | zero =>
    intro p j
    simp [List.range_zero]
  | succ n ih =>
    intro p j
    rw [List.range_succ_eq_map n]
    by_cases h0 : p 0 = true
    · rw [List.find?_cons_of_pos _ h0]
      constructor
      · intro h
        injection h with h
        subst h
        exact ⟨Nat.succ_pos n, h0, fun i hi => absurd hi (Nat.not_lt_zero i)⟩
      · rintro ⟨h1, h2, h3⟩
        cases j with
        | zero => rfl
        | succ j =>
          have := h3 0 (Nat.succ_pos j)
          rw [this] at h0
          cases h0
    · rw [List.find?_cons_of_neg _ h0, List.find?_map]
      rw [Bool.not_eq_true] at h0
      constructor
      · intro h
        rcases ho : (List.range n).find? (p ∘ Nat.succ) with _ | j'
        · rw [ho] at h
          cases h
        · rw [ho, Option.map_some'] at h
          injection h with h
          subst h
          obtain ⟨hj1, hj2, hj3⟩ := (ih (p ∘ Nat.succ) j').1 ho
          refine ⟨by omega, hj2, ?_⟩
          intro i hi
          cases i with
          | zero => exact h0
          | succ i => exact hj3 i (by omega)
      · rintro ⟨h1, h2, h3⟩
        cases j with
        | zero =>
          rw [h0] at h2
          cases h2
        | succ j =>
          have hfind : (List.range n).find? (p ∘ Nat.succ) = some j :=
            (ih (p ∘ Nat.succ) j).2 ⟨by omega, h2, fun i hi => h3 (i + 1) (by omega)⟩
          rw [hfind]
          rfl

theorem find?_range_none : ∀ (n : Nat) (p : Nat → Bool),
    (List.range n).find? p = none ↔ ∀ j, j < n → p j = false := by
  intro n
  induction n with
  | zero =>
    intro p
    simp [List.range_zero]
  | succ n ih =>
    intro p
    rw [List.range_succ_eq_map n]
    by_cases h0 : p 0 = true
    · rw [List.find?_cons_of_pos _ h0]
      constructor
      · intro h
        cases h
      · intro h
        rw [h 0 (Nat.succ_pos n)] at h0
        cases h0
    · rw [List.find?_cons_of_neg _ h0, List.find?_map]
      rw [Bool.not_eq_true] at h0
      constructor
      · intro h
        have hn : (List.range n).find? (p ∘ Nat.succ) = none := by
          rcases ho : (List.range n).find? (p ∘ Nat.succ) with _ | j'
          · rfl
          · rw [ho, Option.map_some'] at h
            cases h
        intro j hj
        cases j with
        | zero => exact h0
        | succ j => exact (ih (p ∘ Nat.succ)).1 hn j (by omega)
      · intro h
        rw [(ih (p ∘ Nat.succ)).2 (fun j hj => h (j + 1) (by omega))]
        rfl

theorem find?_rev_range_some : ∀ (n : Nat) (p : Nat → Bool) (j : Nat),
    ((List.range n).reverse).find? p = some j ↔
      (j < n ∧ p j = true ∧ ∀ i, j < i → i < n → p i = false) := by
  intro n
  induction n with
  | zero =>
    intro p j
    simp [List.range_zero]
  | succ n ih =>
    intro p j
    rw [List.range_succ, List.reverse_append]
    simp only [List.reverse_singleton, List.singleton_append]
    by_cases hn : p n = true
    · rw [List.find?_cons_of_pos _ hn]
      constructor
      · intro h
        injection h with h
        subst h
        exact ⟨by omega, hn, fun i h1 h2 => by omega⟩
      · rintro ⟨h1, h2, h3⟩
        have hjn : j = n := by
          rcases Nat.lt_or_ge j n with hj | hj
          · have := h3 n hj (by omega)
            rw [this] at hn
            cases hn
          · omega
        rw [hjn]
    · rw [List.find?_cons_of_neg _ hn, ih p j]
      rw [Bool.not_eq_true] at hn
      constructor
      · rintro ⟨h1, h2, h3⟩
        refine ⟨by omega, h2, ?_⟩
        intro i hi1 hi2
        by_cases hin : i = n
        · rw [hin]
          exact hn
        · exact h3 i hi1 (by omega)
      · rintro ⟨h1, h2, h3⟩
        have hjn : j ≠ n := by
          rintro rfl
          rw [hn] at h2
          cases h2
        exact ⟨by omega, h2, fun i hi1 hi2 => h3 i hi1 (by omega)⟩

theorem find?_rev_range_none : ∀ (n : Nat) (p : Nat → Bool),
    ((List.range n).reverse).find? p = none ↔ ∀ j, j < n → p j = false := by
  intro n
  induction n with
  | zero =>
    intro p
    simp [List.range_zero]
  | succ n ih =>
    intro p
    rw [List.range_succ, List.reverse_append]
    simp only [List.reverse_singleton, List.singleton_append]
    by_cases hn : p n = true
    · rw [List.find?_cons_of_pos _ hn]
      constructor
      · intro h
        cases h
      · intro h
        rw [h n (by omega)] at hn
        cases hn
    · rw [List.find?_cons_of_neg _ hn, ih p]
      rw [Bool.not_eq_true] at hn
      constructor
      · intro h j hj
        by_cases hjn : j = n
        · rw [hjn]
          exact hn
        · exact h j (by omega)
      · intro h j hj
        exact h j (by omega)

/-! ### Interval no-match lemmas -/

theorem no_fwd_match_of_not_mem {l : List Bool} {b a m : Nat} {T : Int}
    (ham : a ≤ m)
    (hn : (T - cutExcess l (a * b)) ∉ walkVals (segOf l b a m) 0) :
    ∀ j, a ≤ j → j < m → blockMatchFwd l b j T = false := by
  intro j h1 h2
  rw [seg_mem_iff_cut ham] at hn
  push_neg at hn
  cases hbm : blockMatchFwd l b j T with
  | false => rfl
  | true =>
    obtain ⟨q, hq1, hq2, hq3, hq4⟩ := blockMatchFwd_iff_cut.1 hbm
    have ha : a * b ≤ j * b := Nat.mul_le_mul_right b h1
    have hc : (j + 1) * b ≤ m * b := Nat.mul_le_mul_right b (by omega)
    exact absurd hq4 (hn q (by omega) (by omega) hq3)

theorem no_bwd_match_of_no_cut {l : List Bool} {b a m : Nat} {T : Int}
    (hn : ¬ ∃ q, a * b ≤ q ∧ q ≤ m * b ∧ q ≤ l.length ∧ cutExcess l q = T) :
    ∀ j, a ≤ j → j < m → blockMatchBwd l b j T = false := by
  intro j h1 h2
  push_neg at hn
  cases hbm : blockMatchBwd l b j T with
  | false => rfl
  | true =>
    obtain ⟨q, hq1, hq2, hq3, hq4⟩ := blockMatchBwd_iff_cut.1 hbm
    have ha : a * b ≤ j * b := Nat.mul_le_mul_right b h1
    have hc : (j + 1) * b ≤ m * b := Nat.mul_le_mul_right b (by omega)
    exact absurd hq4 (hn q (by omega) (by omega) hq3)

/-- The backward acceptance test (exact zero or bracketed by the aggregate of
the segment) is exactly the existence of a matching cut in the closed interval
of the span. -/
theorem bwd_acc_iff {l : List Bool} {b : Nat} (hl : l ≠ []) (hb : 1 ≤ b)
    (hbound : (l.length : Int) < i64MAX) {a m : Nat} {v T : Int}
    (haL : a < numLeaves l b) (ham : a < m)
    (hT : T = cutExcess l (a * b) + v) :
    (v = 0 ∨ ((walkAgg (segOf l b a m)).min ≤ v ∧ v ≤ (walkAgg (segOf l b a m)).max)) ↔
      ∃ q, a * b ≤ q ∧ q ≤ m * b ∧ q ≤ l.length ∧ cutExcess l q = T := by
  have hne : segOf l b a m ≠ [] := segOf_ne_nil hl hb haL ham
  have hlen : ((segOf l b a m).length : Int) < i64MAX := by
    have := segOf_length_le l b a m
    have h2 : ((segOf l b a m).length : Int) ≤ (l.length : Int) := by exact_mod_cast this
    omega
  have hedge : a * b < l.length := mul_lt_length hl hb haL
  rw [agg_bracket_iff hne hlen]
  have hv : v = T - cutExcess l (a * b) := by omega
  constructor
  · rintro (h0 | hbr)
    · exact ⟨a * b, le_rfl, Nat.mul_le_mul_right b (by omega), by omega, by omega⟩
    · rw [hv] at hbr
      obtain ⟨q, hq1, hq2, hq3, hq4⟩ := (seg_mem_iff_cut (by omega)).1 hbr
      exact ⟨q, by omega, hq2, hq3, hq4⟩
  · rintro ⟨q, hq1, hq2, hq3, hq4⟩
    rcases Nat.eq_or_lt_of_le hq1 with heq | hlt
    · left
      rw [← heq] at hq4
      omega
    · right
      rw [hv]
      exact (seg_mem_iff_cut (by omega)).2 ⟨q, hlt, hq2, hq3, hq4⟩

/-- Splitting membership of a walk value across a segment split. -/
theorem seg_split_mem {l : List Bool} {b a m c : Nat} {x : Int}
    (h1 : a ≤ m) (h2 : m ≤ c)
    (hx : x ∈ walkVals (segOf l b a c) 0)
    (hnx : x ∉ walkVals (segOf l b a m) 0) :
    x - excess (segOf l b a m) ∈ walkVals (segOf l b m c) 0 := by
  rw [← segOf_append h1 h2, walkVals_append] at hx
  rcases List.mem_append.1 hx with h | h
  · exact absurd h hnx
  · rw [walkVals_mem_shift] at h
    simpa using h

theorem nodeHi_le (l : List Bool) (b i : Nat) :
    nodeHi l b i ≤ numLeaves l b := Nat.min_le_left _ _

/-! ### Branch-step equations for the fueled searches -/

theorem is_leaf_iff (t : MinMaxTree) (i : Nat) :
    t.is_leaf i = true ↔ t.first_leaf ≤ i := by
  unfold MinMaxTree.is_leaf
  exact decide_eq_true_iff

theorem is_left_child_iff (t : MinMaxTree) (i : Nat) :
    t.is_left_child i = true ↔ i % 2 = 1 := by
  unfold MinMaxTree.is_left_child
  exact decide_eq_true_iff

theorem left_child_eq_some (t : MinMaxTree) (i : Nat)
    (h : i * 2 + 1 < t.nodes.length) : t.left_child i = some (i * 2 + 1) := by
  unfold MinMaxTree.left_child
  rw [if_pos h]

theorem right_child_eq_some (t : MinMaxTree) (i : Nat)
    (h : i * 2 + 2 < t.nodes.length) : t.right_child i = some (i * 2 + 2) := by
  unfold MinMaxTree.right_child
  rw [if_pos h]

theorem parent_eq_some (t : MinMaxTree) (i : Nat) (h : i < t.nodes.length) :
    t.parent i = some ((i - 1) / 2) := by
  unfold MinMaxTree.parent
  rw [if_pos h]

theorem fwd_down_leaf (t : MinMaxTree) (fuel node : Nat) (x : Int)
    (h : t.is_leaf node = true) :
    t.do_fwd_downwards_search (fuel + 1) node x =
      .ok (if node = 0 then none else some (node, x)) := by
  simp only [MinMaxTree.do_fwd_downwards_search]
  rw [if_pos h]

theorem fwd_down_go_left (t : MinMaxTree) (fuel node : Nat) (x : Int)
    (hnl : ¬ t.is_leaf node = true)
    (hl1 : node * 2 + 1 < t.nodes.length)
    (hbr : t.min_excess (node * 2 + 1) ≤ x ∧ x ≤ t.max_excess (node * 2 + 1)) :
    t.do_fwd_downwards_search (fuel + 1) node x =
      t.do_fwd_downwards_search fuel (node * 2 + 1) x := by
  simp only [MinMaxTree.do_fwd_downwards_search]
  rw [if_neg hnl, left_child_eq_some t node hl1]
  exact if_pos hbr

theorem fwd_down_go_right (t : MinMaxTree) (fuel node : Nat) (x : Int)
    (hnl : ¬ t.is_leaf node = true)
    (hl1 : node * 2 + 1 < t.nodes.length)
    (hnbr : ¬ (t.min_excess (node * 2 + 1) ≤ x ∧ x ≤ t.max_excess (node * 2 + 1)))
    (hl2 : node * 2 + 2 < t.nodes.length)
    (hbr2 : t.min_excess (node * 2 + 2) ≤ x - t.total_excess (node * 2 + 1) ∧
      x - t.total_excess (node * 2 + 1) ≤ t.max_excess (node * 2 + 2)) :
    t.do_fwd_downwards_search (fuel + 1) node x =
      t.do_fwd_downwards_search fuel (node * 2 + 2)
        (x - t.total_excess (node * 2 + 1)) := by
  simp only [MinMaxTree.do_fwd_downwards_search]
  rw [if_neg hnl, left_child_eq_some t node hl1]
  show (if t.min_excess (node * 2 + 1) ≤ x ∧ x ≤ t.max_excess (node * 2 + 1) then
      t.do_fwd_downwards_search fuel (node * 2 + 1) x
    else
      match t.right_child node with
      | some rc =>
        if t.min_excess rc ≤ x - t.total_excess (node * 2 + 1) ∧
            x - t.total_excess (node * 2 + 1) ≤ t.max_excess rc then
          t.do_fwd_downwards_search fuel rc (x - t.total_excess (node * 2 + 1))
        else .panicked
      | none => .panicked) = _
  rw [if_neg hnbr, right_child_eq_some t node hl2]
  exact if_pos hbr2

theorem bwd_down_leaf (t : MinMaxTree) (fuel node : Nat) (x : Int)
    (h : t.is_leaf node = true) :
    t.do_bwd_downwards_search (fuel + 1) node x =
      .ok (if node = 0 then none else some (node, x)) := by
  simp only [MinMaxTree.do_bwd_downwards_search]
  rw [if_pos h]

theorem bwd_down_go_right (t : MinMaxTree) (fuel node : Nat) (x : Int)
    (hnl : ¬ t.is_leaf node = true)
    (hl2 : node * 2 + 2 < t.nodes.length)
    (hacc : x + t.total_excess (node * 2 + 2) = 0 ∨
      (t.min_excess (node * 2 + 2) ≤ x + t.total_excess (node * 2 + 2) ∧
       x + t.total_excess (node * 2 + 2) ≤ t.max_excess (node * 2 + 2))) :
    t.do_bwd_downwards_search (fuel + 1) node x =
      t.do_bwd_downwards_search fuel (node * 2 + 2) x := by
  simp only [MinMaxTree.do_bwd_downwards_search]
  rw [if_neg hnl, right_child_eq_some t node hl2]
  exact if_pos hacc

theorem bwd_down_go_left (t : MinMaxTree) (fuel node : Nat) (x : Int)
    (hnl : ¬ t.is_leaf node = true)
    (hl2 : node * 2 + 2 < t.nodes.length)
    (hnacc : ¬ (x + t.total_excess (node * 2 + 2) = 0 ∨
      (t.min_excess (node * 2 + 2) ≤ x + t.total_excess (node * 2 + 2) ∧
       x + t.total_excess (node * 2 + 2) ≤ t.max_excess (node * 2 + 2))))
    (hl1 : node * 2 + 1 < t.nodes.length)
    (hacc : x + t.total_excess (node * 2 + 2) + t.total_excess (node * 2 + 1) = 0 ∨
      (t.min_excess (node * 2 + 1) ≤
          x + t.total_excess (node * 2 + 2) + t.total_excess (node * 2 + 1) ∧
       x + t.total_excess (node * 2 + 2) + t.total_excess (node * 2 + 1) ≤
          t.max_excess (node * 2 + 1))) :
    t.do_bwd_downwards_search (fuel + 1) node x =
      t.do_bwd_downwards_search fuel (node * 2 + 1)
        (x + t.total_excess (node * 2 + 2)) := by
  simp only [MinMaxTree.do_bwd_downwards_search]
  rw [if_neg hnl, right_child_eq_some t node hl2]
  show (if x + t.total_excess (node * 2 + 2) = 0 ∨
        (t.min_excess (node * 2 + 2) ≤ x + t.total_excess (node * 2 + 2) ∧
         x + t.total_excess (node * 2 + 2) ≤ t.max_excess (node * 2 + 2)) then
      t.do_bwd_downwards_search fuel (node * 2 + 2) x
    else
      match t.left_child node with
      | some lc =>
        if x + t.total_excess (node * 2 + 2) + t.total_excess lc = 0 ∨
            (t.min_excess lc ≤ x + t.total_excess (node * 2 + 2) + t.total_excess lc ∧
             x + t.total_excess (node * 2 + 2) + t.total_excess lc ≤ t.max_excess lc) then
          t.do_bwd_downwards_search fuel lc (x + t.total_excess (node * 2 + 2))
        else .panicked
      | none => .panicked) = _
  rw [if_neg hnacc, left_child_eq_some t node hl1]
  exact if_pos hacc

theorem fwd_up_asc_none (t : MinMaxTree) (fuel node : Nat) (x : Int)
    (heven : ¬ t.is_left_child node = true)
    (hlt : node < t.nodes.length)
    (hp0 : (node - 1) / 2 = 0) :
    t.do_fwd_upwards_search (fuel + 1) node x = .ok none := by
  simp only [MinMaxTree.do_fwd_upwards_search]
  rw [if_pos heven, parent_eq_some t node hlt]
  exact if_pos hp0

theorem fwd_up_asc (t : MinMaxTree) (fuel node : Nat) (x : Int)
    (heven : ¬ t.is_left_child node = true)
    (hlt : node < t.nodes.length)
    (hp0 : ¬ (node - 1) / 2 = 0) :
    t.do_fwd_upwards_search (fuel + 1) node x =
      t.do_fwd_upwards_search fuel ((node - 1) / 2) x := by
  simp only [MinMaxTree.do_fwd_upwards_search]
  rw [if_pos heven, parent_eq_some t node hlt]
  exact if_neg hp0

theorem fwd_up_no_sibling (t : MinMaxTree) (fuel node : Nat) (x : Int)
    (hodd : t.is_left_child node = true)
    (hge : node + 1 ≥ t.nodes.length) :
    t.do_fwd_upwards_search (fuel + 1) node x = .ok none := by
  have hrs : t.right_sibling node = none := by
    unfold MinMaxTree.right_sibling
    rw [if_pos ((is_left_child_iff t node).1 hodd), if_pos hge]
  simp only [MinMaxTree.do_fwd_upwards_search]
  rw [if_neg (by rw [hodd]; intro hc; exact hc rfl), hrs]

theorem fwd_up_descend (t : MinMaxTree) (fuel node : Nat) (x : Int)
    (hodd : t.is_left_child node = true)
    (hlt : node + 1 < t.nodes.length)
    (hbr : t.min_excess (node + 1) ≤ x ∧ x ≤ t.max_excess (node + 1)) :
    t.do_fwd_upwards_search (fuel + 1) node x =
      t.do_fwd_downwards_search t.nodes.length (node + 1) x := by
  have hrs : t.right_sibling node = some (node + 1) := by
    unfold MinMaxTree.right_sibling
    rw [if_pos ((is_left_child_iff t node).1 hodd), if_neg (by omega)]
  simp only [MinMaxTree.do_fwd_upwards_search]
  rw [if_neg (by rw [hodd]; intro hc; exact hc rfl), hrs]
  exact if_pos hbr

theorem fwd_up_skip_none (t : MinMaxTree) (fuel node : Nat) (x : Int)
    (hodd : t.is_left_child node = true)
    (hlt : node + 1 < t.nodes.length)
    (hnbr : ¬ (t.min_excess (node + 1) ≤ x ∧ x ≤ t.max_excess (node + 1)))
    (hlt2 : node < t.nodes.length)
    (hp0 : (node - 1) / 2 = 0) :
    t.do_fwd_upwards_search (fuel + 1) node x = .ok none := by
  have hrs : t.right_sibling node = some (node + 1) := by
    unfold MinMaxTree.right_sibling
    rw [if_pos ((is_left_child_iff t node).1 hodd), if_neg (by omega)]
  simp only [MinMaxTree.do_fwd_upwards_search]
  rw [if_neg (by rw [hodd]; intro hc; exact hc rfl), hrs]
  show (if t.min_excess (node + 1) ≤ x ∧ x ≤ t.max_excess (node + 1) then
      t.do_fwd_downwards_search t.nodes.length (node + 1) x
    else
      match t.parent node with
      | none => .panicked
      | some p =>
        if p = 0 then .ok none
        else t.do_fwd_upwards_search fuel p (x - t.total_excess (node + 1))) = _
  rw [if_neg hnbr, parent_eq_some t node hlt2]
  exact if_pos hp0

theorem fwd_up_skip (t : MinMaxTree) (fuel node : Nat) (x : Int)
    (hodd : t.is_left_child node = true)
    (hlt : node + 1 < t.nodes.length)
    (hnbr : ¬ (t.min_excess (node + 1) ≤ x ∧ x ≤ t.max_excess (node + 1)))
    (hlt2 : node < t.nodes.length)
    (hp0 : ¬ (node - 1) / 2 = 0) :
    t.do_fwd_upwards_search (fuel + 1) node x =
      t.do_fwd_upwards_search fuel ((node - 1) / 2)
        (x - t.total_excess (node + 1)) := by
  have hrs : t.right_sibling node = some (node + 1) := by
    unfold MinMaxTree.right_sibling
    rw [if_pos ((is_left_child_iff t node).1 hodd), if_neg (by omega)]
  simp only [MinMaxTree.do_fwd_upwards_search]
  rw [if_neg (by rw [hodd]; intro hc; exact hc rfl), hrs]
  show (if t.min_excess (node + 1) ≤ x ∧ x ≤ t.max_excess (node + 1) then
      t.do_fwd_downwards_search t.nodes.length (node + 1) x
    else
      match t.parent node with
      | none => .panicked
      | some p =>
        if p = 0 then .ok none
        else t.do_fwd_upwards_search fuel p (x - t.total_excess (node + 1))) = _
  rw [if_neg hnbr, parent_eq_some t node hlt2]
  exact if_neg hp0

theorem bwd_up_asc_none (t : MinMaxTree) (fuel node : Nat) (x : Int)
    (hodd : t.is_left_child node = true)
    (hlt : node < t.nodes.length)
    (hp0 : (node - 1) / 2 = 0) :
    t.do_bwd_upwards_search (fuel + 1) node x = .ok none := by
  simp only [MinMaxTree.do_bwd_upwards_search]
  rw [if_pos hodd, parent_eq_some t node hlt]
  exact if_pos hp0

theorem bwd_up_asc (t : MinMaxTree) (fuel node : Nat) (x : Int)
    (hodd : t.is_left_child node = true)
    (hlt : node < t.nodes.length)
    (hp0 : ¬ (node - 1) / 2 = 0) :
    t.do_bwd_upwards_search (fuel + 1) node x =
      t.do_bwd_upwards_search fuel ((node - 1) / 2) x := by
  simp only [MinMaxTree.do_bwd_upwards_search]
  rw [if_pos hodd, parent_eq_some t node hlt]
  exact if_neg hp0

theorem bwd_up_descend (t : MinMaxTree) (fuel node : Nat) (x : Int)
    (heven : ¬ t.is_left_child node = true)
    (h2 : 2 ≤ node)
    (hacc : x + t.total_excess (node - 1) = 0 ∨
      (t.min_excess (node - 1) ≤ x + t.total_excess (node - 1) ∧
       x + t.total_excess (node - 1) ≤ t.max_excess (node - 1))) :
    t.do_bwd_upwards_search (fuel + 1) node x =
      t.do_bwd_downwards_search t.nodes.length (node - 1) x := by
  have hls : t.left_sibling node = some (node - 1) := by
    unfold MinMaxTree.left_sibling
    have heven' : node % 2 = 0 := by
      rw [is_left_child_iff] at heven
      omega
    rw [if_pos heven', if_neg (by omega)]
  simp only [MinMaxTree.do_bwd_upwards_search]
  rw [if_neg heven, hls]
  exact if_pos hacc

theorem bwd_up_skip_none (t : MinMaxTree) (fuel node : Nat) (x : Int)
    (heven : ¬ t.is_left_child node = true)
    (h2 : 2 ≤ node)
    (hnacc : ¬ (x + t.total_excess (node - 1) = 0 ∨
      (t.min_excess (node - 1) ≤ x + t.total_excess (node - 1) ∧
       x + t.total_excess (node - 1) ≤ t.max_excess (node - 1))))
    (hlt : node < t.nodes.length)
    (hp0 : (node - 1) / 2 = 0) :
    t.do_bwd_upwards_search (fuel + 1) node x = .ok none := by
  have hls : t.left_sibling node = some (node - 1) := by
    unfold MinMaxTree.left_sibling
    have heven' : node % 2 = 0 := by
      rw [is_left_child_iff] at heven
      omega
    rw [if_pos heven', if_neg (by omega)]
  simp only [MinMaxTree.do_bwd_upwards_search]
  rw [if_neg heven, hls]
  show (if x + t.total_excess (node - 1) = 0 ∨
        (t.min_excess (node - 1) ≤ x + t.total_excess (node - 1) ∧
         x + t.total_excess (node - 1) ≤ t.max_excess (node - 1)) then
      t.do_bwd_downwards_search t.nodes.length (node - 1) x
    else
      match t.parent node with
      | none => .panicked
      | some p =>
        if p = 0 then .ok none
        else t.do_bwd_upwards_search fuel p (x + t.total_excess (node - 1))) = _
  rw [if_neg hnacc, parent_eq_some t node hlt]
  exact if_pos hp0

theorem bwd_up_skip (t : MinMaxTree) (fuel node : Nat) (x : Int)
    (heven : ¬ t.is_left_child node = true)
    (h2 : 2 ≤ node)
    (hnacc : ¬ (x + t.total_excess (node - 1) = 0 ∨
      (t.min_excess (node - 1) ≤ x + t.total_excess (node - 1) ∧
       x + t.total_excess (node - 1) ≤ t.max_excess (node - 1))))
    (hlt : node < t.nodes.length)
    (hp0 : ¬ (node - 1) / 2 = 0) :
    t.do_bwd_upwards_search (fuel + 1) node x =
      t.do_bwd_upwards_search fuel ((node - 1) / 2)
        (x + t.total_excess (node - 1)) := by
  have hls : t.left_sibling node = some (node - 1) := by
    unfold MinMaxTree.left_sibling
    have heven' : node % 2 = 0 := by
      rw [is_left_child_iff] at heven
      omega
    rw [if_pos heven', if_neg (by omega)]
  simp only [MinMaxTree.do_bwd_upwards_search]
  rw [if_neg heven, hls]
  show (if x + t.total_excess (node - 1) = 0 ∨
        (t.min_excess (node - 1) ≤ x + t.total_excess (node - 1) ∧
         x + t.total_excess (node - 1) ≤ t.max_excess (node - 1)) then
      t.do_bwd_downwards_search t.nodes.length (node - 1) x
    else
      match t.parent node with
      | none => .panicked
      | some p =>
        if p = 0 then .ok none
        else t.do_bwd_upwards_search fuel p (x + t.total_excess (node - 1))) = _
  rw [if_neg hnacc, parent_eq_some t node hlt]
  exact if_neg hp0

/-! ### Correctness of the forward downward search -/

theorem fwd_down_correct {l : List Bool} {b : Nat} (hl : l ≠ []) (hb : 1 ≤ b)
    (hL2 : 2 ≤ numLeaves l b) (hbound : (l.length : Int) < i64MAX) :
    ∀ fuel u x T, u < numNodes l b → nodeLo l b u < numLeaves l b →
      treeH l b - dpt u + 1 ≤ fuel →
      T = cutExcess l (nodeLo l b u * b) + x →
      x ∈ walkVals (segOf l b (nodeLo l b u) (nodeHi l b u)) 0 →
      ∃ j, nodeLo l b u ≤ j ∧ j < nodeHi l b u ∧
        blockMatchFwd l b j T = true ∧
        (∀ j', nodeLo l b u ≤ j' → j' < j → blockMatchFwd l b j' T = false) ∧
        (excess_tree l b).do_fwd_downwards_search fuel u x =
          RustResult.ok (some (numInternal l b + j, T - cutExcess l (j * b))) := by
  obtain ⟨hI, hh, hup, hpw, hN, hN2⟩ := ctx_facts hl hb hL2
  obtain ⟨hlen, hleafagg, hint⟩ := excess_tree_spec hl hb
  have hfl := first_leaf_eq hl hb
  have hagg := node_agg hl hb hL2 hbound
  have hI1 : 1 ≤ numInternal l b := by
    have h2 : (2:Nat) ^ 1 ≤ 2 ^ treeH l b := Nat.pow_le_pow_right (by omega) hh
    omega
  intro fuel
  induction fuel with
  | zero =>
    intro u x T h1 h2 h3 h4 h5
    omega
  | succ fuel ih =>
    intro u x T hu hlo hfuel hT hx
    by_cases hleaf : numInternal l b ≤ u
    · -- leaf slot: return it
      obtain ⟨e1, e2, e3, e4⟩ := leaf_slots hl hb hL2 hleaf hu
      rw [fwd_down_leaf _ _ _ _ (by rw [is_leaf_iff, hfl]; exact hleaf)]
      rw [if_neg (show ¬ u = 0 by omega)]
      refine ⟨u - numInternal l b, e3.le, by rw [e4]; omega, ?_, ?_, ?_⟩
      · rw [blockMatchFwd_iff_cut]
        have hxv : T - cutExcess l (nodeLo l b u * b) = x := by omega
        rw [← hxv] at hx
        have hm := (seg_mem_iff_cut (by rw [e3, e4]; omega)).1 hx
        rw [e3, e4] at hm
        exact hm
      · intro j' ha hb'
        rw [e3] at ha
        exact absurd hb' (by omega)
      · have h5 : numInternal l b + (u - numInternal l b) = u := by omega
        have h6 : T - cutExcess l ((u - numInternal l b) * b) = x := by
          rw [← e3]
          omega
        rw [h5, h6]
    · -- internal node
      push_neg at hleaf
      have hd := internal_dpt_lt hl hb hL2 hleaf
      obtain ⟨hcl, hcm, hcr⟩ := slot_children (h := treeH l b) hd
      have hslI := slotLo_ge (treeH l b) u
      have hmidI : numInternal l b ≤ slotLo (treeH l b) (u * 2 + 2) := by
        have := slotLo_ge (treeH l b) (u * 2 + 2)
        omega
      have hlm : slotLo (treeH l b) u < slotLo (treeH l b) (u * 2 + 2) := by
        have := slotLo_lt_slotHi (treeH l b) (u * 2 + 1)
        rw [hcl, hcm] at this
        exact this
      have hmh : slotLo (treeH l b) (u * 2 + 2) < slotHi (treeH l b) u := by
        have := slotLo_lt_slotHi (treeH l b) (u * 2 + 2)
        rw [hcr] at this
        exact this
      have hlc_le : u * 2 + 1 ≤ slotLo (treeH l b) u := by
        have := self_le_slotLo (treeH l b) (u * 2 + 1)
        omega
      have hLoLc : nodeLo l b (u * 2 + 1) = nodeLo l b u := by
        unfold nodeLo blkLo
        rw [hcl]
      have hHiRc : nodeHi l b (u * 2 + 2) = nodeHi l b u := by
        unfold nodeHi blkHi
        rw [hcr]
      have hHiLc : nodeHi l b (u * 2 + 1) =
          min (numLeaves l b) (slotLo (treeH l b) (u * 2 + 2) - numInternal l b) := by
        unfold nodeHi blkHi
        rw [hcm]
      have hLoRc : nodeLo l b (u * 2 + 2) =
          slotLo (treeH l b) (u * 2 + 2) - numInternal l b := rfl
      have hLoU : nodeLo l b u = slotLo (treeH l b) u - numInternal l b := rfl
      have hHiU : nodeHi l b u =
          min (numLeaves l b) (slotHi (treeH l b) u - numInternal l b) := rfl
      have hlo' := hlo
      rw [hLoU] at hlo'
      have hlcN : u * 2 + 1 < numNodes l b := by omega
      have hnl : ¬ (excess_tree l b).is_leaf u = true := by
        rw [is_leaf_iff, hfl]
        omega
      have hlcLo : nodeLo l b (u * 2 + 1) < numLeaves l b := by
        rw [hLoLc]
        exact hlo
      have hlcspan : nodeLo l b (u * 2 + 1) < nodeHi l b (u * 2 + 1) := by
        rw [hLoLc, hHiLc, hLoU]
        omega
      have hglc := (hagg (u * 2 + 1) (by omega)).1 hlcLo
      have hlcne : segOf l b (nodeLo l b (u * 2 + 1)) (nodeHi l b (u * 2 + 1)) ≠ [] :=
        segOf_ne_nil hl hb hlcLo hlcspan
      have hlclen : (((segOf l b (nodeLo l b (u * 2 + 1)) (nodeHi l b (u * 2 + 1))).length : Int)) < i64MAX := by
        have h1 := segOf_length_le l b (nodeLo l b (u * 2 + 1)) (nodeHi l b (u * 2 + 1))
        have h2 : (((segOf l b (nodeLo l b (u * 2 + 1)) (nodeHi l b (u * 2 + 1))).length : Int)) ≤ (l.length : Int) := by
          exact_mod_cast h1
        omega
      have hbr_iff : ((excess_tree l b).min_excess (u * 2 + 1) ≤ x ∧
          x ≤ (excess_tree l b).max_excess (u * 2 + 1)) ↔
          x ∈ walkVals (segOf l b (nodeLo l b (u * 2 + 1)) (nodeHi l b (u * 2 + 1))) 0 := by
        unfold MinMaxTree.min_excess MinMaxTree.max_excess
        rw [hglc]
        exact agg_bracket_iff hlcne hlclen x
      by_cases hbr : (excess_tree l b).min_excess (u * 2 + 1) ≤ x ∧
          x ≤ (excess_tree l b).max_excess (u * 2 + 1)
      · -- descend into the left child
        have hxlc := hbr_iff.1 hbr
        have hdlc : dpt (u * 2 + 1) = dpt u + 1 := dpt_left_child u
        obtain ⟨j, hj1, hj2, hj3, hj4, hj5⟩ :=
          ih (u * 2 + 1) x T hlcN hlcLo (by omega) (by rw [hLoLc]; exact hT) hxlc
        rw [hLoLc] at hj1 hj4
        rw [hHiLc] at hj2
        refine ⟨j, hj1, by rw [hHiU]; omega, hj3, hj4, ?_⟩
        rw [fwd_down_go_left _ _ _ _ hnl (by rw [hlen]; exact hlcN) hbr]
        exact hj5
      · -- the left bracket fails: descend right
        have hxnlc : x ∉ walkVals (segOf l b (nodeLo l b (u * 2 + 1)) (nodeHi l b (u * 2 + 1))) 0 := by
          intro hc
          exact hbr (hbr_iff.2 hc)
        have hrcLo : slotLo (treeH l b) (u * 2 + 2) - numInternal l b < numLeaves l b := by
          by_contra hge
          push_neg at hge
          have heq : nodeHi l b (u * 2 + 1) = nodeHi l b u := by
            rw [hHiLc, hHiU]
            omega
          rw [hLoLc, heq] at hxnlc
          exact hxnlc hx
      -- name the split point
        set m := slotLo (treeH l b) (u * 2 + 2) - numInternal l b with hmdef
        have hrcN : u * 2 + 2 < numNodes l b := by omega
        have hm1 : nodeLo l b u < m := by
          rw [hLoU, hmdef]
          omega
        have hm2 : m < nodeHi l b u := by
          rw [hHiU]
          omega
        have hHiLc' : nodeHi l b (u * 2 + 1) = m := by
          rw [hHiLc]
          omega
        have htlc : (excess_tree l b).total_excess (u * 2 + 1) =
            excess (segOf l b (nodeLo l b u) m) := by
          unfold MinMaxTree.total_excess
          rw [hglc, hLoLc, hHiLc', walkAgg_total]
        have hxnlc' : x ∉ walkVals (segOf l b (nodeLo l b u) m) 0 := by
          rw [hLoLc, hHiLc'] at hxnlc
          exact hxnlc
        have hxmem : x - excess (segOf l b (nodeLo l b u) m) ∈
            walkVals (segOf l b m (nodeHi l b u)) 0 :=
          seg_split_mem (by omega) (by omega) hx hxnlc'
        have hrcLo' : nodeLo l b (u * 2 + 2) < numLeaves l b := by
          rw [hLoRc]
          exact hrcLo
        have hgrc := (hagg (u * 2 + 2) hrcN).1 hrcLo'
        rw [hLoRc, hHiRc] at hgrc
        have hrcne : segOf l b m (nodeHi l b u) ≠ [] :=
          segOf_ne_nil hl hb (by omega) hm2
        have hrclen : (((segOf l b m (nodeHi l b u)).length : Int)) < i64MAX := by
          have h1 := segOf_length_le l b m (nodeHi l b u)
          have h2 : (((segOf l b m (nodeHi l b u)).length : Int)) ≤ (l.length : Int) := by
            exact_mod_cast h1
          omega
        have hbr2 : (excess_tree l b).min_excess (u * 2 + 2) ≤
            x - (excess_tree l b).total_excess (u * 2 + 1) ∧
            x - (excess_tree l b).total_excess (u * 2 + 1) ≤
            (excess_tree l b).max_excess (u * 2 + 2) := by
          unfold MinMaxTree.min_excess MinMaxTree.max_excess
          rw [hgrc, htlc]
          exact (agg_bracket_iff hrcne hrclen _).2 hxmem
        have hTm : T = cutExcess l (m * b) + (x - excess (segOf l b (nodeLo l b u) m)) := by
          have hadd := cutExcess_block_additive (l := l) (b := b)
            (a := nodeLo l b u) (c := m) (by omega)
          omega
        have hdrc : dpt (u * 2 + 2) = dpt u + 1 := dpt_right_child u
        obtain ⟨j, hj1, hj2, hj3, hj4, hj5⟩ :=
          ih (u * 2 + 2) (x - excess (segOf l b (nodeLo l b u) m)) T hrcN hrcLo'
            (by omega) (by rw [hLoRc]; exact hTm)
            (by rw [hLoRc, hHiRc]; exact hxmem)
        rw [hLoRc] at hj1 hj4
        rw [hHiRc] at hj2
        refine ⟨j, by omega, hj2, hj3, ?_, ?_⟩
        · intro j' ha hb'
          rcases Nat.lt_or_ge j' m with hj' | hj'
          · have hxv : T - cutExcess l (nodeLo l b u * b) = x := by omega
            have hnn : (T - cutExcess l (nodeLo l b u * b)) ∉
                walkVals (segOf l b (nodeLo l b u) m) 0 := by
              rw [hxv]
              exact hxnlc'
            exact no_fwd_match_of_not_mem (by omega) hnn j' ha hj'
          · exact hj4 j' hj' hb'
        · rw [fwd_down_go_right _ _ _ _ hnl (by rw [hlen]; exact hlcN) hbr
            (by rw [hlen]; exact hrcN) hbr2]
          rw [htlc]
          exact hj5

/-! ### Correctness of the backward downward search -/

theorem fuel_step {h d f : Nat} (h1 : h - d + 1 ≤ f + 1) (h2 : d < h) :
    h - (d + 1) + 1 ≤ f := by omega

theorem bwd_down_correct {l : List Bool} {b : Nat} (hl : l ≠ []) (hb : 1 ≤ b)
    (hL2 : 2 ≤ numLeaves l b) (hbound : (l.length : Int) < i64MAX) :
    ∀ fuel u x T, u < numNodes l b → slotHi (treeH l b) u ≤ numNodes l b →
      treeH l b - dpt u + 1 ≤ fuel →
      T = cutExcess l (nodeHi l b u * b) + x →
      (∃ q, nodeLo l b u * b ≤ q ∧ q ≤ nodeHi l b u * b ∧ q ≤ l.length ∧
        cutExcess l q = T) →
      ∃ j, nodeLo l b u ≤ j ∧ j < nodeHi l b u ∧
        blockMatchBwd l b j T = true ∧
        (∀ j', j < j' → j' < nodeHi l b u → blockMatchBwd l b j' T = false) ∧
        (excess_tree l b).do_bwd_downwards_search fuel u x =
          RustResult.ok (some (numInternal l b + j, T - cutExcess l ((j + 1) * b))) := by
  obtain ⟨hI, hh, hup, hpw, hN, hN2⟩ := ctx_facts hl hb hL2
  obtain ⟨hlen, hleafagg, hint⟩ := excess_tree_spec hl hb
  have hfl := first_leaf_eq hl hb
  have hagg := node_agg hl hb hL2 hbound
  have hI1 : 1 ≤ numInternal l b := by
    have h2 : (2:Nat) ^ 1 ≤ 2 ^ treeH l b := Nat.pow_le_pow_right (by omega) hh
    omega
  intro fuel
  induction fuel with
  | zero =>
    intro u x T h1 h2 h3 h4 h5
    omega
  | succ fuel ih =>
    intro u x T hu hfull hfuel hT hq
    by_cases hleaf : numInternal l b ≤ u
    · -- leaf slot: return it
      obtain ⟨e1, e2, e3, e4⟩ := leaf_slots hl hb hL2 hleaf hu
      rw [bwd_down_leaf _ _ _ _ (by rw [is_leaf_iff, hfl]; exact hleaf)]
      rw [if_neg (show ¬ u = 0 by omega)]
      refine ⟨u - numInternal l b, e3.le, by rw [e4]; omega, ?_, ?_, ?_⟩
      · rw [blockMatchBwd_iff_cut]
        rw [e3, e4] at hq
        exact hq
      · intro j' ha hb'
        rw [e4] at hb'
        exact absurd hb' (by omega)
      · have h5 : numInternal l b + (u - numInternal l b) = u := by omega
        have h6 : T - cutExcess l ((u - numInternal l b + 1) * b) = x := by
          rw [← e4]
          omega
        rw [h5, h6]
    · -- internal node
      push_neg at hleaf
      have hd := internal_dpt_lt hl hb hL2 hleaf
      obtain ⟨hcl, hcm, hcr⟩ := slot_children (h := treeH l b) hd
      have hslI := slotLo_ge (treeH l b) u
      have hmidI : numInternal l b ≤ slotLo (treeH l b) (u * 2 + 2) := by
        have := slotLo_ge (treeH l b) (u * 2 + 2)
        omega
      have hlm : slotLo (treeH l b) u < slotLo (treeH l b) (u * 2 + 2) := by
        have := slotLo_lt_slotHi (treeH l b) (u * 2 + 1)
        rw [hcl, hcm] at this
        exact this
      have hmh : slotLo (treeH l b) (u * 2 + 2) < slotHi (treeH l b) u := by
        have := slotLo_lt_slotHi (treeH l b) (u * 2 + 2)
        rw [hcr] at this
        exact this
      have hrc_le : u * 2 + 2 ≤ slotLo (treeH l b) (u * 2 + 2) :=
        self_le_slotLo (treeH l b) (u * 2 + 2)
      have hLoLc : nodeLo l b (u * 2 + 1) = nodeLo l b u := by
        unfold nodeLo blkLo
        rw [hcl]
      have hHiRc : nodeHi l b (u * 2 + 2) = nodeHi l b u := by
        unfold nodeHi blkHi
        rw [hcr]
      have hHiLc : nodeHi l b (u * 2 + 1) =
          min (numLeaves l b) (slotLo (treeH l b) (u * 2 + 2) - numInternal l b) := by
        unfold nodeHi blkHi
        rw [hcm]
      have hLoRc : nodeLo l b (u * 2 + 2) =
          slotLo (treeH l b) (u * 2 + 2) - numInternal l b := rfl
      have hLoU : nodeLo l b u = slotLo (treeH l b) u - numInternal l b := rfl
      have hHiU : nodeHi l b u =
          min (numLeaves l b) (slotHi (treeH l b) u - numInternal l b) := rfl
      have hnl : ¬ (excess_tree l b).is_leaf u = true := by
        rw [is_leaf_iff, hfl]
        omega
      set m := slotLo (treeH l b) (u * 2 + 2) - numInternal l b with hmdef
      have hrcN : u * 2 + 2 < numNodes l b := by omega
      have hlcN : u * 2 + 1 < numNodes l b := by omega
      have hmL : m < numLeaves l b := by
        rw [hmdef]
        omega
      have hloL : nodeLo l b u < numLeaves l b := by
        rw [hLoU]
        omega
      have hm1 : nodeLo l b u < m := by
        rw [hLoU, hmdef]
        omega
      have hHiUfull : nodeHi l b u = slotHi (treeH l b) u - numInternal l b := by
        rw [hHiU]
        omega
      have hm2 : m < nodeHi l b u := by
        rw [hHiUfull]
        omega
      have hHiLc' : nodeHi l b (u * 2 + 1) = m := by
        rw [hHiLc]
        omega
      -- right child aggregate and acceptance test
      have hrcLo' : nodeLo l b (u * 2 + 2) < numLeaves l b := by
        rw [hLoRc]
        exact hmL
      have hgrc := (hagg (u * 2 + 2) hrcN).1 hrcLo'
      rw [hLoRc, hHiRc] at hgrc
      have htrc : (excess_tree l b).total_excess (u * 2 + 2) =
          excess (segOf l b m (nodeHi l b u)) := by
        unfold MinMaxTree.total_excess
        rw [hgrc, walkAgg_total]
      have hTv : T = cutExcess l (m * b) +
          (x + (excess_tree l b).total_excess (u * 2 + 2)) := by
        rw [htrc]
        have hadd := cutExcess_block_additive (l := l) (b := b)
          (a := m) (c := nodeHi l b u) (by omega)
        omega
      have htest_iff : (x + (excess_tree l b).total_excess (u * 2 + 2) = 0 ∨
          ((excess_tree l b).min_excess (u * 2 + 2) ≤
              x + (excess_tree l b).total_excess (u * 2 + 2) ∧
           x + (excess_tree l b).total_excess (u * 2 + 2) ≤
              (excess_tree l b).max_excess (u * 2 + 2))) ↔
          ∃ q, m * b ≤ q ∧ q ≤ nodeHi l b u * b ∧ q ≤ l.length ∧
            cutExcess l q = T := by
        unfold MinMaxTree.min_excess MinMaxTree.max_excess
        rw [hgrc]
        exact bwd_acc_iff hl hb hbound hmL hm2 hTv
      by_cases hacc : x + (excess_tree l b).total_excess (u * 2 + 2) = 0 ∨
          ((excess_tree l b).min_excess (u * 2 + 2) ≤
              x + (excess_tree l b).total_excess (u * 2 + 2) ∧
           x + (excess_tree l b).total_excess (u * 2 + 2) ≤
              (excess_tree l b).max_excess (u * 2 + 2))
      · -- descend into the right child
        have hexrc := htest_iff.1 hacc
        have hdrc : dpt (u * 2 + 2) = dpt u + 1 := dpt_right_child u
        obtain ⟨j, hj1, hj2, hj3, hj4, hj5⟩ :=
          ih (u * 2 + 2) x T hrcN (by rw [hcr]; exact hfull)
            (by rw [hdrc]; exact fuel_step hfuel hd)
            (by rw [hHiRc]; exact hT)
            (by rw [hLoRc, hHiRc]; exact hexrc)
        rw [hLoRc] at hj1
        rw [hHiRc] at hj2 hj4
        refine ⟨j, by omega, hj2, hj3, hj4, ?_⟩
        rw [bwd_down_go_right _ _ _ _ hnl (by rw [hlen]; exact hrcN) hacc]
        exact hj5
      · -- the right child rejects: descend left
        have hnex : ¬ ∃ q, m * b ≤ q ∧ q ≤ nodeHi l b u * b ∧ q ≤ l.length ∧
            cutExcess l q = T := fun hc => hacc (htest_iff.2 hc)
        -- the witness cut lies in the left span
        have hql : ∃ q, nodeLo l b u * b ≤ q ∧ q ≤ m * b ∧ q ≤ l.length ∧
            cutExcess l q = T := by
          obtain ⟨q, hq1, hq2, hq3, hq4⟩ := hq
          refine ⟨q, hq1, ?_, hq3, hq4⟩
          by_contra hgt
          push_neg at hgt
          exact hnex ⟨q, by omega, hq2, hq3, hq4⟩
        -- left child aggregate and acceptance
        have hlcLo : nodeLo l b (u * 2 + 1) < numLeaves l b := by
          rw [hLoLc]
          exact hloL
        have hglc := (hagg (u * 2 + 1) hlcN).1 hlcLo
        rw [hLoLc, hHiLc'] at hglc
        have htlc : (excess_tree l b).total_excess (u * 2 + 1) =
            excess (segOf l b (nodeLo l b u) m) := by
          unfold MinMaxTree.total_excess
          rw [hglc, walkAgg_total]
        have hTv2 : T = cutExcess l (nodeLo l b u * b) +
            (x + (excess_tree l b).total_excess (u * 2 + 2) +
             (excess_tree l b).total_excess (u * 2 + 1)) := by
          rw [htlc]
          have hadd := cutExcess_block_additive (l := l) (b := b)
            (a := nodeLo l b u) (c := m) (by omega)
          linarith [hTv, hadd]
        have htest2_iff : (x + (excess_tree l b).total_excess (u * 2 + 2) +
              (excess_tree l b).total_excess (u * 2 + 1) = 0 ∨
            ((excess_tree l b).min_excess (u * 2 + 1) ≤
                x + (excess_tree l b).total_excess (u * 2 + 2) +
                  (excess_tree l b).total_excess (u * 2 + 1) ∧
             x + (excess_tree l b).total_excess (u * 2 + 2) +
                (excess_tree l b).total_excess (u * 2 + 1) ≤
              (excess_tree l b).max_excess (u * 2 + 1))) ↔
            ∃ q, nodeLo l b u * b ≤ q ∧ q ≤ m * b ∧ q ≤ l.length ∧
              cutExcess l q = T := by
          unfold MinMaxTree.min_excess MinMaxTree.max_excess
          rw [hglc]
          exact bwd_acc_iff hl hb hbound hloL hm1 hTv2
        have hacc2 := htest2_iff.2 hql
        have hdlc : dpt (u * 2 + 1) = dpt u + 1 := dpt_left_child u
        have hfull_lc : slotHi (treeH l b) (u * 2 + 1) ≤ numNodes l b := by
          rw [hcm]
          omega
        have hTlc : T = cutExcess l (nodeHi l b (u * 2 + 1) * b) +
            (x + (excess_tree l b).total_excess (u * 2 + 2)) := by
          rw [hHiLc']
          exact hTv
        obtain ⟨j, hj1, hj2, hj3, hj4, hj5⟩ :=
          ih (u * 2 + 1) (x + (excess_tree l b).total_excess (u * 2 + 2)) T
            hlcN hfull_lc (by rw [hdlc]; exact fuel_step hfuel hd) hTlc
            (by rw [hLoLc, hHiLc']; exact hql)
        rw [hLoLc] at hj1
        rw [hHiLc'] at hj2 hj4
        refine ⟨j, hj1, by omega, hj3, ?_, ?_⟩
        · intro j' ha' hb'
          rcases Nat.lt_or_ge j' m with hj' | hj'
          · exact hj4 j' ha' hj'
          · exact no_bwd_match_of_no_cut hnex j' hj' hb'
        · rw [bwd_down_go_left _ _ _ _ hnl (by rw [hlen]; exact hrcN) hacc
            (by rw [hlen]; exact hlcN) hacc2]
          exact hj5

/-! ### Correctness of the forward upward search -/

theorem length_le_numLeaves_mul {l : List Bool} {b : Nat} (hb : 1 ≤ b) :
    l.length ≤ numLeaves l b * b := (divCeil_le_iff hb).1 le_rfl

theorem nodeHi_two {l : List Bool} {b : Nat} (hl : l ≠ []) (hb : 1 ≤ b)
    (hL2 : 2 ≤ numLeaves l b) : nodeHi l b 2 = numLeaves l b := by
  obtain ⟨hI, hh, hup, hpw, hN, hN2⟩ := ctx_facts hl hb hL2
  have hd2 : dpt 2 = 1 := dpt_eq_of_ge (by norm_num) (by norm_num)
  unfold nodeHi blkHi slotHi
  rw [hd2]
  have hpow : 2 ^ (treeH l b - 1) * 4 = 2 ^ (treeH l b + 1) := by
    have he : treeH l b + 1 = (treeH l b - 1) + 2 := by omega
    rw [he, pow_add]
    norm_num
  have hpow2 : 2 ^ (treeH l b + 1) = 2 ^ treeH l b * 2 := pow_succ 2 (treeH l b)
  omega

theorem fwd_up_correct {l : List Bool} {b : Nat} (hl : l ≠ []) (hb : 1 ≤ b)
    (hL2 : 2 ≤ numLeaves l b) (hbound : (l.length : Int) < i64MAX)
    (begin : Nat) (hbeg : begin < numLeaves l b) (T : Int)
    (hTne : T ≠ cutExcess l ((begin + 1) * b)) :
    ∀ fuel u x, 1 ≤ u → u < numNodes l b → nodeLo l b u < numLeaves l b →
      begin < nodeHi l b u →
      dpt u + 1 ≤ fuel →
      T = cutExcess l (nodeHi l b u * b) + x →
      (∀ j', begin < j' → j' < nodeHi l b u → blockMatchFwd l b j' T = false) →
      (∃ j, begin < j ∧ j < numLeaves l b ∧ blockMatchFwd l b j T = true ∧
        (∀ j', begin < j' → j' < j → blockMatchFwd l b j' T = false) ∧
        (excess_tree l b).do_fwd_upwards_search fuel u x =
          RustResult.ok (some (numInternal l b + j, T - cutExcess l (j * b))))
      ∨ ((∀ j', begin < j' → j' < numLeaves l b → blockMatchFwd l b j' T = false) ∧
        (excess_tree l b).do_fwd_upwards_search fuel u x = RustResult.ok none) := by
  obtain ⟨hI, hh, hup, hpw, hN, hN2⟩ := ctx_facts hl hb hL2
  obtain ⟨hlen, hleafagg, hint⟩ := excess_tree_spec hl hb
  have hfl := first_leaf_eq hl hb
  have hagg := node_agg hl hb hL2 hbound
  have hI1 : 1 ≤ numInternal l b := by
    have h2 : (2:Nat) ^ 1 ≤ 2 ^ treeH l b := Nat.pow_le_pow_right (by omega) hh
    omega
  have hlenle : l.length ≤ numLeaves l b * b := length_le_numLeaves_mul hb
  have hzero_contra : T = cutExcess l (numLeaves l b * b) →
      (∀ j', begin < j' → j' < numLeaves l b → blockMatchFwd l b j' T = false) →
      False := by
    intro hTH hnm
    by_cases hbl : begin + 1 = numLeaves l b
    · exact hTne (by rw [hbl]; exact hTH)
    · have hmatch : blockMatchFwd l b (numLeaves l b - 1) T = true := by
        rw [blockMatchFwd_iff_cut]
        refine ⟨l.length, numLeaves_mul_lt hl hb, ?_, le_rfl, ?_⟩
        · have he : numLeaves l b - 1 + 1 = numLeaves l b := by omega
          rw [he]
          exact hlenle
        · rw [cutExcess_saturate (le_refl l.length), ← cutExcess_saturate hlenle]
          exact hTH.symm
      rw [hnm (numLeaves l b - 1) (by omega) (by omega)] at hmatch
      cases hmatch
  intro fuel
  induction fuel with
  | zero =>
    intro u x h1 h2 h3 h4 h5
    omega
  | succ fuel ih =>
    intro u x hu1 huN hloL hbegHi hfuel hT hnm
    by_cases hodd : u % 2 = 1
    · -- a left child: examine the right sibling
      have hodd' : (excess_tree l b).is_left_child u = true := by
        rw [is_left_child_iff]
        exact hodd
      have hpu : ((u - 1) / 2) * 2 + 1 = u := by omega
      have hpI : (u - 1) / 2 < numInternal l b := by
        by_contra hge
        push_neg at hge
        have := leaf_no_children hl hb ((u - 1) / 2) hge
        omega
      have hdp := internal_dpt_lt hl hb hL2 hpI
      obtain ⟨hcl, hcm, hcr⟩ := slot_children (h := treeH l b) hdp
      have he2 : (u - 1) / 2 * 2 + 2 = u + 1 := by omega
      rw [hpu] at hcl hcm
      rw [he2] at hcm hcr
      have hslIu1 : numInternal l b ≤ slotLo (treeH l b) (u + 1) := by
        have := slotLo_ge (treeH l b) (u + 1)
        omega
      have hHiU : nodeHi l b u =
          min (numLeaves l b) (slotLo (treeH l b) (u + 1) - numInternal l b) := by
        unfold nodeHi blkHi
        rw [hcm]
      have hrsLo : nodeLo l b (u + 1) =
          slotLo (treeH l b) (u + 1) - numInternal l b := rfl
      have hdpu : dpt u = dpt ((u - 1) / 2) + 1 := by
        conv_lhs => rw [← hpu]
        exact dpt_left_child ((u - 1) / 2)
      have hpHi : nodeHi l b ((u - 1) / 2) = nodeHi l b (u + 1) := by
        unfold nodeHi blkHi
        rw [← hcr]
      have hploL : nodeLo l b ((u - 1) / 2) = nodeLo l b u := by
        unfold nodeLo blkLo
        rw [← hcl]
      by_cases hrsN : u + 1 < numNodes l b
      · by_cases hreal : slotLo (treeH l b) (u + 1) - numInternal l b < numLeaves l b
        · -- the sibling's span is realized
          have hHiU' : nodeHi l b u = slotLo (treeH l b) (u + 1) - numInternal l b := by
            rw [hHiU]
            omega
          have hrsHi : nodeHi l b u < nodeHi l b (u + 1) := by
            rw [hHiU']
            unfold nodeHi blkHi
            have h1 := slotLo_lt_slotHi (treeH l b) (u + 1)
            omega
          have hrsHiL : nodeHi l b (u + 1) ≤ numLeaves l b := nodeHi_le l b (u + 1)
          have hgrs := (hagg (u + 1) hrsN).1 (by rw [hrsLo]; exact hreal)
          rw [hrsLo, ← hHiU'] at hgrs
          have hrsne : segOf l b (nodeHi l b u) (nodeHi l b (u + 1)) ≠ [] :=
            segOf_ne_nil hl hb (by rw [hHiU']; exact hreal) hrsHi
          have hrslen : (((segOf l b (nodeHi l b u) (nodeHi l b (u + 1))).length : Int)) < i64MAX := by
            have h1 := segOf_length_le l b (nodeHi l b u) (nodeHi l b (u + 1))
            have h2 : (((segOf l b (nodeHi l b u) (nodeHi l b (u + 1))).length : Int)) ≤ (l.length : Int) := by
              exact_mod_cast h1
            omega
          have hbr_iff : ((excess_tree l b).min_excess (u + 1) ≤ x ∧
              x ≤ (excess_tree l b).max_excess (u + 1)) ↔
              x ∈ walkVals (segOf l b (nodeHi l b u) (nodeHi l b (u + 1))) 0 := by
            unfold MinMaxTree.min_excess MinMaxTree.max_excess
            rw [hgrs]
            exact agg_bracket_iff hrsne hrslen x
          by_cases hbr : (excess_tree l b).min_excess (u + 1) ≤ x ∧
              x ≤ (excess_tree l b).max_excess (u + 1)
          · -- descend into the sibling
            left
            have hTrs : T = cutExcess l (nodeLo l b (u + 1) * b) + x := by
              rw [hrsLo, ← hHiU']
              exact hT
            have hNh : treeH l b < 2 ^ treeH l b := Nat.lt_two_pow (treeH l b)
            obtain ⟨j, hj1, hj2, hj3, hj4, hj5⟩ :=
              fwd_down_correct hl hb hL2 hbound ((excess_tree l b).nodes.length)
                (u + 1) x T hrsN (by rw [hrsLo]; exact hreal)
                (by rw [hlen]; omega) hTrs
                (by rw [hrsLo, ← hHiU']; exact hbr_iff.1 hbr)
            rw [hrsLo, ← hHiU'] at hj1 hj4
            refine ⟨j, by omega, by omega, hj3, ?_, ?_⟩
            · intro j' h1 h2
              rcases Nat.lt_or_ge j' (nodeHi l b u) with hj' | hj'
              · exact hnm j' h1 hj'
              · exact hj4 j' hj' h2
            · rw [fwd_up_descend _ _ _ _ hodd' (by rw [hlen]; exact hrsN) hbr]
              exact hj5
          · -- skip the sibling and ascend
            have hxn : x ∉ walkVals (segOf l b (nodeHi l b u) (nodeHi l b (u + 1))) 0 :=
              fun hc => hbr (hbr_iff.2 hc)
            have hnm' : ∀ j', begin < j' → j' < nodeHi l b (u + 1) →
                blockMatchFwd l b j' T = false := by
              intro j' h1 h2
              rcases Nat.lt_or_ge j' (nodeHi l b u) with hj' | hj'
              · exact hnm j' h1 hj'
              · have hxv : T - cutExcess l (nodeHi l b u * b) = x := by omega
                exact no_fwd_match_of_not_mem (by omega)
                  (by rw [hxv]; exact hxn) j' hj' h2
            have htrs : (excess_tree l b).total_excess (u + 1) =
                excess (segOf l b (nodeHi l b u) (nodeHi l b (u + 1))) := by
              unfold MinMaxTree.total_excess
              rw [hgrs, walkAgg_total]
            have hTnext : T = cutExcess l (nodeHi l b (u + 1) * b) +
                (x - (excess_tree l b).total_excess (u + 1)) := by
              rw [htrs]
              have hadd := cutExcess_block_additive (l := l) (b := b)
                (a := nodeHi l b u) (c := nodeHi l b (u + 1)) (by omega)
              linarith [hT, hadd]
            by_cases hp0 : (u - 1) / 2 = 0
            · right
              have hu1' : u = 1 := by omega
              have hHirs2 : nodeHi l b (u + 1) = numLeaves l b := by
                have he : u + 1 = 2 := by omega
                rw [he]
                exact nodeHi_two hl hb hL2
              refine ⟨?_, ?_⟩
              · intro j' h1 h2
                exact hnm' j' h1 (by omega)
              · exact fwd_up_skip_none _ _ _ _ hodd' (by rw [hlen]; exact hrsN) hbr
                  (by rw [hlen]; omega) hp0
            · rcases ih ((u - 1) / 2) (x - (excess_tree l b).total_excess (u + 1))
                  (by omega) (by omega) (by rw [hploL]; exact hloL)
                  (by rw [hpHi]; omega) (by omega)
                  (by rw [hpHi]; exact hTnext)
                  (by rw [hpHi]; exact hnm') with hres | hres
              · left
                obtain ⟨j, hj1, hj2, hj3, hj4, hj5⟩ := hres
                refine ⟨j, hj1, hj2, hj3, hj4, ?_⟩
                rw [fwd_up_skip _ _ _ _ hodd' (by rw [hlen]; exact hrsN) hbr
                  (by rw [hlen]; omega) hp0]
                exact hj5
              · right
                refine ⟨hres.1, ?_⟩
                rw [fwd_up_skip _ _ _ _ hodd' (by rw [hlen]; exact hrsN) hbr
                  (by rw [hlen]; omega) hp0]
                exact hres.2
        · -- the sibling's span is unrealized: its aggregate is the zero node
          push_neg at hreal
          have hHiUL : nodeHi l b u = numLeaves l b := by
            rw [hHiU]
            omega
          have hgd := (hagg (u + 1) hrsN).2 (by rw [hrsLo]; omega)
          have hmin0 : (excess_tree l b).min_excess (u + 1) = 0 := by
            unfold MinMaxTree.min_excess
            rw [hgd]
            rfl
          have hmax0 : (excess_tree l b).max_excess (u + 1) = 0 := by
            unfold MinMaxTree.max_excess
            rw [hgd]
            rfl
          have htot0 : (excess_tree l b).total_excess (u + 1) = 0 := by
            unfold MinMaxTree.total_excess
            rw [hgd]
            rfl
          by_cases hbr : (excess_tree l b).min_excess (u + 1) ≤ x ∧
              x ≤ (excess_tree l b).max_excess (u + 1)
          · -- this would descend into the unrealized sibling: ruled out
            exfalso
            rw [hmin0, hmax0] at hbr
            have hx0 : x = 0 := le_antisymm hbr.2 hbr.1
            apply hzero_contra
            · rw [← hHiUL, hT, hx0, add_zero]
            · intro j' h1 h2
              exact hnm j' h1 (by omega)
          · -- skip the zero sibling
            have hrsHiL : nodeHi l b (u + 1) = numLeaves l b := by
              unfold nodeHi blkHi
              have h1 := slotLo_lt_slotHi (treeH l b) (u + 1)
              omega
            by_cases hp0 : (u - 1) / 2 = 0
            · right
              refine ⟨fun j' h1 h2 => hnm j' h1 (by omega), ?_⟩
              exact fwd_up_skip_none _ _ _ _ hodd' (by rw [hlen]; exact hrsN) hbr
                (by rw [hlen]; omega) hp0
            · rcases ih ((u - 1) / 2) (x - (excess_tree l b).total_excess (u + 1))
                  (by omega) (by omega) (by rw [hploL]; exact hloL)
                  (by rw [hpHi, hrsHiL]; exact hbeg) (by omega)
                  (by rw [hpHi, hrsHiL, htot0, sub_zero, ← hHiUL]; exact hT)
                  (by
                    rw [hpHi, hrsHiL]
                    intro j' h1 h2
                    exact hnm j' h1 (by omega)) with hres | hres
              · left
                obtain ⟨j, hj1, hj2, hj3, hj4, hj5⟩ := hres
                refine ⟨j, hj1, hj2, hj3, hj4, ?_⟩
                rw [fwd_up_skip _ _ _ _ hodd' (by rw [hlen]; exact hrsN) hbr
                  (by rw [hlen]; omega) hp0]
                exact hj5
              · right
                refine ⟨hres.1, ?_⟩
                rw [fwd_up_skip _ _ _ _ hodd' (by rw [hlen]; exact hrsN) hbr
                  (by rw [hlen]; omega) hp0]
                exact hres.2
      · -- no right sibling inside the array
        push_neg at hrsN
        right
        have hHiUL : nodeHi l b u = numLeaves l b := by
          rw [hHiU]
          have h1 := self_le_slotLo (treeH l b) (u + 1)
          omega
        refine ⟨fun j' h1 h2 => hnm j' h1 (by omega), ?_⟩
        exact fwd_up_no_sibling _ _ _ _ hodd' (by rw [hlen]; omega)
    · -- a right child (or the node 2): ascend without a test
      have heven : ¬ (excess_tree l b).is_left_child u = true := by
        rw [is_left_child_iff]
        omega
      have hu2 : 2 ≤ u := by omega
      have hpu : ((u - 1) / 2) * 2 + 2 = u := by omega
      have hpI : (u - 1) / 2 < numInternal l b := by
        by_contra hge
        push_neg at hge
        have := leaf_no_children hl hb ((u - 1) / 2) hge
        omega
      have hdp := internal_dpt_lt hl hb hL2 hpI
      obtain ⟨hcl, hcm, hcr⟩ := slot_children (h := treeH l b) hdp
      rw [hpu] at hcr
      have hpHi : nodeHi l b ((u - 1) / 2) = nodeHi l b u := by
        unfold nodeHi blkHi
        rw [← hcr]
      have hploL : nodeLo l b ((u - 1) / 2) < numLeaves l b := by
        have h1 := slotLo_lt_slotHi (treeH l b) ((u - 1) / 2 * 2 + 1)
        rw [hcm, hpu] at h1
        have h2 := slotLo_ge (treeH l b) ((u - 1) / 2)
        unfold nodeLo blkLo
        unfold nodeLo blkLo at hloL
        rw [hcl] at h1
        omega
      have hdpu : dpt u = dpt ((u - 1) / 2) + 1 := by
        conv_lhs => rw [← hpu]
        exact dpt_right_child ((u - 1) / 2)
      by_cases hp0 : (u - 1) / 2 = 0
      · right
        have hu2' : u = 2 := by omega
        have hHiUL : nodeHi l b u = numLeaves l b := by
          rw [hu2']
          exact nodeHi_two hl hb hL2
        refine ⟨fun j' h1 h2 => hnm j' h1 (by omega), ?_⟩
        exact fwd_up_asc_none _ _ _ _ heven (by rw [hlen]; omega) hp0
      · rcases ih ((u - 1) / 2) x (by omega) (by omega) hploL
            (by rw [hpHi]; exact hbegHi) (by omega)
            (by rw [hpHi]; exact hT) (by rw [hpHi]; exact hnm) with hres | hres
        · left
          obtain ⟨j, hj1, hj2, hj3, hj4, hj5⟩ := hres
          refine ⟨j, hj1, hj2, hj3, hj4, ?_⟩
          rw [fwd_up_asc _ _ _ _ heven (by rw [hlen]; omega) hp0]
          exact hj5
        · right
          refine ⟨hres.1, ?_⟩
          rw [fwd_up_asc _ _ _ _ heven (by rw [hlen]; omega) hp0]
          exact hres.2

/-! ### Correctness of the backward upward search -/

theorem nodeLo_one {l : List Bool} {b : Nat} (hl : l ≠ []) (hb : 1 ≤ b)
    (hL2 : 2 ≤ numLeaves l b) : nodeLo l b 1 = 0 := by
  obtain ⟨hI, hh, hup, hpw, hN, hN2⟩ := ctx_facts hl hb hL2
  have hd1 : dpt 1 = 1 := dpt_eq_of_ge (by norm_num) (by norm_num)
  unfold nodeLo blkLo slotLo
  rw [hd1]
  have hpow2 : 2 ^ treeH l b = 2 ^ (treeH l b - 1) * 2 := by
    conv_lhs => rw [show treeH l b = treeH l b - 1 + 1 by omega]
    rw [pow_succ]
  omega

theorem descend_fuel {l : List Bool} {b : Nat} (hl : l ≠ []) (hb : 1 ≤ b)
    (hL2 : 2 ≤ numLeaves l b) (d : Nat) :
    treeH l b - d + 1 ≤ (excess_tree l b).nodes.length := by
  obtain ⟨hI, hh, hup, hpw, hN, hN2⟩ := ctx_facts hl hb hL2
  have hlen := (excess_tree_spec hl hb).1
  have hNh : treeH l b < 2 ^ treeH l b := Nat.lt_two_pow (treeH l b)
  rw [hlen]
  omega

theorem bwd_up_correct {l : List Bool} {b : Nat} (hl : l ≠ []) (hb : 1 ≤ b)
    (hL2 : 2 ≤ numLeaves l b) (hbound : (l.length : Int) < i64MAX)
    (begin : Nat) (hbeg : begin < numLeaves l b) (T : Int) :
    ∀ fuel u x, 1 ≤ u → u < numNodes l b → nodeLo l b u ≤ begin →
      dpt u + 1 ≤ fuel →
      T = cutExcess l (nodeLo l b u * b) + x →
      (∀ j', nodeLo l b u ≤ j' → j' < begin → blockMatchBwd l b j' T = false) →
      (∃ j, j < begin ∧ blockMatchBwd l b j T = true ∧
        (∀ j', j < j' → j' < begin → blockMatchBwd l b j' T = false) ∧
        (excess_tree l b).do_bwd_upwards_search fuel u x =
          RustResult.ok (some (numInternal l b + j, T - cutExcess l ((j + 1) * b))))
      ∨ ((∀ j', j' < begin → blockMatchBwd l b j' T = false) ∧
        (excess_tree l b).do_bwd_upwards_search fuel u x = RustResult.ok none) := by
  obtain ⟨hI, hh, hup, hpw, hN, hN2⟩ := ctx_facts hl hb hL2
  obtain ⟨hlen, hleafagg, hint⟩ := excess_tree_spec hl hb
  have hfl := first_leaf_eq hl hb
  have hagg := node_agg hl hb hL2 hbound
  have hI1 : 1 ≤ numInternal l b := by
    have h2 : (2:Nat) ^ 1 ≤ 2 ^ treeH l b := Nat.pow_le_pow_right (by omega) hh
    omega
  have hone := nodeLo_one hl hb hL2
  intro fuel
  induction fuel with
  | zero =>
    intro u x h1 h2 h3 h4 h5
    omega
  | succ fuel ih =>
    intro u x hu1 huN hLoBeg hfuel hT hnm
    have hLoU : nodeLo l b u = slotLo (treeH l b) u - numInternal l b := rfl
    by_cases hodd : u % 2 = 1
    · -- a left child: ascend without a test
      have hodd' : (excess_tree l b).is_left_child u = true := by
        rw [is_left_child_iff]
        exact hodd
      have hpu : ((u - 1) / 2) * 2 + 1 = u := by omega
      have hpI : (u - 1) / 2 < numInternal l b := by
        by_contra hge
        push_neg at hge
        have := leaf_no_children hl hb ((u - 1) / 2) hge
        omega
      have hdp := internal_dpt_lt hl hb hL2 hpI
      obtain ⟨hcl, hcm, hcr⟩ := slot_children (h := treeH l b) hdp
      rw [hpu] at hcl
      have hpLo : nodeLo l b ((u - 1) / 2) = nodeLo l b u := by
        unfold nodeLo blkLo
        rw [← hcl]
      have hdpu : dpt u = dpt ((u - 1) / 2) + 1 := by
        conv_lhs => rw [← hpu]
        exact dpt_left_child ((u - 1) / 2)
      by_cases hp0 : (u - 1) / 2 = 0
      · -- the parent is the root: nothing left of the whole range
        right
        have hu1' : u = 1 := by omega
        refine ⟨?_, ?_⟩
        · intro j' h2
          apply hnm j' _ h2
          rw [hu1', hone]
          omega
        · exact bwd_up_asc_none _ _ _ _ hodd' (by rw [hlen]; omega) hp0
      · rcases ih ((u - 1) / 2) x (by omega) (by omega) (by rw [hpLo]; exact hLoBeg)
            (by omega) (by rw [hpLo]; exact hT)
            (by rw [hpLo]; exact hnm) with hres | hres
        · left
          obtain ⟨j, hj1, hj2, hj3, hj4⟩ := hres
          refine ⟨j, hj1, hj2, hj3, ?_⟩
          rw [bwd_up_asc _ _ _ _ hodd' (by rw [hlen]; omega) hp0]
          exact hj4
        · right
          refine ⟨hres.1, ?_⟩
          rw [bwd_up_asc _ _ _ _ hodd' (by rw [hlen]; omega) hp0]
          exact hres.2
    · -- a right child: examine the left sibling
      have heven : ¬ (excess_tree l b).is_left_child u = true := by
        rw [is_left_child_iff]
        omega
      have hu2 : 2 ≤ u := by omega
      have hpu : ((u - 1) / 2) * 2 + 2 = u := by omega
      have hpI : (u - 1) / 2 < numInternal l b := by
        by_contra hge
        push_neg at hge
        have := leaf_no_children hl hb ((u - 1) / 2) hge
        omega
      have hdp := internal_dpt_lt hl hb hL2 hpI
      obtain ⟨hcl, hcm, hcr⟩ := slot_children (h := treeH l b) hdp
      have he1 : (u - 1) / 2 * 2 + 1 = u - 1 := by omega
      rw [he1] at hcl hcm
      rw [hpu] at hcm hcr
      -- hcl : slotLo (u-1) = slotLo ((u-1)/2); hcm : slotHi (u-1) = slotLo u;
      -- hcr : slotHi u = slotHi ((u-1)/2)
      have hlsHi : nodeHi l b (u - 1) = nodeLo l b u := by
        unfold nodeHi blkHi nodeLo blkLo
        rw [hcm]
        omega
      have hlsLo : nodeLo l b (u - 1) = nodeLo l b ((u - 1) / 2) := by
        unfold nodeLo blkLo
        rw [hcl]
      have hlsLoLt : nodeLo l b (u - 1) < nodeLo l b u := by
        have h1 := slotLo_lt_slotHi (treeH l b) (u - 1)
        rw [hcm] at h1
        have h2 := slotLo_ge (treeH l b) (u - 1)
        unfold nodeLo blkLo
        omega
      have hfull_ls : slotHi (treeH l b) (u - 1) ≤ numNodes l b := by
        rw [hcm]
        omega
      have hlsN : u - 1 < numNodes l b := by omega
      have hlsLoL : nodeLo l b (u - 1) < numLeaves l b := by omega
      have hgls := (hagg (u - 1) hlsN).1 hlsLoL
      rw [hlsHi] at hgls
      have htls : (excess_tree l b).total_excess (u - 1) =
          excess (segOf l b (nodeLo l b (u - 1)) (nodeLo l b u)) := by
        unfold MinMaxTree.total_excess
        rw [hgls, walkAgg_total]
      have hTv : T = cutExcess l (nodeLo l b (u - 1) * b) +
          (x + (excess_tree l b).total_excess (u - 1)) := by
        rw [htls]
        have hadd := cutExcess_block_additive (l := l) (b := b)
          (a := nodeLo l b (u - 1)) (c := nodeLo l b u) (by omega)
        linarith [hT, hadd]
      have htest_iff : (x + (excess_tree l b).total_excess (u - 1) = 0 ∨
          ((excess_tree l b).min_excess (u - 1) ≤
              x + (excess_tree l b).total_excess (u - 1) ∧
           x + (excess_tree l b).total_excess (u - 1) ≤
              (excess_tree l b).max_excess (u - 1))) ↔
          ∃ q, nodeLo l b (u - 1) * b ≤ q ∧ q ≤ nodeLo l b u * b ∧
            q ≤ l.length ∧ cutExcess l q = T := by
        unfold MinMaxTree.min_excess MinMaxTree.max_excess
        rw [hgls]
        exact bwd_acc_iff hl hb hbound hlsLoL hlsLoLt hTv
      by_cases hacc : x + (excess_tree l b).total_excess (u - 1) = 0 ∨
          ((excess_tree l b).min_excess (u - 1) ≤
              x + (excess_tree l b).total_excess (u - 1) ∧
           x + (excess_tree l b).total_excess (u - 1) ≤
              (excess_tree l b).max_excess (u - 1))
      · -- descend into the left sibling
        left
        have hNh : treeH l b < 2 ^ treeH l b := Nat.lt_two_pow (treeH l b)
        obtain ⟨j, hj1, hj2, hj3, hj4, hj5⟩ :=
          bwd_down_correct hl hb hL2 hbound ((excess_tree l b).nodes.length)
            (u - 1) x T hlsN hfull_ls (descend_fuel hl hb hL2 _)
            (by rw [hlsHi]; exact hT)
            (by rw [hlsHi]; exact htest_iff.1 hacc)
        rw [hlsHi] at hj2 hj4
        refine ⟨j, by omega, hj3, ?_, ?_⟩
        · intro j' h1 h2
          rcases Nat.lt_or_ge j' (nodeLo l b u) with hj' | hj'
          · exact hj4 j' h1 hj'
          · exact hnm j' hj' h2
        · rw [bwd_up_descend _ _ _ _ heven hu2 hacc]
          exact hj5
      · -- skip the left sibling and ascend
        have hnex : ¬ ∃ q, nodeLo l b (u - 1) * b ≤ q ∧ q ≤ nodeLo l b u * b ∧
            q ≤ l.length ∧ cutExcess l q = T := fun hc => hacc (htest_iff.2 hc)
        have hnm' : ∀ j', nodeLo l b (u - 1) ≤ j' → j' < begin →
            blockMatchBwd l b j' T = false := by
          intro j' h1 h2
          rcases Nat.lt_or_ge j' (nodeLo l b u) with hj' | hj'
          · exact no_bwd_match_of_no_cut hnex j' h1 hj'
          · exact hnm j' hj' h2
        have hdpu : dpt u = dpt ((u - 1) / 2) + 1 := by
          conv_lhs => rw [← hpu]
          exact dpt_right_child ((u - 1) / 2)
        by_cases hp0 : (u - 1) / 2 = 0
        · -- the parent is the root
          right
          have hu2' : u = 2 := by omega
          have hls0 : nodeLo l b (u - 1) = 0 := by
            have he : u - 1 = 1 := by omega
            rw [he, hone]
          refine ⟨?_, ?_⟩
          · intro j' h2
            exact hnm' j' (by omega) h2
          · exact bwd_up_skip_none _ _ _ _ heven hu2 hacc (by rw [hlen]; omega) hp0
        · rcases ih ((u - 1) / 2) (x + (excess_tree l b).total_excess (u - 1))
              (by omega) (by omega) (by rw [← hlsLo]; omega)
              (by omega) (by rw [← hlsLo]; exact hTv)
              (by rw [← hlsLo]; exact hnm') with hres | hres
          · left
            obtain ⟨j, hj1, hj2, hj3, hj4⟩ := hres
            refine ⟨j, hj1, hj2, hj3, ?_⟩
            rw [bwd_up_skip _ _ _ _ heven hu2 hacc (by rw [hlen]; omega) hp0]
            exact hj4
          · right
            refine ⟨hres.1, ?_⟩
            rw [bwd_up_skip _ _ _ _ heven hu2 hacc (by rw [hlen]; omega) hp0]
            exact hres.2

/-! ### Brute-force agreement: claim theorems for the two searches -/

theorem fwdBruteSearch_eq (l : List Bool) (b begin : Nat) (x : Int) :
    fwdBruteSearch l b begin x =
      (match (List.range (numLeaves l b)).find?
          (fun j => decide (begin < j) &&
            blockMatchFwd l b j (cutExcess l (min ((begin + 1) * b) l.length) + x)) with
       | some j => some (j, (cutExcess l (min ((begin + 1) * b) l.length) + x) -
           cutExcess l (j * b))
       | none => none) := rfl

theorem bwdBruteSearch_eq (l : List Bool) (b begin : Nat) (x : Int) :
    bwdBruteSearch l b begin x =
      (match ((List.range begin).reverse).find?
          (fun j => blockMatchBwd l b j (cutExcess l (min (begin * b) l.length) + x)) with
       | some j => some (j, (cutExcess l (min (begin * b) l.length) + x) -
           cutExcess l ((j + 1) * b))
       | none => none) := rfl

/-- C1 (amended): for every nonempty bit sequence, `B ≥ 1`, realized block
index `begin` and relative excess `x ≠ 0`, `fwd_search` returns normally and
agrees exactly with the brute-force left-to-right scan over the blocks right
of `begin` (first matching block, with `x` re-expressed relative to that
block's start), and the brute-force result is never block `begin` itself.
The restriction `x ≠ 0` is necessary: for `x = 0` the search can reach the
`unreachable!` abort (see the accompanying counterexample). -/
theorem C1_fwd_search_agrees_with_brute (l : List Bool) (b begin : Nat) (x : Int)
    (hl : l ≠ []) (hb : 1 ≤ b) (hbound : (l.length : Int) < i64MAX)
    (hbeg : begin < numLeaves l b) (hx : x ≠ 0) :
    (excess_tree l b).fwd_search begin x =
      RustResult.ok (fwdBruteSearch l b begin x) ∧
    ∀ v : Int, fwdBruteSearch l b begin x ≠ some (begin, v) := by
  have hL1 := numLeaves_pos hl hb
  obtain ⟨hlen, hleafagg, hint⟩ := excess_tree_spec hl hb
  have hfl := first_leaf_eq hl hb
  have hNN : numNodes l b = numLeaves l b + numInternal l b := rfl
  have hT0 : cutExcess l (min ((begin + 1) * b) l.length) =
      cutExcess l ((begin + 1) * b) := by
    rcases Nat.le_total ((begin + 1) * b) l.length with hle | hge
    · rw [Nat.min_eq_left hle]
    · rw [Nat.min_eq_right hge, cutExcess_saturate (le_refl l.length),
        cutExcess_saturate hge]
  by_cases hL2 : 2 ≤ numLeaves l b
  · obtain ⟨hI, hh, hup, hpw, hN, hN2⟩ := ctx_facts hl hb hL2
    have hI1 : 1 ≤ numInternal l b := by
      have h2 : (2:Nat) ^ 1 ≤ 2 ^ treeH l b := Nat.pow_le_pow_right (by omega) hh
      omega
    have hu0N : begin + numInternal l b < numNodes l b := by omega
    obtain ⟨e1, e2, e3, e4⟩ := leaf_slots hl hb hL2
      (i := begin + numInternal l b) (by omega) hu0N
    have e3' : nodeLo l b (begin + numInternal l b) = begin := by
      rw [e3]
      omega
    have e4' : nodeHi l b (begin + numInternal l b) = begin + 1 := by
      rw [e4]
      omega
    have hdpt : dpt (begin + numInternal l b) + 1 ≤ numNodes l b := by
      have hd := dpt_lt_of_lt_pow (i := begin + numInternal l b)
        (h := treeH l b + 1) (by omega)
      have hNh : treeH l b < 2 ^ treeH l b := Nat.lt_two_pow (treeH l b)
      omega
    have hTne : cutExcess l ((begin + 1) * b) + x ≠ cutExcess l ((begin + 1) * b) := by
      intro hc
      apply hx
      omega
    have hcall : (excess_tree l b).fwd_search begin x =
        (match (excess_tree l b).do_fwd_upwards_search (numNodes l b)
            (begin + numInternal l b) x with
        | RustResult.ok r =>
          RustResult.ok (r.map fun n => (n.1 - numInternal l b, n.2))
        | RustResult.panicked => RustResult.panicked) := by
      unfold MinMaxTree.fwd_search
      rw [hfl, hlen]
      rw [if_neg (by omega), if_neg (by omega)]
    rcases fwd_up_correct hl hb hL2 hbound begin hbeg
        (cutExcess l ((begin + 1) * b) + x) hTne (numNodes l b)
        (begin + numInternal l b) x (by omega) hu0N (by rw [e3']; omega)
        (by rw [e4']; omega) hdpt (by rw [e4'])
        (by
          intro j' h1 h2
          rw [e4'] at h2
          exact absurd h2 (by omega)) with hres | hres
    · obtain ⟨j, hj1, hj2, hj3, hj4, hj5⟩ := hres
      have hfind : (List.range (numLeaves l b)).find?
          (fun j' => decide (begin < j') &&
            blockMatchFwd l b j' (cutExcess l (min ((begin + 1) * b) l.length) + x)) =
          some j := by
        rw [hT0]
        apply (find?_range_some _ _ _).2
        refine ⟨hj2, ?_, ?_⟩
        · rw [Bool.and_eq_true, decide_eq_true_iff]
          exact ⟨hj1, hj3⟩
        · intro i hi
          by_cases hbi : begin < i
          · rw [hj4 i hbi hi, Bool.and_false]
          · rw [decide_eq_false hbi, Bool.false_and]
      have hval : fwdBruteSearch l b begin x = some (j,
          (cutExcess l (min ((begin + 1) * b) l.length) + x) - cutExcess l (j * b)) := by
        rw [fwdBruteSearch_eq, hfind]
      refine ⟨?_, ?_⟩
      · rw [hcall, hj5, hval]
        simp only [Option.map_some']
        rw [hT0]
        have he : numInternal l b + j - numInternal l b = j := by omega
        rw [he]
      · intro v hc
        rw [hval] at hc
        injection hc with hc
        have hfst := congrArg Prod.fst hc
        simp only at hfst
        omega
    · obtain ⟨hnm2, hres2⟩ := hres
      have hfind : (List.range (numLeaves l b)).find?
          (fun j' => decide (begin < j') &&
            blockMatchFwd l b j' (cutExcess l (min ((begin + 1) * b) l.length) + x)) =
          none := by
        rw [hT0]
        apply (find?_range_none _ _).2
        intro j hj
        by_cases hbj : begin < j
        · rw [hnm2 j hbj hj, Bool.and_false]
        · rw [decide_eq_false hbj, Bool.false_and]
      have hval : fwdBruteSearch l b begin x = none := by
        rw [fwdBruteSearch_eq, hfind]
      refine ⟨?_, ?_⟩
      · rw [hcall, hres2, hval]
        rfl
      · intro v hc
        rw [hval] at hc
        cases hc
  · -- a single-block tree: the search space right of `begin` is empty
    have hL1' : numLeaves l b = 1 := by omega
    obtain ⟨hIeq, hNeq⟩ := numLeaves_one_sizes hL1'
    have hbeg0 : begin = 0 := by omega
    subst hbeg0
    have hfind : (List.range (numLeaves l b)).find?
        (fun j => decide (0 < j) &&
          blockMatchFwd l b j (cutExcess l (min ((0 + 1) * b) l.length) + x)) =
        none := by
      apply (find?_range_none _ _).2
      intro j hj
      have hj0 : j = 0 := by omega
      rw [hj0, decide_eq_false (by omega), Bool.false_and]
    have hval : fwdBruteSearch l b 0 x = none := by
      rw [fwdBruteSearch_eq, hfind]
    have hcall : (excess_tree l b).fwd_search 0 x = RustResult.ok none := by
      unfold MinMaxTree.fwd_search
      rw [hfl, hlen, hIeq, hNeq]
      rw [if_neg (by omega), if_neg (by omega)]
      rw [show (2:Nat) = 1 + 1 from rfl]
      rw [fwd_up_no_sibling _ _ _ _ (by rw [is_left_child_iff])
        (by rw [hlen, hNeq])]
      rfl
    refine ⟨?_, ?_⟩
    · rw [hcall, hval]
    · intro v hc
      rw [hval] at hc
      cases hc

/-- C1 witness for the amended statement. -/
theorem C1_agrees_witness :
    ([true, false] ≠ ([] : List Bool)) ∧ (1:Nat) ≤ 1 ∧
    (([true, false].length : Int) < i64MAX) ∧ 0 < numLeaves [true, false] 1 ∧
    ((-1 : Int) ≠ 0) ∧
    (excess_tree [true, false] 1).fwd_search 0 (-1) =
      RustResult.ok (fwdBruteSearch [true, false] 1 0 (-1)) :=
  ⟨by decide, by decide, by decide, by decide, by decide,
   (C1_fwd_search_agrees_with_brute [true, false] 1 0 (-1) (by decide) (by decide)
     (by decide) (by decide) (by decide)).1⟩

/-- C2: for every nonempty bit sequence, `B ≥ 1`, realized block index
`begin` and every relative excess `x`, `bwd_search` returns normally and
agrees exactly with the brute-force right-to-left scan over the blocks left
of `begin` (nearest matching block, with `x` re-expressed relative to that
block's end), and the brute-force result is never block `begin` itself. -/
theorem C2_bwd_search_agrees_with_brute (l : List Bool) (b begin : Nat) (x : Int)
    (hl : l ≠ []) (hb : 1 ≤ b) (hbound : (l.length : Int) < i64MAX)
    (hbeg : begin < numLeaves l b) :
    (excess_tree l b).bwd_search begin x =
      RustResult.ok (bwdBruteSearch l b begin x) ∧
    ∀ v : Int, bwdBruteSearch l b begin x ≠ some (begin, v) := by
  have hL1 := numLeaves_pos hl hb
  obtain ⟨hlen, hleafagg, hint⟩ := excess_tree_spec hl hb
  have hfl := first_leaf_eq hl hb
  have hNN : numNodes l b = numLeaves l b + numInternal l b := rfl
  have hT0 : cutExcess l (min (begin * b) l.length) = cutExcess l (begin * b) := by
    rw [Nat.min_eq_left (le_of_lt (mul_lt_length hl hb hbeg))]
  by_cases hL2 : 2 ≤ numLeaves l b
  · obtain ⟨hI, hh, hup, hpw, hN, hN2⟩ := ctx_facts hl hb hL2
    have hI1 : 1 ≤ numInternal l b := by
      have h2 : (2:Nat) ^ 1 ≤ 2 ^ treeH l b := Nat.pow_le_pow_right (by omega) hh
      omega
    have hu0N : begin + numInternal l b < numNodes l b := by omega
    obtain ⟨e1, e2, e3, e4⟩ := leaf_slots hl hb hL2
      (i := begin + numInternal l b) (by omega) hu0N
    have e3' : nodeLo l b (begin + numInternal l b) = begin := by
      rw [e3]
      omega
    have hdpt : dpt (begin + numInternal l b) + 1 ≤ numNodes l b := by
      have hd := dpt_lt_of_lt_pow (i := begin + numInternal l b)
        (h := treeH l b + 1) (by omega)
      have hNh : treeH l b < 2 ^ treeH l b := Nat.lt_two_pow (treeH l b)
      omega
    have hcall : (excess_tree l b).bwd_search begin x =
        (match (excess_tree l b).do_bwd_upwards_search (numNodes l b)
            (begin + numInternal l b) x with
        | RustResult.ok r =>
          RustResult.ok (r.map fun n => (n.1 - numInternal l b, n.2))
        | RustResult.panicked => RustResult.panicked) := by
      unfold MinMaxTree.bwd_search
      rw [hfl, hlen]
      rw [if_neg (by omega), if_neg (by omega)]
    rcases bwd_up_correct hl hb hL2 hbound begin hbeg
        (cutExcess l (begin * b) + x) (numNodes l b)
        (begin + numInternal l b) x (by omega) hu0N (by rw [e3']) hdpt
        (by rw [e3'])
        (by
          intro j' h1 h2
          rw [e3'] at h1
          exact absurd h2 (by omega)) with hres | hres
    · obtain ⟨j, hj1, hj2, hj3, hj4⟩ := hres
      have hfind : ((List.range begin).reverse).find?
          (fun j' => blockMatchBwd l b j' (cutExcess l (min (begin * b) l.length) + x)) =
          some j := by
        rw [hT0]
        exact (find?_rev_range_some _ _ _).2 ⟨hj1, hj2, hj3⟩
      have hval : bwdBruteSearch l b begin x = some (j,
          (cutExcess l (min (begin * b) l.length) + x) - cutExcess l ((j + 1) * b)) := by
        rw [bwdBruteSearch_eq, hfind]
      refine ⟨?_, ?_⟩
      · rw [hcall, hj4, hval]
        simp only [Option.map_some']
        rw [hT0]
        have he : numInternal l b + j - numInternal l b = j := by omega
        rw [he]
      · intro v hc
        rw [hval] at hc
        injection hc with hc
        have hfst := congrArg Prod.fst hc
        simp only at hfst
        omega
    · obtain ⟨hnm2, hres2⟩ := hres
      have hfind : ((List.range begin).reverse).find?
          (fun j' => blockMatchBwd l b j' (cutExcess l (min (begin * b) l.length) + x)) =
          none := by
        rw [hT0]
        exact (find?_rev_range_none _ _).2 hnm2
      have hval : bwdBruteSearch l b begin x = none := by
        rw [bwdBruteSearch_eq, hfind]
      refine ⟨?_, ?_⟩
      · rw [hcall, hres2, hval]
        rfl
      · intro v hc
        rw [hval] at hc
        cases hc
  · -- a single-block tree
    have hL1' : numLeaves l b = 1 := by omega
    obtain ⟨hIeq, hNeq⟩ := numLeaves_one_sizes hL1'
    have hbeg0 : begin = 0 := by omega
    subst hbeg0
    have hval : bwdBruteSearch l b 0 x = none := by
      rw [bwdBruteSearch_eq]
      rfl
    have hcall : (excess_tree l b).bwd_search 0 x = RustResult.ok none := by
      unfold MinMaxTree.bwd_search
      rw [hfl, hlen, hIeq, hNeq]
      rw [if_neg (by omega), if_neg (by omega)]
      rw [show (2:Nat) = 1 + 1 from rfl]
      rw [bwd_up_asc_none _ _ _ _ (by rw [is_left_child_iff])
        (by omega) (by omega)]
      rfl
    refine ⟨?_, ?_⟩
    · rw [hcall, hval]
    · intro v hc
      rw [hval] at hc
      cases hc

/-- C2 witness. -/
theorem C2_witness :
    ([true, false] ≠ ([] : List Bool)) ∧ (1:Nat) ≤ 1 ∧
    (([true, false].length : Int) < i64MAX) ∧ 1 < numLeaves [true, false] 1 ∧
    (excess_tree [true, false] 1).bwd_search 1 (-1) =
      RustResult.ok (bwdBruteSearch [true, false] 1 1 (-1)) :=
  ⟨by decide, by decide, by decide, by decide,
   (C2_bwd_search_agrees_with_brute [true, false] 1 1 (-1) (by decide) (by decide)
     (by decide) (by decide)).1⟩

/-- C6: only backward search has the exact-zero acceptance rule: a backward
candidate (left sibling during ascent, right child during descent) is accepted
whenever the adjusted relative excess is exactly zero, even when zero lies
outside the candidate's `[min, max]` interval, and also whenever it lies in
the interval; forward search applies only the `[min, max]` test, so a
bracket failure at the right sibling always skips it regardless of the value. -/
theorem C6_backward_exact_zero_rule (t : MinMaxTree) (fuel node : Nat) (x : Int) :
    (node % 2 = 0 → 2 ≤ node → x + t.total_excess (node - 1) = 0 →
      t.do_bwd_upwards_search (fuel + 1) node x =
        t.do_bwd_downwards_search t.nodes.length (node - 1) x) ∧
    (t.is_leaf node = false → node * 2 + 2 < t.nodes.length →
      x + t.total_excess (node * 2 + 2) = 0 →
      t.do_bwd_downwards_search (fuel + 1) node x =
        t.do_bwd_downwards_search fuel (node * 2 + 2) x) ∧
    (node % 2 = 1 → node + 1 < t.nodes.length →
      ¬ (t.min_excess (node + 1) ≤ x ∧ x ≤ t.max_excess (node + 1)) →
      t.do_fwd_upwards_search (fuel + 1) node x =
        (if (node - 1) / 2 = 0 then RustResult.ok none
         else t.do_fwd_upwards_search fuel ((node - 1) / 2)
           (x - t.total_excess (node + 1)))) ∧
    (node % 2 = 0 → 2 ≤ node → node < t.nodes.length →
      ¬ (x + t.total_excess (node - 1) = 0) →
      ¬ (t.min_excess (node - 1) ≤ x + t.total_excess (node - 1) ∧
         x + t.total_excess (node - 1) ≤ t.max_excess (node - 1)) →
      t.do_bwd_upwards_search (fuel + 1) node x =
        (if (node - 1) / 2 = 0 then RustResult.ok none
         else t.do_bwd_upwards_search fuel ((node - 1) / 2)
           (x + t.total_excess (node - 1)))) := by
  refine ⟨?_, ?_, ?_, ?_⟩
  · intro heven h2 hz
    exact bwd_up_descend t fuel node x
      (by rw [is_left_child_iff]; omega) h2 (Or.inl hz)
  · intro hnl h2 hz
    exact bwd_down_go_right t fuel node x
      (by rw [hnl]; intro hc; cases hc) h2 (Or.inl hz)
  · intro hodd hlt hnbr
    by_cases hp0 : (node - 1) / 2 = 0
    · rw [if_pos hp0]
      exact fwd_up_skip_none t fuel node x
        (by rw [is_left_child_iff]; exact hodd) hlt hnbr (by omega) hp0
    · rw [if_neg hp0]
      exact fwd_up_skip t fuel node x
        (by rw [is_left_child_iff]; exact hodd) hlt hnbr (by omega) hp0
  · intro heven h2 hlt hz hbr
    by_cases hp0 : (node - 1) / 2 = 0
    · rw [if_pos hp0]
      exact bwd_up_skip_none t fuel node x
        (by rw [is_left_child_iff]; omega) h2 (not_or.mpr ⟨hz, hbr⟩) hlt hp0
    · rw [if_neg hp0]
      exact bwd_up_skip t fuel node x
        (by rw [is_left_child_iff]; omega) h2 (not_or.mpr ⟨hz, hbr⟩) hlt hp0

/-- C6 witness: on the two-bit tree `[(, )]` with block size 1, the ascent
from node 2 with `x = -1` accepts the left sibling (the leaf of block 0,
aggregate `(1, 1, 1)`) by the exact-zero rule, although the adjusted value 0
lies outside `[1, 1]`. -/
theorem C6_witness :
    ((excess_tree [true, false] 1).min_excess 1 = 1 ∧
     (excess_tree [true, false] 1).max_excess 1 = 1 ∧
     (excess_tree [true, false] 1).total_excess 1 = 1) ∧
    (excess_tree [true, false] 1).do_bwd_upwards_search (12 + 1) 2 (-1) =
      (excess_tree [true, false] 1).do_bwd_downwards_search
        (excess_tree [true, false] 1).nodes.length 1 (-1) :=
  ⟨by decide,
   (C6_backward_exact_zero_rule (excess_tree [true, false] 1) 12 2 (-1)).1
     (by decide) (by decide) (by decide)⟩

/-- C7 counterexample: entering the forward descent at node 6 of the tree of
six one-bit blocks with `x = 0`, the node's aggregate (the untouched default
`(0,0,0)` of an obsolete slot) brackets `x`, yet the descent hits the
`unreachable!` abort because the node has no children inside the array. -/
theorem C7_counterexample :
    ((excess_tree (List.replicate 6 true) 1).min_excess 6 ≤ 0 ∧
      (0:Int) ≤ (excess_tree (List.replicate 6 true) 1).max_excess 6) ∧
    (excess_tree (List.replicate 6 true) 1).do_fwd_downwards_search
      (excess_tree (List.replicate 6 true) 1).nodes.length 6 0 =
      RustResult.panicked := by decide

/-- C7 (amended): the descent phases never abort when entered on a node whose
heap span meets the realized leaves: a forward descent entered at a node with
nonempty realized span whose aggregate brackets `x` (equivalently, `x` is a
walk value of the node's segment) terminates normally at a leaf; a backward
descent entered at a node whose span is fully realized, with the backward
acceptance condition satisfied, terminates normally at a leaf.  (Entered at a
node with an empty realized span the descent can abort: see the
counterexample.) -/
theorem C7_descent_reaches_leaf (l : List Bool) (b u : Nat) (x : Int)
    (hl : l ≠ []) (hb : 1 ≤ b) (hL2 : 2 ≤ numLeaves l b)
    (hbound : (l.length : Int) < i64MAX) (hu : u < numNodes l b) :
    (nodeLo l b u < numLeaves l b →
      x ∈ walkVals (segOf l b (nodeLo l b u) (nodeHi l b u)) 0 →
      ∃ j v, (excess_tree l b).is_leaf (numInternal l b + j) = true ∧
        (excess_tree l b).do_fwd_downwards_search
          (excess_tree l b).nodes.length u x =
          RustResult.ok (some (numInternal l b + j, v))) ∧
    (slotHi (treeH l b) u ≤ numNodes l b →
      (∃ q, nodeLo l b u * b ≤ q ∧ q ≤ nodeHi l b u * b ∧ q ≤ l.length ∧
        cutExcess l q = cutExcess l (nodeHi l b u * b) + x) →
      ∃ j v, (excess_tree l b).is_leaf (numInternal l b + j) = true ∧
        (excess_tree l b).do_bwd_downwards_search
          (excess_tree l b).nodes.length u x =
          RustResult.ok (some (numInternal l b + j, v))) := by
  have hfl := first_leaf_eq hl hb
  constructor
  · intro hlo hx
    obtain ⟨j, hj1, hj2, hj3, hj4, hj5⟩ :=
      fwd_down_correct hl hb hL2 hbound ((excess_tree l b).nodes.length) u x
        (cutExcess l (nodeLo l b u * b) + x) hu hlo
        (descend_fuel hl hb hL2 _) rfl hx
    exact ⟨j, cutExcess l (nodeLo l b u * b) + x - cutExcess l (j * b),
      by rw [is_leaf_iff, hfl]; omega, hj5⟩
  · intro hfull hq
    obtain ⟨j, hj1, hj2, hj3, hj4, hj5⟩ :=
      bwd_down_correct hl hb hL2 hbound ((excess_tree l b).nodes.length) u x
        (cutExcess l (nodeHi l b u * b) + x) hu hfull
        (descend_fuel hl hb hL2 _) rfl hq
    exact ⟨j, cutExcess l (nodeHi l b u * b) + x - cutExcess l ((j + 1) * b),
      by rw [is_leaf_iff, hfl]; omega, hj5⟩

/-- C7 witness (for the amended statement): the forward descent entered at
leaf node 1 of the two-block tree with `x = 1` (a walk value of block 0)
terminates at a leaf with a normal result. -/
theorem C7_witness :
    ∃ j v, (excess_tree [true, false] 1).is_leaf (numInternal [true, false] 1 + j) = true ∧
      (excess_tree [true, false] 1).do_fwd_downwards_search
        (excess_tree [true, false] 1).nodes.length 1 1 =
        RustResult.ok (some (numInternal [true, false] 1 + j, v)) := by
  have hl : [true, false] ≠ ([] : List Bool) := by decide
  have hb : (1:Nat) ≤ 1 := by decide
  have hL2 : 2 ≤ numLeaves [true, false] 1 := by decide
  have hbound : (([true, false].length : Int)) < i64MAX := by decide
  have hu : 1 < numNodes [true, false] 1 := by decide
  obtain ⟨e1, e2, e3, e4⟩ := leaf_slots hl hb hL2 (i := 1) (by decide) hu
  refine (C7_descent_reaches_leaf [true, false] 1 1 1 hl hb hL2 hbound hu).1 ?_ ?_
  · rw [e3]
    decide
  · rw [e3, e4]
    decide

end Vers
